import Mathlib

/-!
Verification development for the RobinhoodHashMap repository: a family of
open-addressing hash tables (linear probing with tombstone deletion, linear
probing with backward-shift deletion, and Robin Hood hashing), plus the
benchmark-analysis notebook.

The hash-table engines are shallowly embedded below.  Keys and values are
natural numbers; the hash function is an arbitrary parameter `hash`.  The
backing store is a list of slots; bounded probe loops carry explicit fuel
(one unit per probed slot, `capacity` units in total, which covers a full
wraparound of the probe sequence).
-/

namespace RHM

/-- An entry of the table: key, value, cached hash of the key, and the
probe-sequence length bookkeeping field (maintained by the Robin Hood
variant only). -/
structure Entry where
  key : Nat
  value : Nat
  ehash : Nat
  psl : Nat
deriving DecidableEq, Repr

/-- A slot of the backing array: empty, occupied by an entry, or a
tombstone (tombstones arise only under the tombstone deletion strategy). -/
inductive Slot where
  | empty : Slot
  | occ : Entry → Slot
  | tomb : Slot
deriving DecidableEq, Repr

/-- The table: slot array, live/tombstone counts and the resize threshold
`threshNum / threshDen` on the load factor `(live + tombstone) / capacity`. -/
structure Table where
  slots : List Slot
  live_count : Nat
  tombstone_count : Nat
  threshNum : Nat
  threshDen : Nat
deriving DecidableEq, Repr

/-- Capacity of the table: the length of the slot array (fixed between
resizes). -/
def Table.capacity (t : Table) : Nat := t.slots.length

/-- The slot at index `i` (out-of-range reads default to `empty`; all real
accesses are in range). -/
def slotAt (slots : List Slot) (i : Nat) : Slot := slots.getD i Slot.empty

/-- A fresh table: `cap` empty slots, zero counts. -/
def mkTable (cap tn td : Nat) : Table :=
  ⟨List.replicate cap Slot.empty, 0, 0, tn, td⟩

/-- Cyclic distance from index `a` forward to index `b` in a table of
capacity `cap` (both indices below `cap`). -/
def cdist (cap a b : Nat) : Nat := (b + cap - a) % cap

/-- Home index of a hash value. -/
def homeIdx (cap h : Nat) : Nat := h % cap

/-- The `s`-th probe position for home hash `h`: linear stepping with
wraparound. -/
def probeAt (cap h s : Nat) : Nat := (h % cap + s) % cap

/-! ## Linear probing: lookup scan

Shared by the tombstone and backward-shift variants (on tombstone-free
tables the tombstone case is never taken).  An `empty` slot terminates the
scan with "not found"; a tombstone is skipped; a matching occupied slot
returns its index. -/

/-- Probe scan for a key: returns the index of the slot holding the key,
or `none` if an empty slot (or fuel exhaustion after a full wraparound)
ends the probe first.  `s` is the current step number. -/
def findLoop (slots : List Slot) (cap k h : Nat) : Nat → Nat → Option Nat
  | _, 0 => none
  | s, fuel+1 =>
    match slotAt slots (probeAt cap h s) with
    | Slot.empty => none
    | Slot.tomb => findLoop slots cap k h (s+1) fuel
    | Slot.occ e =>
      if e.key = k then some (probeAt cap h s)
      else findLoop slots cap k h (s+1) fuel

/-- Index of the slot holding key `k`, if present. -/
def Table.findIdxL (hash : Nat → Nat) (t : Table) (k : Nat) : Option Nat :=
  findLoop t.slots t.capacity k (hash k) 0 t.capacity

/-- `emplace` for the linear-probing variants: the stored value for `k`,
or `none` when absent.  It reads the table and builds no new one. -/
def Table.emplaceL (hash : Nat → Nat) (t : Table) (k : Nat) : Option Nat :=
  match t.findIdxL hash k with
  | none => none
  | some i =>
    match slotAt t.slots i with
    | Slot.occ e => some e.value
    | _ => none

/-! ## Linear probing: insert

Walk the probe sequence remembering the first tombstone seen.  A matching
occupied slot means value overwrite; an empty slot ends the search and the
new entry goes into the first tombstone if one was seen, else into that
empty slot.  If a full wraparound finds neither the key nor an empty slot,
the first tombstone (if any) is used; otherwise the table is full and the
insert is dropped (unreachable when an empty slot exists). -/

/-- Outcome of the insert position search: overwrite at an index, place a
new entry at an index (flag: the slot was a tombstone), or table full. -/
inductive InsPos where
  | update : Nat → InsPos
  | place : Nat → Bool → InsPos
  | full : InsPos
deriving DecidableEq, Repr

/-- Insert position search for the linear variants.  `ft` is the first
tombstone index seen so far. -/
def insLoop (slots : List Slot) (cap k h : Nat) :
    Option Nat → Nat → Nat → InsPos
  | ft, _, 0 =>
    match ft with
    | some j => InsPos.place j true
    | none => InsPos.full
  | ft, s, fuel+1 =>
    match slotAt slots (probeAt cap h s) with
    | Slot.empty =>
      match ft with
      | some j => InsPos.place j true
      | none => InsPos.place (probeAt cap h s) false
    | Slot.tomb =>
      match ft with
      | some j => insLoop slots cap k h (some j) (s+1) fuel
      | none => insLoop slots cap k h (some (probeAt cap h s)) (s+1) fuel
    | Slot.occ e =>
      if e.key = k then InsPos.update (probeAt cap h s)
      else insLoop slots cap k h ft (s+1) fuel

/-- Raw insert (no resize check) for the linear variants.  On overwrite the
value is replaced; on placement the new entry is written and the counts
updated (a consumed tombstone decrements `tombstone_count`). -/
def Table.insertRawL (hash : Nat → Nat) (t : Table) (k v : Nat) : Table :=
  match insLoop t.slots t.capacity k (hash k) none 0 t.capacity with
  | InsPos.update i =>
    { t with slots := t.slots.set i (Slot.occ ⟨k, v, hash k, 0⟩) }
  | InsPos.place i isTomb =>
    { t with
      slots := t.slots.set i (Slot.occ ⟨k, v, hash k, 0⟩),
      live_count := t.live_count + 1,
      tombstone_count := if isTomb then t.tombstone_count - 1 else t.tombstone_count }
  | InsPos.full => t

/-! ## Resize

Triggered when `(live + tombstone) / capacity` exceeds the configured
threshold.  Growing doubles the capacity and reinserts every live entry in
original table order with the variant's raw insert; tombstones are dropped
by the pass. -/

/-- The live entries of a slot array, in slot order. -/
def liveEntriesOf (slots : List Slot) : List Entry :=
  slots.filterMap fun s =>
    match s with
    | Slot.occ e => some e
    | _ => none

/-- The live entries of the table, in slot order. -/
def liveEntries (t : Table) : List Entry := liveEntriesOf t.slots

/-- Does the load factor `(live + tombstone) / capacity` strictly exceed
the threshold `threshNum / threshDen`? -/
def Table.loadExceeded (t : Table) : Prop :=
  (t.live_count + t.tombstone_count) * t.threshDen > t.threshNum * t.capacity

instance (t : Table) : Decidable t.loadExceeded := by
  unfold Table.loadExceeded; infer_instance

/-- Grow pass for the linear variants: reinsert all live entries, in table
order, into a fresh store of double capacity. -/
def Table.growL (hash : Nat → Nat) (t : Table) : Table :=
  (liveEntries t).foldl (fun acc e => acc.insertRawL hash e.key e.value)
    (mkTable (2 * t.capacity) t.threshNum t.threshDen)

/-- Full insert for the linear variants: raw insert, then grow when the
threshold is crossed. -/
def Table.insertL (hash : Nat → Nat) (t : Table) (k v : Nat) : Table :=
  let t' := t.insertRawL hash k v
  if t'.loadExceeded then t'.growL hash else t'

/-! ## Remove: tombstone strategy -/

/-- `remove` for the tombstone variant: locate the key with the lookup
scan; on a match the slot becomes a tombstone.  Returns the found flag and
the new table (unchanged when absent). -/
def Table.removeTS (hash : Nat → Nat) (t : Table) (k : Nat) : Bool × Table :=
  match t.findIdxL hash k with
  | none => (false, t)
  | some i =>
    (true,
      { t with
        slots := t.slots.set i Slot.tomb,
        live_count := t.live_count - 1,
        tombstone_count := t.tombstone_count + 1 })

/-! ## Remove: backward-shift strategy

After emptying the key's slot, scan forward from the hole.  An empty slot
ends the scan.  An occupied entry is moved back into the hole when the move
would not take it past its home index (its home is not cyclically inside
`(hole, j]`); the entry's old slot becomes the new hole.  When the move is
not legal the entry is skipped and the scan moves on to the next slot
("we move onto the next one"), the hole staying where it is. -/

/-- The backward-shift repair loop.  `hole` is the current hole index, `j`
the scan index. -/
def shiftLoop (cap : Nat) : List Slot → Nat → Nat → Nat → List Slot
  | slots, _, _, 0 => slots
  | slots, hole, j, fuel+1 =>
    match slotAt slots j with
    | Slot.empty => slots
    | Slot.tomb => slots
    | Slot.occ e =>
      if cdist cap (homeIdx cap e.ehash) j < cdist cap hole j then
        shiftLoop cap slots hole ((j+1) % cap) fuel
      else
        shiftLoop cap ((slots.set hole (Slot.occ e)).set j Slot.empty) j
          ((j+1) % cap) fuel

/-- `remove` for the backward-shift variant. -/
def Table.removeBS (hash : Nat → Nat) (t : Table) (k : Nat) : Bool × Table :=
  match t.findIdxL hash k with
  | none => (false, t)
  | some i =>
    (true,
      { t with
        slots := shiftLoop t.capacity (t.slots.set i Slot.empty) i
          ((i+1) % t.capacity) t.capacity,
        live_count := t.live_count - 1 })

/-! ## Robin Hood variant -/

/-- Robin Hood lookup scan with the early-termination rule: keep probing
while the step count is at most the resident's PSL; a resident strictly
poorer bound (resident PSL below the steps taken) proves absence. -/
def rhFind (slots : List Slot) (cap k h : Nat) : Nat → Nat → Option Nat
  | _, 0 => none
  | s, fuel+1 =>
    match slotAt slots (probeAt cap h s) with
    | Slot.empty => none
    | Slot.tomb => none
    | Slot.occ e =>
      if e.key = k then some (probeAt cap h s)
      else if e.psl < s then none
      else rhFind slots cap k h (s+1) fuel

/-- Index of the slot holding key `k` in the Robin Hood table. -/
def Table.findIdxRH (hash : Nat → Nat) (t : Table) (k : Nat) : Option Nat :=
  rhFind t.slots t.capacity k (hash k) 0 t.capacity

/-- `emplace` for the Robin Hood variant. -/
def Table.emplaceRH (hash : Nat → Nat) (t : Table) (k : Nat) : Option Nat :=
  match t.findIdxRH hash k with
  | none => none
  | some i =>
    match slotAt t.slots i with
    | Slot.occ e => some e.value
    | _ => none

/-- One probed slot of the Robin Hood insert walk, at index `i` with
traveling entry `tr`: place into an empty slot; overwrite on a key match;
swap when the resident's PSL is strictly below the traveling PSL (the
resident travels on); otherwise keep traveling.  The traveling PSL
increments on every step taken.  The result is either a final slot array
(with a flag: did a net new entry get placed?) or the next loop state. -/
def rhStep (cap : Nat) (slots : List Slot) (tr : Entry) (i : Nat) :
    (List Slot × Bool) ⊕ (List Slot × Entry × Nat) :=
  match slotAt slots i with
  | Slot.empty => Sum.inl (slots.set i (Slot.occ tr), true)
  | Slot.tomb => Sum.inl (slots.set i (Slot.occ tr), true)
  | Slot.occ e =>
    if e.key = tr.key then
      Sum.inl (slots.set i (Slot.occ ⟨e.key, tr.value, e.ehash, e.psl⟩), false)
    else if e.psl < tr.psl then
      Sum.inr (slots.set i (Slot.occ tr), ⟨e.key, e.value, e.ehash, e.psl + 1⟩, (i+1) % cap)
    else
      Sum.inr (slots, ⟨tr.key, tr.value, tr.ehash, tr.psl + 1⟩, (i+1) % cap)

/-- The Robin Hood insert walk: iterate `rhStep` with fuel. -/
def rhInsLoop (cap : Nat) : List Slot → Entry → Nat → Nat → List Slot × Bool
  | slots, _, _, 0 => (slots, false)
  | slots, tr, i, fuel+1 =>
    match rhStep cap slots tr i with
    | Sum.inl r => r
    | Sum.inr (slots', tr', i') => rhInsLoop cap slots' tr' i' fuel

/-- Raw Robin Hood insert (no resize check). -/
def Table.insertRawRH (hash : Nat → Nat) (t : Table) (k v : Nat) : Table :=
  let r := rhInsLoop t.capacity t.slots ⟨k, v, hash k, 0⟩
    (homeIdx t.capacity (hash k)) t.capacity
  { t with
    slots := r.1,
    live_count := if r.2 then t.live_count + 1 else t.live_count }

/-- Grow pass for the Robin Hood variant. -/
def Table.growRH (hash : Nat → Nat) (t : Table) : Table :=
  (liveEntries t).foldl (fun acc e => acc.insertRawRH hash e.key e.value)
    (mkTable (2 * t.capacity) t.threshNum t.threshDen)

/-- Full Robin Hood insert: raw insert, then grow when the threshold is
crossed. -/
def Table.insertRH (hash : Nat → Nat) (t : Table) (k v : Nat) : Table :=
  let t' := t.insertRawRH hash k v
  if t'.loadExceeded then t'.growRH hash else t'

/-- The Robin Hood backward-shift repair loop: shift the following run one
slot earlier while each successor's PSL is positive, decrementing the moved
entry's PSL. -/
def rhShift (cap : Nat) : List Slot → Nat → Nat → Nat → List Slot
  | slots, _, _, 0 => slots
  | slots, hole, j, fuel+1 =>
    match slotAt slots j with
    | Slot.empty => slots
    | Slot.tomb => slots
    | Slot.occ e =>
      if e.psl = 0 then slots
      else
        rhShift cap ((slots.set hole (Slot.occ ⟨e.key, e.value, e.ehash, e.psl - 1⟩)).set j Slot.empty)
          j ((j+1) % cap) fuel

/-- `remove` for the Robin Hood variant. -/
def Table.removeRH (hash : Nat → Nat) (t : Table) (k : Nat) : Bool × Table :=
  match t.findIdxRH hash k with
  | none => (false, t)
  | some i =>
    (true,
      { t with
        slots := rhShift t.capacity (t.slots.set i Slot.empty) i
          ((i+1) % t.capacity) t.capacity,
        live_count := t.live_count - 1 })

/-- The (key, value) pairs held by the table, in slot order. -/
def Table.pairs (t : Table) : List (Nat × Nat) :=
  (liveEntries t).map fun e => (e.key, e.value)

/-! ## Well-formed tables

The invariants of spec §3, stated over the slot array: correct counts and
cached hashes, pairwise-distinct keys, and reachability (no occupied slot's
probe path from its home index crosses an empty slot).  The Robin Hood
variant additionally keeps every entry's `psl` field equal to its cyclic
displacement, and the Robin Hood ordering: along an entry's probe path the
resident at step `s` has PSL at least `s`. -/

/-- The slot array holds no tombstone. -/
def noTomb (slots : List Slot) : Prop := Slot.tomb ∉ slots

/-- Number of occupied slots. -/
def countOcc (slots : List Slot) : Nat := (liveEntriesOf slots).length

/-- Number of tombstone slots. -/
def countTomb (slots : List Slot) : Nat := slots.count Slot.tomb

/-- The (key, value) pairs of a slot array, in slot order. -/
def pairsOf (slots : List Slot) : List (Nat × Nat) :=
  (liveEntriesOf slots).map fun e => (e.key, e.value)

/-- The keys of a slot array, in slot order. -/
def keysOf (slots : List Slot) : List Nat :=
  (liveEntriesOf slots).map Entry.key

/-- Every occupied entry caches the hash of its key. -/
def hashOk (hash : Nat → Nat) (slots : List Slot) : Prop :=
  ∀ i e, i < slots.length → slotAt slots i = Slot.occ e → e.ehash = hash e.key

/-- Occupied keys are pairwise distinct. -/
def keysNodup (slots : List Slot) : Prop :=
  ∀ i j e f, i < slots.length → j < slots.length →
    slotAt slots i = Slot.occ e → slotAt slots j = Slot.occ f →
    e.key = f.key → i = j

/-- Reachability (spec invariant 1): the probe path from an occupied
entry's home index to its slot crosses no empty slot. -/
def reachOk (slots : List Slot) : Prop :=
  ∀ i e, i < slots.length → slotAt slots i = Slot.occ e →
    ∀ s, s < cdist slots.length (homeIdx slots.length e.ehash) i →
      slotAt slots (probeAt slots.length e.ehash s) ≠ Slot.empty

/-- Well-formedness of a linear-probing table (tombstone or backward-shift
variant). -/
structure WFL (hash : Nat → Nat) (t : Table) : Prop where
  cap_pos : 0 < t.capacity
  live_eq : t.live_count = countOcc t.slots
  tomb_eq : t.tombstone_count = countTomb t.slots
  hash_ok : hashOk hash t.slots
  nodup : keysNodup t.slots
  reach : reachOk t.slots

/-- Every entry's `psl` field is its cyclic displacement from its home
index. -/
def pslOk (slots : List Slot) : Prop :=
  ∀ i e, i < slots.length → slotAt slots i = Slot.occ e →
    e.psl = cdist slots.length (homeIdx slots.length e.ehash) i

/-- The Robin Hood ordering: at the `s`-th step of an occupied entry's
probe path (for `s` below its PSL) sits an occupied resident of PSL at
least `s`. -/
def rhOrder (slots : List Slot) : Prop :=
  ∀ i e, i < slots.length → slotAt slots i = Slot.occ e →
    ∀ s, s < e.psl →
      ∃ f, slotAt slots (probeAt slots.length e.ehash s) = Slot.occ f ∧ s ≤ f.psl

/-- Well-formedness of a Robin Hood table. -/
structure WFRH (hash : Nat → Nat) (t : Table) : Prop where
  cap_pos : 0 < t.capacity
  live_eq : t.live_count = countOcc t.slots
  tomb_free : noTomb t.slots
  tomb_zero : t.tombstone_count = 0
  hash_ok : hashOk hash t.slots
  nodup : keysNodup t.slots
  psl_ok : pslOk t.slots
  order : rhOrder t.slots

/-! ## Tombstone-freedom and reachable states -/

/-- States of the backward-shift variant reachable from a fresh table by
its operations (insert — which includes the triggered resize —, remove,
and the grow pass itself; `emplace` builds no new state). -/
inductive ReachBS (hash : Nat → Nat) : Table → Prop
  | init (cap tn td : Nat) : ReachBS hash (mkTable cap tn td)
  | ins (t : Table) (k v : Nat) : ReachBS hash t → ReachBS hash (t.insertL hash k v)
  | rem (t : Table) (k : Nat) : ReachBS hash t → ReachBS hash (t.removeBS hash k).2
  | grw (t : Table) : ReachBS hash t → ReachBS hash (t.growL hash)

/-- States of the Robin Hood variant reachable from a fresh table by its
operations. -/
inductive ReachRH (hash : Nat → Nat) : Table → Prop
  | init (cap tn td : Nat) : ReachRH hash (mkTable cap tn td)
  | ins (t : Table) (k v : Nat) : ReachRH hash t → ReachRH hash (t.insertRH hash k v)
  | rem (t : Table) (k : Nat) : ReachRH hash t → ReachRH hash (t.removeRH hash k).2
  | grw (t : Table) : ReachRH hash t → ReachRH hash (t.growRH hash)

/-! ## Concrete scenarios -/

/-- The spec's concrete scenario table: capacity 8, identity hash,
threshold 1/2, keys 0, 8, 16, 32 (all with home index 0) inserted with
value 1 each. -/
def scenarioC2 : Table :=
  ((((mkTable 8 1 2).insertL id 0 1).insertL id 8 1).insertL id 16 1).insertL id 32 1

/-- A three-entry backward-shift table exercising the illegal-move case:
capacity 8, identity hash, keys 5 (home 5), 6 (home 6), 13 (home 5).
They land at indices 5, 6, 7. -/
def scenarioC5 : Table :=
  (((mkTable 8 1 2).insertL id 5 7).insertL id 6 8).insertL id 13 9

/-- `scenarioC5` after the backward-shift removal of key 5. -/
def scenarioC5r : Table := (scenarioC5.removeBS id 5).2

/-! ## The benchmark-analysis notebook cell

Shallow embedding of the pandas code of the notebook's first code cell:
data frames are association lists from column names to columns of
rationals, `read_csv` is an abstract parameter, and column assignment
prepends (so that later reads see the newest binding, as pandas
overwriting does). -/

/-- A data frame: named columns of rationals. -/
structure DataFrame where
  cols : List (String × List Rat)
deriving DecidableEq

/-- Column read: the most recent binding of the name (empty when absent). -/
def DataFrame.getCol (df : DataFrame) (name : String) : List Rat :=
  match df.cols.find? (fun c => c.1 == name) with
  | some c => c.2
  | none => []

/-- Column assignment. -/
def DataFrame.setCol (df : DataFrame) (name : String) (v : List Rat) : DataFrame :=
  ⟨(name, v) :: df.cols⟩

def benchmarks_dir : String := "./benchmarks/"

def benchmark_names : List String :=
  ["insert", "emplace", "unsuccessful_emplace", "remove",
   "insert_with_removal", "emplace_with_removal",
   "unsuccessful_emplace_with_removal"]

def hashmap_names : List String := ["LMap+TS", "LMap+BS", "RMap", "UMap"]

/-- The inner loop of the cell: for each map name, add the column
`"<name> Speed-Up" = df['UMap'] / df[name]`, element-wise. -/
def addSpeedups (df : DataFrame) : DataFrame :=
  hashmap_names.foldl
    (fun df hname =>
      df.setCol (hname ++ " Speed-Up")
        (List.zipWith (fun u m => u / m) (df.getCol "UMap") (df.getCol hname)))
    df

/-- The outer loop of the cell: `pds[bname]` is the frame read from
`benchmarks_dir + bname + '.csv'` with the four speed-up columns added. -/
def loadFrames (readCsv : String → DataFrame) : List (String × DataFrame) :=
  benchmark_names.map fun bname =>
    (bname, addSpeedups (readCsv (benchmarks_dir ++ bname ++ ".csv")))

/-- Dictionary read on `pds`. -/
def pdsGet (pds : List (String × DataFrame)) (name : String) : DataFrame :=
  match pds.find? (fun c => c.1 == name) with
  | some c => c.2
  | none => ⟨[]⟩



/-- Modelled from the spec: `emplace` "does not mutate table state" — the
operation, seen as a state transformer, returns its result together with
the unchanged table (the C++ source of the maps is not in the repository;
only its notebook description is). -/
def Table.emplaceOpL (hash : Nat → Nat) (t : Table) (k : Nat) :
    Option Nat × Table := (t.emplaceL hash k, t)

/-- Modelled from the spec: the Robin Hood `emplace` as a state
transformer; it does not mutate table state. -/
def Table.emplaceOpRH (hash : Nat → Nat) (t : Table) (k : Nat) :
    Option Nat × Table := (t.emplaceRH hash k, t)


/-! ## Probe-sequence-length sums -/

/-- Positional PSL of a slot: the cyclic displacement of its occupant from
the occupant's home index (0 for a non-occupied slot).  This is the
glossary's definition of PSL. -/
def slotPSL (cap i : Nat) : Slot → Nat
  | Slot.occ e => cdist cap (homeIdx cap e.ehash) i
  | _ => 0

/-- Stored PSL field of a slot's occupant (0 for a non-occupied slot). -/
def slotPSLfield : Slot → Nat
  | Slot.occ e => e.psl
  | _ => 0

/-- Sum over the table of the positional PSLs of its entries. -/
def sumPSLpos (slots : List Slot) : Nat :=
  ∑ i ∈ Finset.range slots.length, slotPSL slots.length i (slotAt slots i)

/-- Sum over the table of the stored PSL fields of its entries. -/
def sumPSLfield (slots : List Slot) : Nat :=
  ∑ i ∈ Finset.range slots.length, slotPSLfield (slotAt slots i)


/-- Simulation between two linear tables populated by the same fresh keys
in different orders: same geometry and thresholds, the same empty
positions, the same associations, and the same total positional PSL. -/
structure LinSim (hash : Nat → Nat) (t₁ t₂ : Table) : Prop where
  wf₁ : WFL hash t₁
  nt₁ : noTomb t₁.slots
  wf₂ : WFL hash t₂
  nt₂ : noTomb t₂.slots
  cap_eq : t₁.capacity = t₂.capacity
  tn_eq : t₁.threshNum = t₂.threshNum
  td_eq : t₁.threshDen = t₂.threshDen
  emp_eq : ∀ j, slotAt t₁.slots j = Slot.empty ↔ slotAt t₂.slots j = Slot.empty
  mem_eq : ∀ p : Nat × Nat, p ∈ pairsOf t₁.slots ↔ p ∈ pairsOf t₂.slots
  psl_eq : sumPSLpos t₁.slots = sumPSLpos t₂.slots

/-- Coupling of a linear-probing table with a Robin Hood table populated by
the same insert sequence: same geometry, thresholds, empty positions and
associations, and equal total PSL — positional on the linear side, the
stored fields on the Robin Hood side. -/
structure Couple (hash : Nat → Nat) (tL tR : Table) : Prop where
  wfL : WFL hash tL
  ntL : noTomb tL.slots
  wfR : WFRH hash tR
  cap_eq : tL.capacity = tR.capacity
  tn_eq : tL.threshNum = tR.threshNum
  td_eq : tL.threshDen = tR.threshDen
  emp_eq : ∀ j, slotAt tL.slots j = Slot.empty ↔ slotAt tR.slots j = Slot.empty
  mem_eq : ∀ p : Nat × Nat, p ∈ pairsOf tL.slots ↔ p ∈ pairsOf tR.slots
  psl_eq : sumPSLpos tL.slots = sumPSLfield tR.slots

/-! ## Insert-only runs and their model -/

/-- The last value inserted for key `k` by an insert-only op sequence. -/
def lastVal (ops : List (Nat × Nat)) (k : Nat) : Option Nat :=
  ops.foldl (fun acc p => if p.1 = k then some p.2 else acc) none

/-- Run a sequence of inserts on a linear-probing map (tombstone or
backward-shift variant; their inserts coincide) from a fresh table. -/
def runL (hash : Nat → Nat) (cap tn td : Nat) (ops : List (Nat × Nat)) : Table :=
  ops.foldl (fun t p => t.insertL hash p.1 p.2) (mkTable cap tn td)

/-- Run a sequence of inserts on the Robin Hood map from a fresh table. -/
def runRH (hash : Nat → Nat) (cap tn td : Nat) (ops : List (Nat × Nat)) : Table :=
  ops.foldl (fun t p => t.insertRH hash p.1 p.2) (mkTable cap tn td)

/-! ## Theorems -/

/-! ### Slot array basics -/

theorem occ_ne_tomb (e : Entry) : Slot.occ e ≠ Slot.tomb := fun h => by cases h

theorem occ_ne_empty (e : Entry) : Slot.occ e ≠ Slot.empty := fun h => by cases h

theorem slotAt_mem {slots : List Slot} {i : Nat} {s : Slot}
    (h : slotAt slots i = s) (hne : s ≠ Slot.empty) : s ∈ slots := by
  by_cases hi : i < slots.length
  · rw [slotAt, List.getD_eq_getElem?_getD, List.getElem?_eq_getElem hi,
      Option.getD_some] at h
    exact h ▸ List.getElem_mem hi
  · rw [slotAt, List.getD_eq_getElem?_getD,
      List.getElem?_eq_none (Nat.le_of_not_lt hi), Option.getD_none] at h
    exact absurd h.symm hne

theorem noTomb_slotAt {slots : List Slot} (hnt : noTomb slots) (i : Nat) :
    slotAt slots i ≠ Slot.tomb := fun h =>
  hnt (slotAt_mem h (by intro hc; cases hc))

theorem noTomb_set {slots : List Slot} {i : Nat} {s : Slot}
    (hnt : noTomb slots) (hs : s ≠ Slot.tomb) : noTomb (slots.set i s) :=
  fun hm => (List.mem_or_eq_of_mem_set hm).elim hnt fun he => hs he.symm

theorem noTomb_replicate (cap : Nat) : noTomb (List.replicate cap Slot.empty) := by
  intro hm
  exact absurd (List.eq_of_mem_replicate hm) (by intro hc; cases hc)

/-! ### Probe arithmetic -/

theorem cdist_lt (cap a b : Nat) (hc : 0 < cap) : cdist cap a b < cap :=
  Nat.mod_lt _ hc

theorem probeAt_lt (cap h s : Nat) (hc : 0 < cap) : probeAt cap h s < cap :=
  Nat.mod_lt _ hc

theorem probeAt_succ (cap h s : Nat) :
    probeAt cap h (s+1) = (probeAt cap h s + 1) % cap := by
  unfold probeAt
  conv_rhs => rw [Nat.mod_add_mod]
  rw [← Nat.add_assoc]

theorem cdist_probeAt (cap h s : Nat) (hc : 0 < cap) (hs : s < cap) :
    cdist cap (h % cap) (probeAt cap h s) = s := by
  have ha : h % cap < cap := Nat.mod_lt _ hc
  unfold cdist probeAt
  rcases Nat.lt_or_ge (h % cap + s) cap with hlt | hge
  · rw [Nat.mod_eq_of_lt hlt]
    have hx : h % cap + s + cap - h % cap = s + cap := by omega
    rw [hx, Nat.add_mod_right, Nat.mod_eq_of_lt hs]
  · rw [Nat.mod_eq_sub_mod hge]
    have h3 : (h % cap + s - cap) % cap = h % cap + s - cap :=
      Nat.mod_eq_of_lt (by omega)
    rw [h3]
    have hx : h % cap + s - cap + cap - h % cap = s := by omega
    rw [hx, Nat.mod_eq_of_lt hs]

theorem probeAt_cdist (cap h i : Nat) (hc : 0 < cap) (hi : i < cap) :
    probeAt cap h (cdist cap (h % cap) i) = i := by
  have ha : h % cap < cap := Nat.mod_lt _ hc
  unfold cdist probeAt
  rcases le_or_lt (h % cap) i with hle | hlt
  · have h1 : i + cap - h % cap = (i - h % cap) + cap := by omega
    rw [h1, Nat.add_mod_right]
    have h15 : (i - h % cap) % cap = i - h % cap := Nat.mod_eq_of_lt (by omega)
    rw [h15]
    have h2 : h % cap + (i - h % cap) = i := by omega
    rw [h2, Nat.mod_eq_of_lt hi]
  · have h1 : i + cap - h % cap < cap := by omega
    rw [Nat.mod_eq_of_lt h1]
    have h2 : h % cap + (i + cap - h % cap) = i + cap := by omega
    rw [h2, Nat.add_mod_right, Nat.mod_eq_of_lt hi]

theorem probeAt_inj {cap h s s' : Nat} (hc : 0 < cap) (hs : s < cap)
    (hs' : s' < cap) (heq : probeAt cap h s = probeAt cap h s') : s = s' := by
  have h1 := cdist_probeAt cap h s hc hs
  rw [heq, cdist_probeAt cap h s' hc hs'] at h1
  exact h1.symm

/-! ### Slot array surgery -/

theorem slotAt_eq_getElem {slots : List Slot} {i : Nat} (hi : i < slots.length) :
    slotAt slots i = slots[i] := by
  rw [slotAt, List.getD_eq_getElem?_getD, List.getElem?_eq_getElem hi,
    Option.getD_some]

theorem slotAt_set_self {slots : List Slot} {i : Nat} {s : Slot}
    (hi : i < slots.length) : slotAt (slots.set i s) i = s := by
  rw [slotAt, List.getD_eq_getElem?_getD, List.getElem?_set_self hi,
    Option.getD_some]

theorem slotAt_set_ne {slots : List Slot} {i j : Nat} {s : Slot}
    (hne : i ≠ j) : slotAt (slots.set i s) j = slotAt slots j := by
  rw [slotAt, slotAt, List.getD_eq_getElem?_getD, List.getD_eq_getElem?_getD,
    List.getElem?_set_ne hne]

theorem slotAt_replicate (cap i : Nat) :
    slotAt (List.replicate cap Slot.empty) i = Slot.empty := by
  rw [slotAt, List.getD_eq_getElem?_getD, List.getElem?_replicate]
  by_cases h : i < cap
  · rw [if_pos h]; rfl
  · rw [if_neg h]; rfl

theorem slotAt_mem_exists {slots : List Slot} {s : Slot} (hm : s ∈ slots) :
    ∃ i, i < slots.length ∧ slotAt slots i = s := by
  rcases List.mem_iff_getElem.mp hm with ⟨i, hi, hgi⟩
  exact ⟨i, hi, by rw [slotAt_eq_getElem hi, hgi]⟩

/-! ### Probe-step addition, PSL-sum bookkeeping, first-empty distances -/

theorem probeAt_add (cap h a b : Nat) :
    probeAt cap h (a + b) = (probeAt cap h a + b) % cap := by
  unfold probeAt
  conv_rhs => rw [Nat.mod_add_mod]
  rw [← Nat.add_assoc]

theorem sum_set_aux (g : Nat → Slot → Nat) {slots : List Slot} {q : Nat}
    (hq : q < slots.length) (s : Slot) :
    (∑ i ∈ Finset.range slots.length, g i (slotAt (slots.set q s) i))
        + g q (slotAt slots q)
      = (∑ i ∈ Finset.range slots.length, g i (slotAt slots i)) + g q s := by
  have hqmem : q ∈ Finset.range slots.length := Finset.mem_range.mpr hq
  have h1 := Finset.sum_erase_add (Finset.range slots.length)
    (fun i => g i (slotAt (slots.set q s) i)) hqmem
  have h2 := Finset.sum_erase_add (Finset.range slots.length)
    (fun i => g i (slotAt slots i)) hqmem
  simp only [] at h1 h2
  have hcong : ∑ i ∈ (Finset.range slots.length).erase q,
      g i (slotAt (slots.set q s) i)
      = ∑ i ∈ (Finset.range slots.length).erase q, g i (slotAt slots i) := by
    refine Finset.sum_congr rfl ?_
    intro i hi
    rcases Finset.mem_erase.mp hi with ⟨hne, _⟩
    rw [slotAt_set_ne (fun hcon => hne hcon.symm)]
  rw [slotAt_set_self hq] at h1
  omega

theorem sumPSLpos_set {slots : List Slot} {q : Nat} (hq : q < slots.length)
    (s : Slot) :
    sumPSLpos (slots.set q s) + slotPSL slots.length q (slotAt slots q)
      = sumPSLpos slots + slotPSL slots.length q s := by
  have := sum_set_aux (fun i sl => slotPSL slots.length i sl) hq s
  simp only [sumPSLpos, List.length_set]
  exact this

theorem sumPSLfield_set {slots : List Slot} {q : Nat} (hq : q < slots.length)
    (s : Slot) :
    sumPSLfield (slots.set q s) + slotPSLfield (slotAt slots q)
      = sumPSLfield slots + slotPSLfield s := by
  have := sum_set_aux (fun x sl => slotPSLfield sl) hq s
  simp only [sumPSLfield, List.length_set]
  exact this

theorem sumPSLpos_replicate (cap : Nat) :
    sumPSLpos (List.replicate cap Slot.empty) = 0 := by
  unfold sumPSLpos
  refine Finset.sum_eq_zero ?_
  intro i hi
  rw [slotAt_replicate]
  rfl

theorem sumPSLfield_replicate (cap : Nat) :
    sumPSLfield (List.replicate cap Slot.empty) = 0 := by
  unfold sumPSLfield
  refine Finset.sum_eq_zero ?_
  intro i hi
  rw [slotAt_replicate]
  rfl

theorem sumPSLfield_eq_pos {slots : List Slot} (hpsl : pslOk slots) :
    sumPSLfield slots = sumPSLpos slots := by
  unfold sumPSLfield sumPSLpos
  refine Finset.sum_congr rfl ?_
  intro i hi
  have hi2 : i < slots.length := Finset.mem_range.mp hi
  cases hslot : slotAt slots i with
  | empty => rfl
  | tomb => rfl
  | occ e =>
    simp only [slotPSLfield, slotPSL]
    exact hpsl i e hi2 hslot

theorem exists_min_empty {slots : List Slot} {cap base : Nat}
    (hex : ∃ u, slotAt slots ((base + u) % cap) = Slot.empty) :
    ∃ m, slotAt slots ((base + m) % cap) = Slot.empty ∧
      ∀ u, u < m → slotAt slots ((base + u) % cap) ≠ Slot.empty :=
  ⟨Nat.find hex, Nat.find_spec hex, fun u hu => Nat.find_min hex hu⟩

theorem dmin_unique {cap h : Nat} {A B : List Slot}
    (hAB : ∀ j, slotAt A j = Slot.empty ↔ slotAt B j = Slot.empty)
    {d₁ d₂ : Nat}
    (h1e : slotAt A (probeAt cap h d₁) = Slot.empty)
    (h1m : ∀ u, u < d₁ → slotAt A (probeAt cap h u) ≠ Slot.empty)
    (h2e : slotAt B (probeAt cap h d₂) = Slot.empty)
    (h2m : ∀ u, u < d₂ → slotAt B (probeAt cap h u) ≠ Slot.empty) :
    d₁ = d₂ := by
  rcases Nat.lt_trichotomy d₁ d₂ with hlt | heq | hgt
  · exact absurd ((hAB _).mp h1e) (h2m d₁ hlt)
  · exact heq
  · exact absurd ((hAB _).mpr h2e) (h1m d₂ hgt)

theorem emp_set_occ {slots : List Slot} {p : Nat} {e f : Entry}
    (hp : p < slots.length) (hocc : slotAt slots p = Slot.occ e) :
    ∀ j, slotAt (slots.set p (Slot.occ f)) j = Slot.empty ↔
      slotAt slots j = Slot.empty := by
  intro j
  by_cases hj : j = p
  · subst hj
    rw [slotAt_set_self hp, hocc]
    exact ⟨fun hcon => absurd hcon (occ_ne_empty f),
      fun hcon => absurd hcon (occ_ne_empty e)⟩
  · rw [slotAt_set_ne (fun hcon => hj hcon.symm)]

theorem emp_set_of_empty {slots : List Slot} {q : Nat} {f : Entry}
    (hq : q < slots.length) :
    ∀ j, slotAt (slots.set q (Slot.occ f)) j = Slot.empty ↔
      (slotAt slots j = Slot.empty ∧ j ≠ q) := by
  intro j
  by_cases hj : j = q
  · subst hj
    rw [slotAt_set_self hq]
    constructor
    · intro hcon
      exact absurd hcon (occ_ne_empty f)
    · intro hcon
      exact absurd rfl hcon.2
  · rw [slotAt_set_ne (fun hcon => hj hcon.symm)]
    exact ⟨fun he => ⟨he, hj⟩, fun hp2 => hp2.1⟩

theorem liveEntriesOf_cons (s : Slot) (rest : List Slot) :
    liveEntriesOf (s :: rest) =
      (match s with | Slot.occ e => [e] | _ => ([] : List Entry)) ++
        liveEntriesOf rest := by
  cases s <;> rfl

theorem liveEntriesOf_replicate (cap : Nat) :
    liveEntriesOf (List.replicate cap Slot.empty) = [] := by
  induction cap with
  | zero => rfl
  | succ n ih => simpa [List.replicate_succ, liveEntriesOf_cons] using ih

theorem countOcc_cons_occ (e : Entry) (rest : List Slot) :
    countOcc (Slot.occ e :: rest) = countOcc rest + 1 := by
  simp [countOcc, liveEntriesOf_cons, Nat.add_comm]

theorem countOcc_cons_empty (rest : List Slot) :
    countOcc (Slot.empty :: rest) = countOcc rest := by
  simp [countOcc, liveEntriesOf_cons]

theorem countOcc_cons_tomb (rest : List Slot) :
    countOcc (Slot.tomb :: rest) = countOcc rest := by
  simp [countOcc, liveEntriesOf_cons]

theorem countTomb_cons_occ (e : Entry) (rest : List Slot) :
    countTomb (Slot.occ e :: rest) = countTomb rest := by
  simp [countTomb, List.count_cons]

theorem countTomb_cons_empty (rest : List Slot) :
    countTomb (Slot.empty :: rest) = countTomb rest := by
  simp [countTomb, List.count_cons]

theorem countTomb_cons_tomb (rest : List Slot) :
    countTomb (Slot.tomb :: rest) = countTomb rest + 1 := by
  simp [countTomb, List.count_cons]

theorem countOcc_le_length (slots : List Slot) : countOcc slots ≤ slots.length := by
  induction slots with
  | nil => exact Nat.le_refl 0
  | cons a rest ih =>
    cases a with
    | empty => rw [countOcc_cons_empty]; exact Nat.le_succ_of_le ih
    | occ e => rw [countOcc_cons_occ]; exact Nat.succ_le_succ ih
    | tomb => rw [countOcc_cons_tomb]; exact Nat.le_succ_of_le ih

theorem empty_mem_of_counts :
    ∀ slots : List Slot, countOcc slots + countTomb slots < slots.length →
    Slot.empty ∈ slots := by
  intro slots
  induction slots with
  | nil => intro h; exact absurd h (by simp [countOcc, countTomb, liveEntriesOf])
  | cons a rest ih =>
    intro h
    cases a with
    | empty => exact List.mem_cons_self _ _
    | occ e =>
      rw [countOcc_cons_occ, countTomb_cons_occ, List.length_cons] at h
      exact List.mem_cons_of_mem _ (ih (by omega))
    | tomb =>
      rw [countOcc_cons_tomb, countTomb_cons_tomb, List.length_cons] at h
      exact List.mem_cons_of_mem _ (ih (by omega))

theorem liveEntriesOf_set_perm_not_occ :
    ∀ (slots : List Slot) (i : Nat) (e : Entry), i < slots.length →
    (slotAt slots i = Slot.empty ∨ slotAt slots i = Slot.tomb) →
    (liveEntriesOf (slots.set i (Slot.occ e))).Perm (e :: liveEntriesOf slots) := by
  intro slots
  induction slots with
  | nil => intro i e hi; exact absurd hi (Nat.not_lt_zero i)
  | cons a rest ih =>
    intro i e hi hcase
    cases i with
    | zero =>
      have ha : a = Slot.empty ∨ a = Slot.tomb := hcase
      rcases ha with ha | ha <;> subst ha <;>
        simp [liveEntriesOf_cons, List.set]
    | succ n =>
      have hn : n < rest.length := by
        rw [List.length_cons] at hi; omega
      have hrec := ih n e hn hcase
      cases a with
      | empty => simpa [List.set, liveEntriesOf_cons] using hrec
      | tomb => simpa [List.set, liveEntriesOf_cons] using hrec
      | occ f =>
        have h1 : (liveEntriesOf ((Slot.occ f :: rest).set (n+1) (Slot.occ e)))
            = f :: liveEntriesOf (rest.set n (Slot.occ e)) := by
          simp [List.set, liveEntriesOf_cons]
        rw [h1, liveEntriesOf_cons]
        exact (hrec.cons f).trans (List.Perm.swap e f _)

theorem liveEntriesOf_set_perm_occ :
    ∀ (slots : List Slot) (i : Nat) (e f : Entry), i < slots.length →
    slotAt slots i = Slot.occ f →
    (f :: liveEntriesOf (slots.set i (Slot.occ e))).Perm
      (e :: liveEntriesOf slots) := by
  intro slots
  induction slots with
  | nil => intro i e f hi; exact absurd hi (Nat.not_lt_zero i)
  | cons a rest ih =>
    intro i e f hi hocc
    cases i with
    | zero =>
      have ha : a = Slot.occ f := hocc
      subst ha
      simp only [List.set, liveEntriesOf_cons, List.singleton_append]
      exact List.Perm.swap e f _
    | succ n =>
      have hn : n < rest.length := by
        rw [List.length_cons] at hi; omega
      have hrec := ih n e f hn hocc
      cases a with
      | empty => simpa [List.set, liveEntriesOf_cons] using hrec
      | tomb => simpa [List.set, liveEntriesOf_cons] using hrec
      | occ g =>
        have h1 : (liveEntriesOf ((Slot.occ g :: rest).set (n+1) (Slot.occ e)))
            = g :: liveEntriesOf (rest.set n (Slot.occ e)) := by
          simp [List.set, liveEntriesOf_cons]
        rw [h1, liveEntriesOf_cons]
        simp only [List.singleton_append]
        exact ((List.Perm.swap g f _).trans (hrec.cons g)).trans
          (List.Perm.swap e g _)

/-! ### Tombstone-freedom is preserved by every backward-shift and
Robin Hood operation -/

theorem insLoop_no_tomb_place {slots : List Slot} {cap k h : Nat}
    (hnt : noTomb slots) :
    ∀ fuel s i, insLoop slots cap k h none s fuel ≠ InsPos.place i true := by
  intro fuel
  induction fuel with
  | zero => intro s i hc; cases hc
  | succ fuel ih =>
    intro s i
    cases hslot : slotAt slots (probeAt cap h s) with
    | empty => simp only [insLoop, hslot]; intro hc; cases hc
    | tomb => exact absurd hslot (noTomb_slotAt hnt _)
    | occ e =>
      simp only [insLoop, hslot]
      by_cases hk : e.key = k
      · simp only [if_pos hk]; intro hc; cases hc
      · simp only [if_neg hk]; exact ih (s+1) i

theorem insertRawL_tombFree {hash : Nat → Nat} {t : Table} {k v : Nat}
    (hnt : noTomb t.slots) (hc : t.tombstone_count = 0) :
    noTomb (t.insertRawL hash k v).slots ∧
      (t.insertRawL hash k v).tombstone_count = 0 := by
  unfold Table.insertRawL
  cases hres : insLoop t.slots t.capacity k (hash k) none 0 t.capacity with
  | update i => exact ⟨noTomb_set hnt (occ_ne_tomb _), hc⟩
  | place i b =>
    cases b with
    | true => exact absurd hres (insLoop_no_tomb_place hnt _ _ _)
    | false => exact ⟨noTomb_set hnt (occ_ne_tomb _), hc⟩
  | full => exact ⟨hnt, hc⟩

theorem foldl_insertRawL_tombFree (hash : Nat → Nat) (l : List Entry) :
    ∀ acc : Table, noTomb acc.slots → acc.tombstone_count = 0 →
    noTomb (l.foldl (fun acc e => acc.insertRawL hash e.key e.value) acc).slots ∧
      (l.foldl (fun acc e => acc.insertRawL hash e.key e.value) acc).tombstone_count = 0 := by
  induction l with
  | nil => intro acc hnt hc; exact ⟨hnt, hc⟩
  | cons e l ih =>
    intro acc hnt hc
    have h := @insertRawL_tombFree hash acc e.key e.value hnt hc
    exact ih _ h.1 h.2

theorem growL_tombFree (hash : Nat → Nat) (t : Table) :
    noTomb (t.growL hash).slots ∧ (t.growL hash).tombstone_count = 0 :=
  foldl_insertRawL_tombFree hash (liveEntries t) _ (noTomb_replicate _) rfl

theorem insertL_tombFree {hash : Nat → Nat} {t : Table} {k v : Nat}
    (hnt : noTomb t.slots) (hc : t.tombstone_count = 0) :
    noTomb (t.insertL hash k v).slots ∧
      (t.insertL hash k v).tombstone_count = 0 := by
  unfold Table.insertL
  by_cases hl : (t.insertRawL hash k v).loadExceeded
  · simp only [if_pos hl]
    exact growL_tombFree hash _
  · simp only [if_neg hl]
    exact insertRawL_tombFree hnt hc

theorem shiftLoop_noTomb {cap : Nat} :
    ∀ fuel (slots : List Slot) hole j, noTomb slots →
    noTomb (shiftLoop cap slots hole j fuel) := by
  intro fuel
  induction fuel with
  | zero => intro slots hole j hnt; exact hnt
  | succ fuel ih =>
    intro slots hole j hnt
    cases hslot : slotAt slots j with
    | empty => simp only [shiftLoop, hslot]; exact hnt
    | tomb => simp only [shiftLoop, hslot]; exact hnt
    | occ e =>
      simp only [shiftLoop, hslot]
      by_cases hm : cdist cap (homeIdx cap e.ehash) j < cdist cap hole j
      · simp only [if_pos hm]; exact ih _ _ _ hnt
      · simp only [if_neg hm]
        exact ih _ _ _ (noTomb_set (noTomb_set hnt (occ_ne_tomb _))
          (by intro hc; cases hc))

theorem removeBS_tombFree {hash : Nat → Nat} {t : Table} {k : Nat}
    (hnt : noTomb t.slots) (hc : t.tombstone_count = 0) :
    noTomb (t.removeBS hash k).2.slots ∧
      (t.removeBS hash k).2.tombstone_count = 0 := by
  unfold Table.removeBS
  cases hres : t.findIdxL hash k with
  | none => exact ⟨hnt, hc⟩
  | some i =>
    exact ⟨shiftLoop_noTomb _ _ _ _ (noTomb_set hnt (by intro hcon; cases hcon)), hc⟩

theorem rhInsLoop_noTomb {cap : Nat} :
    ∀ fuel (slots : List Slot) tr i, noTomb slots →
    noTomb (rhInsLoop cap slots tr i fuel).1 := by
  intro fuel
  induction fuel with
  | zero => intro slots tr i hnt; exact hnt
  | succ fuel ih =>
    intro slots tr i hnt
    cases hslot : slotAt slots i with
    | empty =>
      simp only [rhInsLoop, rhStep, hslot]
      exact noTomb_set hnt (occ_ne_tomb _)
    | tomb =>
      simp only [rhInsLoop, rhStep, hslot]
      exact noTomb_set hnt (occ_ne_tomb _)
    | occ e =>
      simp only [rhInsLoop, rhStep, hslot]
      by_cases hk : e.key = tr.key
      · simp only [if_pos hk]
        exact noTomb_set hnt (occ_ne_tomb _)
      · by_cases hp : e.psl < tr.psl
        · simp only [if_neg hk, if_pos hp]
          exact ih _ _ _ (noTomb_set hnt (occ_ne_tomb _))
        · simp only [if_neg hk, if_neg hp]
          exact ih _ _ _ hnt

theorem insertRawRH_tombFree {hash : Nat → Nat} {t : Table} {k v : Nat}
    (hnt : noTomb t.slots) (hc : t.tombstone_count = 0) :
    noTomb (t.insertRawRH hash k v).slots ∧
      (t.insertRawRH hash k v).tombstone_count = 0 :=
  ⟨rhInsLoop_noTomb _ _ _ _ hnt, hc⟩

theorem foldl_insertRawRH_tombFree (hash : Nat → Nat) (l : List Entry) :
    ∀ acc : Table, noTomb acc.slots → acc.tombstone_count = 0 →
    noTomb (l.foldl (fun acc e => acc.insertRawRH hash e.key e.value) acc).slots ∧
      (l.foldl (fun acc e => acc.insertRawRH hash e.key e.value) acc).tombstone_count = 0 := by
  induction l with
  | nil => intro acc hnt hc; exact ⟨hnt, hc⟩
  | cons e l ih =>
    intro acc hnt hc
    have h := @insertRawRH_tombFree hash acc e.key e.value hnt hc
    exact ih _ h.1 h.2

theorem growRH_tombFree (hash : Nat → Nat) (t : Table) :
    noTomb (t.growRH hash).slots ∧ (t.growRH hash).tombstone_count = 0 :=
  foldl_insertRawRH_tombFree hash (liveEntries t) _ (noTomb_replicate _) rfl

theorem insertRH_tombFree {hash : Nat → Nat} {t : Table} {k v : Nat}
    (hnt : noTomb t.slots) (hc : t.tombstone_count = 0) :
    noTomb (t.insertRH hash k v).slots ∧
      (t.insertRH hash k v).tombstone_count = 0 := by
  unfold Table.insertRH
  by_cases hl : (t.insertRawRH hash k v).loadExceeded
  · simp only [if_pos hl]
    exact growRH_tombFree hash _
  · simp only [if_neg hl]
    exact insertRawRH_tombFree hnt hc

theorem rhShift_noTomb {cap : Nat} :
    ∀ fuel (slots : List Slot) hole j, noTomb slots →
    noTomb (rhShift cap slots hole j fuel) := by
  intro fuel
  induction fuel with
  | zero => intro slots hole j hnt; exact hnt
  | succ fuel ih =>
    intro slots hole j hnt
    cases hslot : slotAt slots j with
    | empty => simp only [rhShift, hslot]; exact hnt
    | tomb => simp only [rhShift, hslot]; exact hnt
    | occ e =>
      simp only [rhShift, hslot]
      by_cases hp : e.psl = 0
      · simp only [if_pos hp]; exact hnt
      · simp only [if_neg hp]
        exact ih _ _ _ (noTomb_set (noTomb_set hnt (occ_ne_tomb _))
          (by intro hc; cases hc))

theorem removeRH_tombFree {hash : Nat → Nat} {t : Table} {k : Nat}
    (hnt : noTomb t.slots) (hc : t.tombstone_count = 0) :
    noTomb (t.removeRH hash k).2.slots ∧
      (t.removeRH hash k).2.tombstone_count = 0 := by
  unfold Table.removeRH
  cases hres : t.findIdxRH hash k with
  | none => exact ⟨hnt, hc⟩
  | some i =>
    exact ⟨rhShift_noTomb _ _ _ _ (noTomb_set hnt (by intro hcon; cases hcon)), hc⟩


/-! ### Membership helpers -/

theorem lt_length_of_slotAt_occ {slots : List Slot} {i : Nat} {e : Entry}
    (h : slotAt slots i = Slot.occ e) : i < slots.length := by
  by_contra hn
  rw [slotAt, List.getD_eq_getElem?_getD,
    List.getElem?_eq_none (Nat.le_of_not_lt hn), Option.getD_none] at h
  cases h

theorem mem_liveEntriesOf {slots : List Slot} {e : Entry} :
    e ∈ liveEntriesOf slots ↔
      ∃ i, i < slots.length ∧ slotAt slots i = Slot.occ e := by
  constructor
  · intro hm
    rcases List.mem_filterMap.mp hm with ⟨s, hs, hfs⟩
    have hse : s = Slot.occ e := by
      cases s with
      | occ f =>
        have : f = e := by simpa using hfs
        rw [this]
      | empty => exact absurd hfs (by simp)
      | tomb => exact absurd hfs (by simp)
    subst hse
    exact slotAt_mem_exists hs
  · intro ⟨i, hi, hocc⟩
    refine List.mem_filterMap.mpr ⟨Slot.occ e, ?_, rfl⟩
    exact List.mem_iff_getElem.mpr ⟨i, hi, ((slotAt_eq_getElem hi).symm.trans hocc)⟩

theorem mem_pairsOf {slots : List Slot} {k v : Nat} :
    (k, v) ∈ pairsOf slots ↔
      ∃ i e, i < slots.length ∧ slotAt slots i = Slot.occ e ∧
        e.key = k ∧ e.value = v := by
  constructor
  · intro hm
    rcases List.mem_map.mp hm with ⟨e, he, hpe⟩
    rcases mem_liveEntriesOf.mp he with ⟨i, hi, hocc⟩
    exact ⟨i, e, hi, hocc, congrArg Prod.fst hpe, congrArg Prod.snd hpe⟩
  · intro ⟨i, e, hi, hocc, hk, hv⟩
    exact List.mem_map.mpr ⟨e, mem_liveEntriesOf.mpr ⟨i, hi, hocc⟩,
      by rw [hk, hv]⟩

theorem mem_keysOf {slots : List Slot} {k : Nat} :
    k ∈ keysOf slots ↔
      ∃ i e, i < slots.length ∧ slotAt slots i = Slot.occ e ∧ e.key = k := by
  constructor
  · intro hm
    rcases List.mem_map.mp hm with ⟨e, he, hke⟩
    rcases mem_liveEntriesOf.mp he with ⟨i, hi, hocc⟩
    exact ⟨i, e, hi, hocc, hke⟩
  · intro ⟨i, e, hi, hocc, hk⟩
    exact List.mem_map.mpr ⟨e, mem_liveEntriesOf.mpr ⟨i, hi, hocc⟩, hk⟩

theorem countTomb_eq_zero_of_noTomb {slots : List Slot} (hnt : noTomb slots) :
    countTomb slots = 0 := List.count_eq_zero.mpr hnt

theorem keysOf_eq_map_fst (slots : List Slot) :
    keysOf slots = (pairsOf slots).map Prod.fst := by
  rw [keysOf, pairsOf, List.map_map]
  rfl

/-! ### The linear lookup scan: soundness and completeness -/

theorem findLoop_sound {slots : List Slot} {cap k h : Nat} :
    ∀ {fuel s i}, findLoop slots cap k h s fuel = some i →
    ∃ e, slotAt slots i = Slot.occ e ∧ e.key = k := by
  intro fuel
  induction fuel with
  | zero => intro s i hc; cases hc
  | succ fuel ih =>
    intro s i hf
    cases hslot : slotAt slots (probeAt cap h s) with
    | empty => simp only [findLoop, hslot] at hf; cases hf
    | tomb => simp only [findLoop, hslot] at hf; exact ih hf
    | occ e =>
      simp only [findLoop, hslot] at hf
      by_cases hk : e.key = k
      · rw [if_pos hk] at hf
        cases hf
        exact ⟨e, hslot, hk⟩
      · rw [if_neg hk] at hf
        exact ih hf

theorem findLoop_complete {slots : List Slot} {cap k h p : Nat} {e : Entry}
    (hc : 0 < cap) (hlen : slots.length = cap)
    (hnd : keysNodup slots) (hre : reachOk slots)
    (hp : p < cap) (hocc : slotAt slots p = Slot.occ e) (hk : e.key = k)
    (hh : e.ehash = h) :
    ∀ n s, s + n = cdist cap (h % cap) p →
    findLoop slots cap k h s (cap - s) = some p := by
  intro n
  induction n with
  | zero =>
    intro s hs
    rw [Nat.add_zero] at hs
    have hslt : s < cap := hs ▸ cdist_lt cap _ p hc
    have hfuel : cap - s = (cap - s - 1) + 1 := by omega
    rw [hfuel]
    have hpr : probeAt cap h s = p := by
      rw [hs]; exact probeAt_cdist cap h p hc hp
    simp only [findLoop, hpr, hocc, if_pos hk]
  | succ n ih =>
    intro s hs
    have hslt : s < cap := by
      have := cdist_lt cap (h % cap) p hc; omega
    have hsd : s < cdist cap (h % cap) p := by omega
    have hne : slotAt slots (probeAt cap h s) ≠ Slot.empty := by
      have hr := hre p e (by rw [hlen]; exact hp) hocc
      simp only [hlen, homeIdx, hh] at hr
      exact hr s hsd
    have hfuel : cap - s = (cap - (s+1)) + 1 := by omega
    rw [hfuel]
    cases hslot : slotAt slots (probeAt cap h s) with
    | empty => exact absurd hslot hne
    | tomb => simp only [findLoop, hslot]; exact ih (s+1) (by omega)
    | occ f =>
      simp only [findLoop, hslot]
      by_cases hfk : f.key = k
      · exfalso
        have hple : probeAt cap h s = p := by
          refine hnd (probeAt cap h s) p f e ?_ ?_ hslot hocc (hfk.trans hk.symm)
          · rw [hlen]; exact probeAt_lt cap h s hc
          · rw [hlen]; exact hp
        have : cdist cap (h % cap) p = s := by
          rw [← hple]; exact cdist_probeAt cap h s hc hslt
        omega
      · rw [if_neg hfk]
        exact ih (s+1) (by omega)


/-! ### The linear insert position search -/

theorem insLoop_update_sound {slots : List Slot} {cap k h : Nat} :
    ∀ {fuel s ft i}, insLoop slots cap k h ft s fuel = InsPos.update i →
    ∃ e, slotAt slots i = Slot.occ e ∧ e.key = k ∧
      ∃ d, i = probeAt cap h d := by
  intro fuel
  induction fuel with
  | zero =>
    intro s ft i hc
    cases ft with
    | none => simp only [insLoop] at hc; cases hc
    | some j => simp only [insLoop] at hc; cases hc
  | succ fuel ih =>
    intro s ft i hf
    cases hslot : slotAt slots (probeAt cap h s) with
    | empty =>
      simp only [insLoop, hslot] at hf
      cases ft with
      | none => simp only at hf; cases hf
      | some j => simp only at hf; cases hf
    | tomb =>
      simp only [insLoop, hslot] at hf
      cases ft with
      | none => exact ih hf
      | some j => exact ih hf
    | occ e =>
      simp only [insLoop, hslot] at hf
      by_cases hk : e.key = k
      · rw [if_pos hk] at hf
        cases hf
        exact ⟨e, hslot, hk, s, rfl⟩
      · rw [if_neg hk] at hf
        exact ih hf

theorem insLoop_place_spec {slots : List Slot} {cap k h : Nat} :
    ∀ fuel s ft i b,
    (∀ j, ft = some j → slotAt slots j = Slot.tomb ∧
      ∃ dj, dj < s ∧ j = probeAt cap h dj ∧
        ∀ u, u < dj → slotAt slots (probeAt cap h u) ≠ Slot.empty) →
    (∀ u, u < s → slotAt slots (probeAt cap h u) ≠ Slot.empty) →
    insLoop slots cap k h ft s fuel = InsPos.place i b →
    (b = true → slotAt slots i = Slot.tomb) ∧
    (b = false → slotAt slots i = Slot.empty) ∧
    ∃ d, d < s + fuel ∧ i = probeAt cap h d ∧
      ∀ u, u < d → slotAt slots (probeAt cap h u) ≠ Slot.empty := by
  intro fuel
  induction fuel with
  | zero =>
    intro s ft i b hft hpath hres
    cases ft with
    | none => simp only [insLoop] at hres; cases hres
    | some j =>
      simp only [insLoop, InsPos.place.injEq] at hres
      obtain ⟨hji, hbt⟩ := hres
      subst hji
      subst hbt
      rcases hft j rfl with ⟨htj, dj, hdj, hjp, hjpath⟩
      exact ⟨fun _ => htj, fun hb => Bool.noConfusion hb, dj, by omega, hjp, hjpath⟩
  | succ fuel ih =>
    intro s ft i b hft hpath hres
    cases hslot : slotAt slots (probeAt cap h s) with
    | empty =>
      simp only [insLoop, hslot] at hres
      cases ft with
      | none =>
        simp only [InsPos.place.injEq] at hres
        obtain ⟨hpi, hbf⟩ := hres
        subst hpi
        subst hbf
        exact ⟨fun hb => Bool.noConfusion hb, fun _ => hslot, s, by omega, rfl, hpath⟩
      | some j =>
        simp only [InsPos.place.injEq] at hres
        obtain ⟨hji, hbt⟩ := hres
        subst hji
        subst hbt
        rcases hft j rfl with ⟨htj, dj, hdj, hjp, hjpath⟩
        exact ⟨fun _ => htj, fun hb => Bool.noConfusion hb, dj, by omega, hjp, hjpath⟩
    | tomb =>
      simp only [insLoop, hslot] at hres
      have hpath' : ∀ u, u < s + 1 → slotAt slots (probeAt cap h u) ≠ Slot.empty := by
        intro u hu
        rcases Nat.lt_or_ge u s with hus | hus
        · exact hpath u hus
        · have : u = s := by omega
          rw [this, hslot]; intro hcon; cases hcon
      cases ft with
      | none =>
        have hr := ih (s+1) (some (probeAt cap h s)) i b ?_ hpath' hres
        · rcases hr with ⟨h1, h2, d, hd, hip, hdpath⟩
          exact ⟨h1, h2, d, by omega, hip, hdpath⟩
        · intro j hj
          cases hj
          exact ⟨hslot, s, by omega, rfl, hpath⟩
      | some j =>
        have hr := ih (s+1) (some j) i b ?_ hpath' hres
        · rcases hr with ⟨h1, h2, d, hd, hip, hdpath⟩
          exact ⟨h1, h2, d, by omega, hip, hdpath⟩
        · intro j' hj'
          cases hj'
          rcases hft j rfl with ⟨htj, dj, hdj, hjp, hjpath⟩
          exact ⟨htj, dj, by omega, hjp, hjpath⟩
    | occ e =>
      simp only [insLoop, hslot] at hres
      have hpath' : ∀ u, u < s + 1 → slotAt slots (probeAt cap h u) ≠ Slot.empty := by
        intro u hu
        rcases Nat.lt_or_ge u s with hus | hus
        · exact hpath u hus
        · have : u = s := by omega
          rw [this, hslot]; intro hcon; cases hcon
      by_cases hk : e.key = k
      · rw [if_pos hk] at hres; cases hres
      · rw [if_neg hk] at hres
        have hft' : ∀ j, ft = some j → slotAt slots j = Slot.tomb ∧
            ∃ dj, dj < s + 1 ∧ j = probeAt cap h dj ∧
              ∀ u, u < dj → slotAt slots (probeAt cap h u) ≠ Slot.empty := by
          intro j hj
          rcases hft j hj with ⟨htj, dj, hdj, hjp, hjpath⟩
          exact ⟨htj, dj, by omega, hjp, hjpath⟩
        have hr := ih (s+1) ft i b hft' hpath' hres
        rcases hr with ⟨h1, h2, d, hd, hip, hdpath⟩
        exact ⟨h1, h2, d, by omega, hip, hdpath⟩

theorem insLoop_ne_full {slots : List Slot} {cap k h : Nat} :
    ∀ fuel s ft,
    (∃ d, d < fuel ∧ slotAt slots (probeAt cap h (s + d)) = Slot.empty) →
    insLoop slots cap k h ft s fuel ≠ InsPos.full := by
  intro fuel
  induction fuel with
  | zero =>
    intro s ft ⟨d, hd, _⟩
    exact absurd hd (Nat.not_lt_zero d)
  | succ fuel ih =>
    intro s ft ⟨d, hd, hde⟩
    cases hslot : slotAt slots (probeAt cap h s) with
    | empty =>
      simp only [insLoop, hslot]
      cases ft with
      | none => simp only; intro hcon; cases hcon
      | some j => simp only; intro hcon; cases hcon
    | tomb =>
      simp only [insLoop, hslot]
      have hd0 : d ≠ 0 := by
        intro h0
        rw [h0, Nat.add_zero] at hde
        rw [hde] at hslot; cases hslot
      have hnext : ∃ d', d' < fuel ∧
          slotAt slots (probeAt cap h ((s+1) + d')) = Slot.empty := by
        refine ⟨d - 1, by omega, ?_⟩
        have : s + 1 + (d - 1) = s + d := by omega
        rw [this]; exact hde
      cases ft with
      | none => exact ih (s+1) _ hnext
      | some j => exact ih (s+1) _ hnext
    | occ e =>
      simp only [insLoop, hslot]
      have hd0 : d ≠ 0 := by
        intro h0
        rw [h0, Nat.add_zero] at hde
        rw [hde] at hslot; cases hslot
      have hnext : ∃ d', d' < fuel ∧
          slotAt slots (probeAt cap h ((s+1) + d')) = Slot.empty := by
        refine ⟨d - 1, by omega, ?_⟩
        have : s + 1 + (d - 1) = s + d := by omega
        rw [this]; exact hde
      by_cases hk : e.key = k
      · rw [if_pos hk]; intro hcon; cases hcon
      · rw [if_neg hk]; exact ih (s+1) ft hnext

theorem insLoop_update_complete {slots : List Slot} {cap k h p : Nat} {e : Entry}
    (hc : 0 < cap) (hlen : slots.length = cap)
    (hnd : keysNodup slots) (hre : reachOk slots)
    (hp : p < cap) (hocc : slotAt slots p = Slot.occ e) (hk : e.key = k)
    (hh : e.ehash = h) :
    ∀ n s ft, s + n = cdist cap (h % cap) p →
    insLoop slots cap k h ft s (cap - s) = InsPos.update p := by
  intro n
  induction n with
  | zero =>
    intro s ft hs
    rw [Nat.add_zero] at hs
    have hslt : s < cap := hs ▸ cdist_lt cap _ p hc
    have hfuel : cap - s = (cap - s - 1) + 1 := by omega
    rw [hfuel]
    have hpr : probeAt cap h s = p := by
      rw [hs]; exact probeAt_cdist cap h p hc hp
    simp only [insLoop, hpr, hocc, if_pos hk]
  | succ n ih =>
    intro s ft hs
    have hslt : s < cap := by
      have := cdist_lt cap (h % cap) p hc; omega
    have hsd : s < cdist cap (h % cap) p := by omega
    have hne : slotAt slots (probeAt cap h s) ≠ Slot.empty := by
      have hr := hre p e (by rw [hlen]; exact hp) hocc
      simp only [hlen, homeIdx, hh] at hr
      exact hr s hsd
    have hfuel : cap - s = (cap - (s+1)) + 1 := by omega
    rw [hfuel]
    cases hslot : slotAt slots (probeAt cap h s) with
    | empty => exact absurd hslot hne
    | tomb =>
      simp only [insLoop, hslot]
      cases ft with
      | none => exact ih (s+1) _ (by omega)
      | some j => exact ih (s+1) _ (by omega)
    | occ f =>
      simp only [insLoop, hslot]
      by_cases hfk : f.key = k
      · exfalso
        have hple : probeAt cap h s = p := by
          refine hnd (probeAt cap h s) p f e ?_ ?_ hslot hocc (hfk.trans hk.symm)
          · rw [hlen]; exact probeAt_lt cap h s hc
          · rw [hlen]; exact hp
        have : cdist cap (h % cap) p = s := by
          rw [← hple]; exact cdist_probeAt cap h s hc hslt
        omega
      · rw [if_neg hfk]
        exact ih (s+1) ft (by omega)

/-! ### Count bookkeeping under slot writes -/

theorem countTomb_set_occ_of_tomb {slots : List Slot} {i : Nat} (e : Entry)
    (hi : i < slots.length) (ht : slotAt slots i = Slot.tomb) :
    countTomb (slots.set i (Slot.occ e)) = countTomb slots - 1 := by
  unfold countTomb
  rw [List.count_set]
  · simp [(slotAt_eq_getElem hi).symm.trans ht]
  · exact hi

theorem countTomb_set_occ_of_ne_tomb {slots : List Slot} {i : Nat} (e : Entry)
    (hi : i < slots.length) (ht : slotAt slots i ≠ Slot.tomb) :
    countTomb (slots.set i (Slot.occ e)) = countTomb slots := by
  unfold countTomb
  rw [List.count_set]
  · have hne : ¬ slots[i] = Slot.tomb := by
      rw [← slotAt_eq_getElem hi]; exact ht
    simp [hne]
  · exact hi

theorem countTomb_set_tomb {slots : List Slot} {i : Nat}
    (hi : i < slots.length) (ho : slotAt slots i ≠ Slot.tomb) :
    countTomb (slots.set i Slot.tomb) = countTomb slots + 1 := by
  unfold countTomb
  rw [List.count_set]
  · have hne : ¬ slots[i] = Slot.tomb := by
      rw [← slotAt_eq_getElem hi]; exact ho
    simp [hne]
  · exact hi

/-! ### Writing an occupied slot preserves the linear invariants -/

theorem lt_length_of_slotAt_ne_empty {slots : List Slot} {q : Nat}
    (h : slotAt slots q ≠ Slot.empty) : q < slots.length := by
  by_contra hn
  rw [slotAt, List.getD_eq_getElem?_getD,
    List.getElem?_eq_none (Nat.le_of_not_lt hn), Option.getD_none] at h
  exact h rfl

theorem slotAt_set_occ_ne_empty {slots : List Slot} {i q : Nat} {new : Entry}
    (hq : slotAt slots q ≠ Slot.empty) :
    slotAt (slots.set i (Slot.occ new)) q ≠ Slot.empty := by
  by_cases hqi : i = q
  · subst hqi
    have hlt : i < slots.length := lt_length_of_slotAt_ne_empty hq
    rw [slotAt_set_self hlt]
    exact occ_ne_empty new
  · rw [slotAt_set_ne hqi]
    exact hq

theorem WF_core_set_occ {hash : Nat → Nat} {slots : List Slot} {i : Nat}
    {new : Entry} (hi : i < slots.length)
    (hho : hashOk hash slots) (hnd : keysNodup slots) (hre : reachOk slots)
    (hnew_hash : new.ehash = hash new.key)
    (hnew_key : ∀ j f, j < slots.length → j ≠ i →
      slotAt slots j = Slot.occ f → f.key ≠ new.key)
    (hnew_reach : ∀ s,
      s < cdist slots.length (homeIdx slots.length new.ehash) i →
      slotAt slots (probeAt slots.length new.ehash s) ≠ Slot.empty) :
    hashOk hash (slots.set i (Slot.occ new)) ∧
    keysNodup (slots.set i (Slot.occ new)) ∧
    reachOk (slots.set i (Slot.occ new)) := by
  have hlen : (slots.set i (Slot.occ new)).length = slots.length :=
    List.length_set slots i _
  refine ⟨?_, ?_, ?_⟩
  · intro j f hj hocc
    rw [hlen] at hj
    by_cases hji : i = j
    · subst hji
      rw [slotAt_set_self hi] at hocc
      cases hocc
      exact hnew_hash
    · rw [slotAt_set_ne hji] at hocc
      exact hho j f hj hocc
  · intro j j' f f' hj hj' hocc hocc' hkey
    rw [hlen] at hj hj'
    by_cases hji : i = j <;> by_cases hji' : i = j'
    · rw [← hji, ← hji']
    · exfalso
      subst hji
      rw [slotAt_set_self hi] at hocc
      cases hocc
      rw [slotAt_set_ne hji'] at hocc'
      exact hnew_key j' f' hj' (fun hc => hji' hc.symm) hocc' hkey.symm
    · exfalso
      subst hji'
      rw [slotAt_set_self hi] at hocc'
      cases hocc'
      rw [slotAt_set_ne hji] at hocc
      exact hnew_key j f hj (fun hc => hji hc.symm) hocc hkey
    · rw [slotAt_set_ne hji] at hocc
      rw [slotAt_set_ne hji'] at hocc'
      exact hnd j j' f f' hj hj' hocc hocc' hkey
  · intro j f hj hocc s hs
    rw [hlen] at hj hs ⊢
    by_cases hji : i = j
    · subst hji
      rw [slotAt_set_self hi] at hocc
      cases hocc
      exact slotAt_set_occ_ne_empty (hnew_reach s hs)
    · rw [slotAt_set_ne hji] at hocc
      exact slotAt_set_occ_ne_empty (hre j f hj hocc s hs)

/-! ### Raw linear insert: fresh key -/

theorem insertRawL_fresh {hash : Nat → Nat} {t : Table} {k v : Nat}
    (hwf : WFL hash t) (hasE : Slot.empty ∈ t.slots)
    (hfresh : k ∉ keysOf t.slots) :
    WFL hash (t.insertRawL hash k v) ∧
    (pairsOf (t.insertRawL hash k v).slots).Perm ((k, v) :: pairsOf t.slots) ∧
    (t.insertRawL hash k v).capacity = t.capacity ∧
    (t.insertRawL hash k v).live_count = t.live_count + 1 ∧
    (t.insertRawL hash k v).threshNum = t.threshNum ∧
    (t.insertRawL hash k v).threshDen = t.threshDen := by
  have hcpos : 0 < t.capacity := hwf.cap_pos
  have hlen : t.slots.length = t.capacity := rfl
  unfold Table.insertRawL
  cases hres : insLoop t.slots t.capacity k (hash k) none 0 t.capacity with
  | update i =>
    exfalso
    rcases insLoop_update_sound hres with ⟨e, hocc, hke, _⟩
    exact hfresh (mem_keysOf.mpr ⟨i, e, lt_length_of_slotAt_occ hocc, hocc, hke⟩)
  | full =>
    exfalso
    rcases slotAt_mem_exists hasE with ⟨j, hj, hje⟩
    refine insLoop_ne_full t.capacity 0 none
      ⟨cdist t.capacity (hash k % t.capacity) j, cdist_lt _ _ _ hcpos, ?_⟩ hres
    rw [Nat.zero_add, probeAt_cdist _ _ _ hcpos (hlen ▸ hj)]
    exact hje
  | place i b =>
    rcases insLoop_place_spec t.capacity 0 none i b
      (fun j hj => Option.noConfusion hj)
      (fun u hu => absurd hu (Nat.not_lt_zero u)) hres with
      ⟨htomb, hempty, d, hd, hip, hpath⟩
    have hdlt : d < t.capacity := by omega
    have hi : i < t.slots.length := by
      rw [hlen, hip]; exact probeAt_lt _ _ _ hcpos
    have hnotocc : slotAt t.slots i = Slot.empty ∨ slotAt t.slots i = Slot.tomb := by
      cases b with
      | true => exact Or.inr (htomb rfl)
      | false => exact Or.inl (hempty rfl)
    have hperm_live := liveEntriesOf_set_perm_not_occ t.slots i ⟨k, v, hash k, 0⟩
      hi hnotocc
    have hperm_pairs : (pairsOf (t.slots.set i (Slot.occ ⟨k, v, hash k, 0⟩))).Perm
        ((k, v) :: pairsOf t.slots) := hperm_live.map _
    have hcount : countOcc (t.slots.set i (Slot.occ ⟨k, v, hash k, 0⟩))
        = countOcc t.slots + 1 := by
      have := hperm_live.length_eq
      simpa [countOcc] using this
    have hcore := @WF_core_set_occ hash t.slots i ⟨k, v, hash k, 0⟩ hi
      hwf.hash_ok hwf.nodup hwf.reach rfl
      (fun j f hj _ hocc hkf =>
        hfresh (mem_keysOf.mpr ⟨j, f, hj, hocc, hkf⟩))
      (fun s hs => by
        have hcd : cdist t.slots.length
            (homeIdx t.slots.length (hash k)) i = d := by
          simp only [hlen, homeIdx, hip]
          exact cdist_probeAt _ _ _ hcpos hdlt
        have hs2 : s < cdist t.slots.length
            (homeIdx t.slots.length (hash k)) i := hs
        have hsd : s < d := by omega
        rw [hlen]
        exact hpath s hsd)
    refine ⟨⟨?_, ?_, ?_, hcore.1, hcore.2.1, hcore.2.2⟩, hperm_pairs, ?_, rfl, rfl, rfl⟩
    · show 0 < (t.slots.set i _).length
      rw [List.length_set]; exact hcpos
    · show t.live_count + 1 = countOcc (t.slots.set i _)
      rw [hcount, hwf.live_eq]
    · show (if b then t.tombstone_count - 1 else t.tombstone_count)
        = countTomb (t.slots.set i _)
      cases b with
      | true =>
        rw [if_pos rfl, countTomb_set_occ_of_tomb _ hi (htomb rfl), hwf.tomb_eq]
      | false =>
        rw [if_neg (by intro hc; cases hc),
          countTomb_set_occ_of_ne_tomb _ hi (by rw [hempty rfl]; intro hc; cases hc)]
        exact hwf.tomb_eq
    · show (t.slots.set i _).length = t.capacity
      rw [List.length_set]
      exact hlen

/-! ### Raw linear insert: key already present -/

theorem insertRawL_update {hash : Nat → Nat} {t : Table} {k v p : Nat}
    {e : Entry} (hwf : WFL hash t) (hp : p < t.capacity)
    (hocc : slotAt t.slots p = Slot.occ e) (hk : e.key = k) :
    WFL hash (t.insertRawL hash k v) ∧
    ((e.key, e.value) :: pairsOf (t.insertRawL hash k v).slots).Perm
      ((k, v) :: pairsOf t.slots) ∧
    (k, v) ∈ pairsOf (t.insertRawL hash k v).slots ∧
    (t.insertRawL hash k v).capacity = t.capacity ∧
    (t.insertRawL hash k v).live_count = t.live_count ∧
    (t.insertRawL hash k v).tombstone_count = t.tombstone_count ∧
    (t.insertRawL hash k v).threshNum = t.threshNum ∧
    (t.insertRawL hash k v).threshDen = t.threshDen := by
  have hcpos : 0 < t.capacity := hwf.cap_pos
  have hlen : t.slots.length = t.capacity := rfl
  have hhe : e.ehash = hash k := by
    rw [← hk]; exact hwf.hash_ok p e (hlen ▸ hp) hocc
  have hres := insLoop_update_complete hcpos hlen hwf.nodup hwf.reach hp hocc hk
    hhe (cdist t.capacity (hash k % t.capacity) p) 0 none (Nat.zero_add _)
  rw [Nat.sub_zero] at hres
  unfold Table.insertRawL
  rw [hres]
  have hi : p < t.slots.length := hlen ▸ hp
  have hperm_live := liveEntriesOf_set_perm_occ t.slots p ⟨k, v, hash k, 0⟩ e
    hi hocc
  have hperm_pairs : ((e.key, e.value) ::
      pairsOf (t.slots.set p (Slot.occ ⟨k, v, hash k, 0⟩))).Perm
      ((k, v) :: pairsOf t.slots) := by
    have := hperm_live.map fun e : Entry => (e.key, e.value)
    simpa [pairsOf] using this
  have hcount : countOcc (t.slots.set p (Slot.occ ⟨k, v, hash k, 0⟩))
      = countOcc t.slots := by
    have := hperm_live.length_eq
    simp only [List.length_cons] at this
    simpa [countOcc] using this
  have hcore := @WF_core_set_occ hash t.slots p ⟨k, v, hash k, 0⟩ hi
    hwf.hash_ok hwf.nodup hwf.reach rfl
    (fun j f hj hjne hoccj hkf => by
      exact hjne (hwf.nodup j p f e hj (hlen ▸ hp) hoccj hocc (hkf.trans hk.symm)))
    (fun s hs => by
      have hs2 : s < cdist t.slots.length
          (homeIdx t.slots.length (hash k)) p := hs
      have hs' : s < cdist t.slots.length (homeIdx t.slots.length e.ehash) p := by
        simp only [homeIdx, hhe]
        exact hs2
      have hr := hwf.reach p e (hlen ▸ hp) hocc s hs'
      simp only [homeIdx, hhe] at hr
      exact hr)
  refine ⟨⟨?_, ?_, ?_, hcore.1, hcore.2.1, hcore.2.2⟩, hperm_pairs, ?_, ?_, rfl, rfl, rfl, rfl⟩
  · show 0 < (t.slots.set p _).length
    rw [List.length_set]; exact hcpos
  · show t.live_count = countOcc (t.slots.set p _)
    rw [hcount]; exact hwf.live_eq
  · show t.tombstone_count = countTomb (t.slots.set p _)
    rw [countTomb_set_occ_of_ne_tomb _ hi (by rw [hocc]; intro hc; cases hc)]
    exact hwf.tomb_eq
  · exact mem_pairsOf.mpr ⟨p, ⟨k, v, hash k, 0⟩, by rw [List.length_set]; exact hi,
      slotAt_set_self hi, rfl, rfl⟩
  · show (t.slots.set p _).length = t.capacity
    rw [List.length_set]
    exact hlen

/-! ### Fresh tables, the grow pass, and the full linear insert -/

theorem mkTable_WFL (hash : Nat → Nat) (cap tn td : Nat) (hc : 0 < cap) :
    WFL hash (mkTable cap tn td) := by
  refine ⟨?_, ?_, ?_, ?_, ?_, ?_⟩
  · show 0 < (List.replicate cap Slot.empty).length
    rw [List.length_replicate]; exact hc
  · show 0 = countOcc (List.replicate cap Slot.empty)
    rw [countOcc, liveEntriesOf_replicate]; rfl
  · show 0 = countTomb (List.replicate cap Slot.empty)
    rw [countTomb_eq_zero_of_noTomb (noTomb_replicate cap)]
  · intro i e _ hocc
    simp only [mkTable, slotAt_replicate] at hocc
    cases hocc
  · intro i j e f _ _ hocc _ _
    simp only [mkTable, slotAt_replicate] at hocc
    cases hocc
  · intro i e _ hocc
    simp only [mkTable, slotAt_replicate] at hocc
    cases hocc

theorem keysNodup_tail {s : Slot} {rest : List Slot}
    (h : keysNodup (s :: rest)) : keysNodup rest := by
  intro i j e f hi hj hocc hocc' hk
  have hr := h (i+1) (j+1) e f (by rw [List.length_cons]; omega)
    (by rw [List.length_cons]; omega) hocc hocc' hk
  omega

theorem head_key_not_mem {e : Entry} {rest : List Slot}
    (h : keysNodup (Slot.occ e :: rest)) : e.key ∉ keysOf rest := by
  intro hmem
  rcases mem_keysOf.mp hmem with ⟨j, f, hj, hocc, hk⟩
  have hr := h 0 (j+1) e f (by rw [List.length_cons]; omega)
    (by rw [List.length_cons]; omega) rfl hocc hk.symm
  omega

theorem keysOf_nodup : ∀ {slots : List Slot}, keysNodup slots →
    (keysOf slots).Nodup := by
  intro slots
  induction slots with
  | nil => intro _; exact List.nodup_nil
  | cons a rest ih =>
    intro h
    cases a with
    | empty =>
      have he : keysOf (Slot.empty :: rest) = keysOf rest := rfl
      rw [he]; exact ih (keysNodup_tail h)
    | tomb =>
      have he : keysOf (Slot.tomb :: rest) = keysOf rest := rfl
      rw [he]; exact ih (keysNodup_tail h)
    | occ e =>
      have he : keysOf (Slot.occ e :: rest) = e.key :: keysOf rest := rfl
      rw [he]
      exact List.nodup_cons.mpr ⟨head_key_not_mem h, ih (keysNodup_tail h)⟩

theorem foldl_insertRawL_spec (hash : Nat → Nat) :
    ∀ (l : List Entry) (acc : Table),
    WFL hash acc → noTomb acc.slots →
    (∀ e ∈ l, e.key ∉ keysOf acc.slots) →
    (l.map Entry.key).Nodup →
    countOcc acc.slots + l.length < acc.capacity →
    WFL hash (l.foldl (fun a e => a.insertRawL hash e.key e.value) acc) ∧
    (pairsOf (l.foldl (fun a e => a.insertRawL hash e.key e.value) acc).slots).Perm
      ((l.map fun e => (e.key, e.value)) ++ pairsOf acc.slots) ∧
    (l.foldl (fun a e => a.insertRawL hash e.key e.value) acc).capacity
      = acc.capacity ∧
    noTomb (l.foldl (fun a e => a.insertRawL hash e.key e.value) acc).slots ∧
    (l.foldl (fun a e => a.insertRawL hash e.key e.value) acc).threshNum
      = acc.threshNum ∧
    (l.foldl (fun a e => a.insertRawL hash e.key e.value) acc).threshDen
      = acc.threshDen ∧
    (l.foldl (fun a e => a.insertRawL hash e.key e.value) acc).live_count
      = acc.live_count + l.length := by
  intro l
  induction l with
  | nil =>
    intro acc hwf hnt _ _ _
    exact ⟨hwf, by simp, rfl, hnt, rfl, rfl, by simp⟩
  | cons e l ih =>
    intro acc hwf hnt hkeys hnd hcnt
    simp only [List.foldl_cons]
    have hntc : acc.tombstone_count = 0 := by
      rw [hwf.tomb_eq]; exact countTomb_eq_zero_of_noTomb hnt
    have hasE : Slot.empty ∈ acc.slots := by
      apply empty_mem_of_counts
      rw [countTomb_eq_zero_of_noTomb hnt]
      have hl : (e :: l).length = l.length + 1 := rfl
      rw [hl] at hcnt
      have : acc.slots.length = acc.capacity := rfl
      omega
    have hfresh : e.key ∉ keysOf acc.slots := hkeys e (List.mem_cons_self _ _)
    rcases insertRawL_fresh hwf hasE hfresh with
      ⟨hwf', hperm', hcap', hlive', htn', htd'⟩
    have hnt' : noTomb (acc.insertRawL hash e.key e.value).slots :=
      (insertRawL_tombFree hnt hntc).1
    have hkperm : (keysOf (acc.insertRawL hash e.key e.value).slots).Perm
        (e.key :: keysOf acc.slots) := by
      rw [keysOf_eq_map_fst, keysOf_eq_map_fst]
      exact hperm'.map Prod.fst
    have hkeys' : ∀ f ∈ l, f.key ∉ keysOf (acc.insertRawL hash e.key e.value).slots := by
      intro f hf hmem
      have hm2 := hkperm.mem_iff.mp hmem
      rcases List.mem_cons.mp hm2 with heq | hmem2
      · have hne : f.key ≠ e.key := by
          have hnd2 := List.nodup_cons.mp hnd
          intro hc
          exact hnd2.1 (hc ▸ List.mem_map.mpr ⟨f, hf, rfl⟩)
        exact hne heq
      · exact hkeys f (List.mem_cons_of_mem _ hf) hmem2
    have hcnt' : countOcc (acc.insertRawL hash e.key e.value).slots + l.length
        < (acc.insertRawL hash e.key e.value).capacity := by
      have h1 : (acc.insertRawL hash e.key e.value).live_count
          = countOcc (acc.insertRawL hash e.key e.value).slots := hwf'.live_eq
      have h2 : acc.live_count = countOcc acc.slots := hwf.live_eq
      have hl : (e :: l).length = l.length + 1 := rfl
      rw [hl] at hcnt
      rw [hcap']
      omega
    have hnd' : (l.map Entry.key).Nodup := (List.nodup_cons.mp hnd).2
    rcases ih (acc.insertRawL hash e.key e.value) hwf' hnt' hkeys' hnd' hcnt' with
      ⟨rwf, rperm, rcap, rnt, rtn, rtd, rlive⟩
    refine ⟨rwf, ?_, by rw [rcap, hcap'], rnt, by rw [rtn, htn'],
      by rw [rtd, htd'], ?_⟩
    · have hchain := rperm.trans ((hperm'.append_left (l.map fun e => (e.key, e.value))).trans
        (List.perm_middle))
      simpa using hchain
    · have hl : (e :: l).length = l.length + 1 := rfl
      rw [hl, rlive, hlive']
      omega

theorem growL_spec (hash : Nat → Nat) (t : Table) (hwf : WFL hash t) :
    WFL hash (t.growL hash) ∧
    (pairsOf (t.growL hash).slots).Perm (pairsOf t.slots) ∧
    (t.growL hash).capacity = 2 * t.capacity ∧
    Slot.empty ∈ (t.growL hash).slots ∧
    (t.growL hash).tombstone_count = 0 ∧
    (t.growL hash).threshNum = t.threshNum ∧
    (t.growL hash).threshDen = t.threshDen := by
  have hcpos : 0 < t.capacity := hwf.cap_pos
  have hmk : WFL hash (mkTable (2 * t.capacity) t.threshNum t.threshDen) :=
    mkTable_WFL hash _ _ _ (by omega)
  have hmknt : noTomb (mkTable (2 * t.capacity) t.threshNum t.threshDen).slots :=
    noTomb_replicate _
  have hmkkeys : keysOf (mkTable (2 * t.capacity) t.threshNum t.threshDen).slots = [] := by
    show keysOf (List.replicate _ Slot.empty) = []
    rw [keysOf, liveEntriesOf_replicate]; rfl
  have hlelen : (liveEntries t).length = countOcc t.slots := rfl
  have hcnt : countOcc (mkTable (2 * t.capacity) t.threshNum t.threshDen).slots
      + (liveEntries t).length
      < (mkTable (2 * t.capacity) t.threshNum t.threshDen).capacity := by
    have h0 : countOcc (mkTable (2 * t.capacity) t.threshNum t.threshDen).slots = 0 := by
      show countOcc (List.replicate _ Slot.empty) = 0
      rw [countOcc, liveEntriesOf_replicate]; rfl
    have h1 : countOcc t.slots ≤ t.capacity := countOcc_le_length t.slots
    have h2 : (mkTable (2 * t.capacity) t.threshNum t.threshDen).capacity
        = 2 * t.capacity := by
      show (List.replicate _ Slot.empty).length = _
      rw [List.length_replicate]
    omega
  have hnd : ((liveEntries t).map Entry.key).Nodup := keysOf_nodup hwf.nodup
  rcases foldl_insertRawL_spec hash (liveEntries t) _ hmk hmknt
    (fun e _ => by rw [hmkkeys]; exact List.not_mem_nil _) hnd hcnt with
    ⟨rwf, rperm, rcap, rnt, rtn, rtd, rlive⟩
  have hcap2 : (t.growL hash).capacity = 2 * t.capacity := by
    show (_ : Table).capacity = _
    rw [Table.growL] at *
    rw [rcap]
    show (List.replicate _ Slot.empty).length = _
    rw [List.length_replicate]
  have hpairs : (pairsOf (t.growL hash).slots).Perm (pairsOf t.slots) := by
    rw [Table.growL]
    refine rperm.trans ?_
    have hmkp : pairsOf (mkTable (2 * t.capacity) t.threshNum t.threshDen).slots = [] := by
      show pairsOf (List.replicate _ Slot.empty) = []
      rw [pairsOf, liveEntriesOf_replicate]; rfl
    rw [hmkp, List.append_nil]
    exact List.Perm.refl _
  have hwfg : WFL hash (t.growL hash) := by rw [Table.growL]; exact rwf
  have hntg : noTomb (t.growL hash).slots := by rw [Table.growL]; exact rnt
  refine ⟨hwfg, hpairs, hcap2, ?_, ?_, by rw [Table.growL]; exact rtn,
    by rw [Table.growL]; exact rtd⟩
  · apply empty_mem_of_counts
    rw [countTomb_eq_zero_of_noTomb hntg]
    have h1 : countOcc (t.growL hash).slots = countOcc t.slots := by
      have := hpairs.length_eq
      simpa [pairsOf, countOcc] using this
    have h2 : (t.growL hash).slots.length = (t.growL hash).capacity := rfl
    have h3 : countOcc t.slots ≤ t.capacity := countOcc_le_length t.slots
    omega
  · rw [hwfg.tomb_eq]
    exact countTomb_eq_zero_of_noTomb hntg

theorem insertL_spec {hash : Nat → Nat} {t : Table} (k v : Nat)
    (hwf : WFL hash t) (hasE : Slot.empty ∈ t.slots)
    (htd : t.threshNum < t.threshDen) :
    WFL hash (t.insertL hash k v) ∧
    Slot.empty ∈ (t.insertL hash k v).slots ∧
    (k, v) ∈ pairsOf (t.insertL hash k v).slots ∧
    (∀ k' v', k' ≠ k → (k', v') ∈ pairsOf t.slots →
      (k', v') ∈ pairsOf (t.insertL hash k v).slots) ∧
    (t.insertL hash k v).threshNum = t.threshNum ∧
    (t.insertL hash k v).threshDen = t.threshDen := by
  have hraw : WFL hash (t.insertRawL hash k v) ∧
      (k, v) ∈ pairsOf (t.insertRawL hash k v).slots ∧
      (∀ k' v', k' ≠ k → (k', v') ∈ pairsOf t.slots →
        (k', v') ∈ pairsOf (t.insertRawL hash k v).slots) ∧
      (t.insertRawL hash k v).capacity = t.capacity ∧
      (t.insertRawL hash k v).threshNum = t.threshNum ∧
      (t.insertRawL hash k v).threshDen = t.threshDen := by
    by_cases hk : k ∈ keysOf t.slots
    · rcases mem_keysOf.mp hk with ⟨p, e, hp, hocc, hke⟩
      rcases insertRawL_update hwf hp hocc hke with
        ⟨hwf', hperm', hmem', hcap', _, _, htn', htd'⟩
      refine ⟨hwf', hmem', ?_, hcap', htn', htd'⟩
      intro k' v' hne hmem
      have h1 : (k', v') ∈ (k, v) :: pairsOf t.slots :=
        List.mem_cons_of_mem _ hmem
      have h2 := hperm'.symm.mem_iff.mp h1
      rcases List.mem_cons.mp h2 with heq | hm
      · exfalso
        have : k' = e.key := congrArg Prod.fst heq
        exact hne (this.trans hke)
      · exact hm
    · rcases insertRawL_fresh hwf hasE hk with
        ⟨hwf', hperm', hcap', _, htn', htd'⟩
      refine ⟨hwf', ?_, ?_, hcap', htn', htd'⟩
      · exact hperm'.mem_iff.mpr (List.mem_cons_self _ _)
      · intro k' v' _ hmem
        exact hperm'.mem_iff.mpr (List.mem_cons_of_mem _ hmem)
  rcases hraw with ⟨hwf', hmem', hpres', hcap', htn', htd'⟩
  rw [Table.insertL]
  by_cases hle : (t.insertRawL hash k v).loadExceeded
  · simp only [if_pos hle]
    rcases growL_spec hash _ hwf' with
      ⟨gwf, gperm, _, gempty, _, gtn, gtd⟩
    refine ⟨gwf, gempty, ?_, ?_, by rw [gtn, htn'], by rw [gtd, htd']⟩
    · exact gperm.mem_iff.mpr hmem'
    · intro k' v' hne hmem
      exact gperm.mem_iff.mpr (hpres' k' v' hne hmem)
  · simp only [if_neg hle]
    refine ⟨hwf', ?_, hmem', hpres', htn', htd'⟩
    rw [Table.loadExceeded] at hle
    push_neg at hle
    have hmul : t.threshNum * (t.insertRawL hash k v).capacity
        < t.threshDen * (t.insertRawL hash k v).capacity := by
      have hc0 : 0 < (t.insertRawL hash k v).capacity := hwf'.cap_pos
      exact Nat.mul_lt_mul_of_lt_of_le htd (Nat.le_refl _) hc0
    rw [htn', htd'] at hle
    have hlt : (t.insertRawL hash k v).live_count
        + (t.insertRawL hash k v).tombstone_count
        < (t.insertRawL hash k v).capacity := by
      have h1 : ((t.insertRawL hash k v).live_count
          + (t.insertRawL hash k v).tombstone_count) * t.threshDen
          < t.threshDen * (t.insertRawL hash k v).capacity :=
        Nat.lt_of_le_of_lt hle hmul
      rw [Nat.mul_comm t.threshDen] at h1
      exact Nat.lt_of_mul_lt_mul_right h1
    apply empty_mem_of_counts
    have h2 : (t.insertRawL hash k v).slots.length
        = (t.insertRawL hash k v).capacity := rfl
    rw [← hwf'.live_eq, ← hwf'.tomb_eq, h2]
    exact hlt

/-- C3: every state of the backward-shift variant and of the Robin Hood
variant reachable by insert (with its triggered resize), remove, or a grow
pass has `tombstone_count = 0` — indeed its slot array holds no tombstone
at all. -/
theorem c3_no_tombstones (hash : Nat → Nat) :
    (∀ t, ReachBS hash t → t.tombstone_count = 0 ∧ noTomb t.slots) ∧
    (∀ t, ReachRH hash t → t.tombstone_count = 0 ∧ noTomb t.slots) := by
  constructor
  · intro t hr
    induction hr with
    | init cap tn td => exact ⟨rfl, noTomb_replicate _⟩
    | ins t k v _ ih => exact ⟨(insertL_tombFree ih.2 ih.1).2, (insertL_tombFree ih.2 ih.1).1⟩
    | rem t k _ ih => exact ⟨(removeBS_tombFree ih.2 ih.1).2, (removeBS_tombFree ih.2 ih.1).1⟩
    | grw t _ _ => exact ⟨(growL_tombFree hash t).2, (growL_tombFree hash t).1⟩
  · intro t hr
    induction hr with
    | init cap tn td => exact ⟨rfl, noTomb_replicate _⟩
    | ins t k v _ ih => exact ⟨(insertRH_tombFree ih.2 ih.1).2, (insertRH_tombFree ih.2 ih.1).1⟩
    | rem t k _ ih => exact ⟨(removeRH_tombFree ih.2 ih.1).2, (removeRH_tombFree ih.2 ih.1).1⟩
    | grw t _ _ => exact ⟨(growRH_tombFree hash t).2, (growRH_tombFree hash t).1⟩

/-- Witness for `c3_no_tombstones`: a concrete reachable state of each
variant (insert two colliding keys, remove one). -/
theorem c3_no_tombstones_witness :
    ((((mkTable 8 1 2).insertL id 0 1).insertL id 8 2).removeBS id 0).2.tombstone_count = 0 ∧
    ((((mkTable 8 1 2).insertRH id 0 1).insertRH id 8 2).removeRH id 0).2.tombstone_count = 0 := by
  constructor
  · exact ((c3_no_tombstones id).1 _
      (ReachBS.rem _ 0 (ReachBS.ins _ 8 2 (ReachBS.ins _ 0 1 (ReachBS.init 8 1 2))))).1
  · exact ((c3_no_tombstones id).2 _
      (ReachRH.rem _ 0 (ReachRH.ins _ 8 2 (ReachRH.ins _ 0 1 (ReachRH.init 8 1 2))))).1


/-! ### Linear emplace and remove: correctness -/

theorem emplaceL_some_iff {hash : Nat → Nat} {t : Table} (hwf : WFL hash t)
    (k v : Nat) :
    t.emplaceL hash k = some v ↔ (k, v) ∈ pairsOf t.slots := by
  constructor
  · intro hemp
    cases hres : t.findIdxL hash k with
    | none => simp only [Table.emplaceL, hres] at hemp; cases hemp
    | some i =>
      rcases findLoop_sound hres with ⟨e, hocc, hke⟩
      simp only [Table.emplaceL, hres, hocc] at hemp
      cases hemp
      exact mem_pairsOf.mpr ⟨i, e, lt_length_of_slotAt_occ hocc, hocc, hke, rfl⟩
  · intro hmem
    rcases mem_pairsOf.mp hmem with ⟨p, e, hp, hocc, hke, hve⟩
    have hhe : e.ehash = hash k := by
      rw [← hke]; exact hwf.hash_ok p e hp hocc
    have hfind : t.findIdxL hash k = some p := by
      show findLoop t.slots t.capacity k (hash k) 0 t.capacity = some p
      have hfc := findLoop_complete hwf.cap_pos rfl hwf.nodup hwf.reach hp hocc
        hke hhe (cdist t.capacity (hash k % t.capacity) p) 0 (Nat.zero_add _)
      rw [Nat.sub_zero] at hfc
      exact hfc
    simp only [Table.emplaceL, hfind, hocc, hve]

theorem emplaceL_none_iff {hash : Nat → Nat} {t : Table} (hwf : WFL hash t)
    (k : Nat) :
    t.emplaceL hash k = none ↔ k ∉ keysOf t.slots := by
  constructor
  · intro hemp hkmem
    rcases mem_keysOf.mp hkmem with ⟨p, e, hp, hocc, hke⟩
    have hsome : t.emplaceL hash k = some e.value :=
      (emplaceL_some_iff hwf k e.value).mpr
        (mem_pairsOf.mpr ⟨p, e, hp, hocc, hke, rfl⟩)
    rw [hsome] at hemp; cases hemp
  · intro hn
    cases hres : t.emplaceL hash k with
    | none => rfl
    | some v =>
      exfalso
      rcases mem_pairsOf.mp ((emplaceL_some_iff hwf k v).mp hres) with
        ⟨p, e, hp, hocc, hke, _⟩
      exact hn (mem_keysOf.mpr ⟨p, e, hp, hocc, hke⟩)

theorem findIdxL_none_iff {hash : Nat → Nat} {t : Table} (hwf : WFL hash t)
    (k : Nat) :
    t.findIdxL hash k = none ↔ k ∉ keysOf t.slots := by
  constructor
  · intro hres
    exact (emplaceL_none_iff hwf k).mp (by simp only [Table.emplaceL, hres])
  · intro hn
    cases hres : t.findIdxL hash k with
    | none => rfl
    | some i =>
      exfalso
      rcases findLoop_sound hres with ⟨e, hocc, hke⟩
      exact hn (mem_keysOf.mpr ⟨_, e, lt_length_of_slotAt_occ hocc, hocc, hke⟩)

theorem removeTS_spec {hash : Nat → Nat} {t : Table} (hwf : WFL hash t)
    (k : Nat) :
    ((t.removeTS hash k).1 = true ↔ k ∈ keysOf t.slots) ∧
    ((t.removeTS hash k).1 = false → (t.removeTS hash k).2 = t) ∧
    ((t.removeTS hash k).1 = true →
      (t.removeTS hash k).2.live_count = t.live_count - 1) := by
  cases hres : t.findIdxL hash k with
  | none =>
    have hn := (findIdxL_none_iff hwf k).mp hres
    have h1 : t.removeTS hash k = (false, t) := by
      simp only [Table.removeTS, hres]
    rw [h1]
    exact ⟨⟨fun hc => Bool.noConfusion hc, fun hm => absurd hm hn⟩, fun _ => rfl,
      fun hc => Bool.noConfusion hc⟩
  | some i =>
    rcases findLoop_sound hres with ⟨e, hocc, hke⟩
    have h1 : (t.removeTS hash k).1 = true := by
      simp only [Table.removeTS, hres]
    have h2 : (t.removeTS hash k).2.live_count = t.live_count - 1 := by
      simp only [Table.removeTS, hres]
    rw [h1]
    exact ⟨⟨fun _ => mem_keysOf.mpr ⟨i, e, lt_length_of_slotAt_occ hocc, hocc, hke⟩,
      fun _ => rfl⟩, fun hc => Bool.noConfusion hc, fun _ => h2⟩

theorem removeBS_spec {hash : Nat → Nat} {t : Table} (hwf : WFL hash t)
    (k : Nat) :
    ((t.removeBS hash k).1 = true ↔ k ∈ keysOf t.slots) ∧
    ((t.removeBS hash k).1 = false → (t.removeBS hash k).2 = t) ∧
    ((t.removeBS hash k).1 = true →
      (t.removeBS hash k).2.live_count = t.live_count - 1) := by
  cases hres : t.findIdxL hash k with
  | none =>
    have hn := (findIdxL_none_iff hwf k).mp hres
    have h1 : t.removeBS hash k = (false, t) := by
      simp only [Table.removeBS, hres]
    rw [h1]
    exact ⟨⟨fun hc => Bool.noConfusion hc, fun hm => absurd hm hn⟩, fun _ => rfl,
      fun hc => Bool.noConfusion hc⟩
  | some i =>
    rcases findLoop_sound hres with ⟨e, hocc, hke⟩
    have h1 : (t.removeBS hash k).1 = true := by
      simp only [Table.removeBS, hres]
    have h2 : (t.removeBS hash k).2.live_count = t.live_count - 1 := by
      simp only [Table.removeBS, hres]
    rw [h1]
    exact ⟨⟨fun _ => mem_keysOf.mpr ⟨i, e, lt_length_of_slotAt_occ hocc, hocc, hke⟩,
      fun _ => rfl⟩, fun hc => Bool.noConfusion hc, fun _ => h2⟩

/-! ### The insert-only run refines the last-write-wins model (linear) -/

theorem runL_fold_inv (hash : Nat → Nat) :
    ∀ (ops : List (Nat × Nat)) (t : Table) (m : Nat → Option Nat),
    WFL hash t → Slot.empty ∈ t.slots → t.threshNum < t.threshDen →
    (∀ k v, m k = some v → (k, v) ∈ pairsOf t.slots) →
    WFL hash (ops.foldl (fun t p => t.insertL hash p.1 p.2) t) ∧
    Slot.empty ∈ (ops.foldl (fun t p => t.insertL hash p.1 p.2) t).slots ∧
    (∀ k v,
      ops.foldl (fun acc p => if p.1 = k then some p.2 else acc) (m k) = some v →
      (k, v) ∈ pairsOf (ops.foldl (fun t p => t.insertL hash p.1 p.2) t).slots) := by
  intro ops
  induction ops with
  | nil =>
    intro t m hwf hasE _ hm
    exact ⟨hwf, hasE, fun k v h => hm k v h⟩
  | cons p ops ih =>
    intro t m hwf hasE htd hm
    simp only [List.foldl_cons]
    rcases insertL_spec p.1 p.2 hwf hasE htd with
      ⟨hwf', hasE', hmem', hpres', htn', htd'⟩
    have htd2 : (t.insertL hash p.1 p.2).threshNum
        < (t.insertL hash p.1 p.2).threshDen := by
      rw [htn', htd']; exact htd
    have hm' : ∀ k v,
        (if p.1 = k then some p.2 else m k) = some v →
        (k, v) ∈ pairsOf (t.insertL hash p.1 p.2).slots := by
      intro k v hkv
      by_cases hpk : p.1 = k
      · rw [if_pos hpk] at hkv
        cases hkv
        rw [← hpk]
        exact hmem'
      · rw [if_neg hpk] at hkv
        exact hpres' k v (fun hc => hpk hc.symm) (hm k v hkv)
    exact ih (t.insertL hash p.1 p.2) (fun k => if p.1 = k then some p.2 else m k)
      hwf' hasE' htd2 hm'

/-! ### Robin Hood lookup scan: soundness and completeness -/

theorem probeAt_zero (cap h : Nat) : probeAt cap h 0 = h % cap := by
  unfold probeAt
  rw [Nat.add_zero, Nat.mod_mod_of_dvd _ (dvd_refl cap)]

theorem rhFind_sound {slots : List Slot} {cap k h : Nat} :
    ∀ {fuel s i}, rhFind slots cap k h s fuel = some i →
    ∃ e, slotAt slots i = Slot.occ e ∧ e.key = k := by
  intro fuel
  induction fuel with
  | zero => intro s i hc; cases hc
  | succ fuel ih =>
    intro s i hf
    cases hslot : slotAt slots (probeAt cap h s) with
    | empty => simp only [rhFind, hslot] at hf; cases hf
    | tomb => simp only [rhFind, hslot] at hf; cases hf
    | occ e =>
      simp only [rhFind, hslot] at hf
      by_cases hk : e.key = k
      · rw [if_pos hk] at hf
        cases hf
        exact ⟨e, hslot, hk⟩
      · rw [if_neg hk] at hf
        by_cases hpsl : e.psl < s
        · rw [if_pos hpsl] at hf; cases hf
        · rw [if_neg hpsl] at hf
          exact ih hf

theorem rhFind_complete {slots : List Slot} {cap k h p : Nat} {e : Entry}
    (hc : 0 < cap) (hlen : slots.length = cap)
    (hnd : keysNodup slots) (hpsl : pslOk slots) (hord : rhOrder slots)
    (hp : p < cap) (hocc : slotAt slots p = Slot.occ e) (hk : e.key = k)
    (hh : e.ehash = h) :
    ∀ n s, s + n = cdist cap (h % cap) p →
    rhFind slots cap k h s (cap - s) = some p := by
  have hepsl : e.psl = cdist cap (h % cap) p := by
    have := hpsl p e (by rw [hlen]; exact hp) hocc
    simp only [hlen, homeIdx, hh] at this
    exact this
  intro n
  induction n with
  | zero =>
    intro s hs
    rw [Nat.add_zero] at hs
    have hslt : s < cap := hs ▸ cdist_lt cap _ p hc
    have hfuel : cap - s = (cap - s - 1) + 1 := by omega
    rw [hfuel]
    have hpr : probeAt cap h s = p := by
      rw [hs]; exact probeAt_cdist cap h p hc hp
    simp only [rhFind, hpr, hocc, if_pos hk]
  | succ n ih =>
    intro s hs
    have hslt : s < cap := by
      have := cdist_lt cap (h % cap) p hc; omega
    have hsd : s < cdist cap (h % cap) p := by omega
    have hres : ∃ f, slotAt slots (probeAt cap h s) = Slot.occ f ∧ s ≤ f.psl := by
      have hr := hord p e (by rw [hlen]; exact hp) hocc s (by omega)
      simp only [hlen, homeIdx, hh] at hr
      exact hr
    rcases hres with ⟨f, hoccf, hsf⟩
    have hfuel : cap - s = (cap - (s+1)) + 1 := by omega
    rw [hfuel]
    simp only [rhFind, hoccf]
    by_cases hfk : f.key = k
    · exfalso
      have hple : probeAt cap h s = p := by
        refine hnd (probeAt cap h s) p f e ?_ ?_ hoccf hocc (hfk.trans hk.symm)
        · rw [hlen]; exact probeAt_lt cap h s hc
        · rw [hlen]; exact hp
      have : cdist cap (h % cap) p = s := by
        rw [← hple]; exact cdist_probeAt cap h s hc hslt
      omega
    · rw [if_neg hfk, if_neg (by omega)]
      exact ih (s+1) (by omega)

/-! ### Robin Hood emplace and remove: correctness -/

theorem emplaceRH_some_iff {hash : Nat → Nat} {t : Table} (hwf : WFRH hash t)
    (k v : Nat) :
    t.emplaceRH hash k = some v ↔ (k, v) ∈ pairsOf t.slots := by
  constructor
  · intro hemp
    cases hres : t.findIdxRH hash k with
    | none => simp only [Table.emplaceRH, hres] at hemp; cases hemp
    | some i =>
      rcases rhFind_sound hres with ⟨e, hocc, hke⟩
      simp only [Table.emplaceRH, hres, hocc] at hemp
      cases hemp
      exact mem_pairsOf.mpr ⟨i, e, lt_length_of_slotAt_occ hocc, hocc, hke, rfl⟩
  · intro hmem
    rcases mem_pairsOf.mp hmem with ⟨p, e, hp, hocc, hke, hve⟩
    have hhe : e.ehash = hash k := by
      rw [← hke]; exact hwf.hash_ok p e hp hocc
    have hfind : t.findIdxRH hash k = some p := by
      show rhFind t.slots t.capacity k (hash k) 0 t.capacity = some p
      have hfc := rhFind_complete hwf.cap_pos rfl hwf.nodup hwf.psl_ok hwf.order
        hp hocc hke hhe (cdist t.capacity (hash k % t.capacity) p) 0
        (Nat.zero_add _)
      rw [Nat.sub_zero] at hfc
      exact hfc
    simp only [Table.emplaceRH, hfind, hocc, hve]

theorem emplaceRH_none_iff {hash : Nat → Nat} {t : Table} (hwf : WFRH hash t)
    (k : Nat) :
    t.emplaceRH hash k = none ↔ k ∉ keysOf t.slots := by
  constructor
  · intro hemp hkmem
    rcases mem_keysOf.mp hkmem with ⟨p, e, hp, hocc, hke⟩
    have hsome : t.emplaceRH hash k = some e.value :=
      (emplaceRH_some_iff hwf k e.value).mpr
        (mem_pairsOf.mpr ⟨p, e, hp, hocc, hke, rfl⟩)
    rw [hsome] at hemp; cases hemp
  · intro hn
    cases hres : t.emplaceRH hash k with
    | none => rfl
    | some v =>
      exfalso
      rcases mem_pairsOf.mp ((emplaceRH_some_iff hwf k v).mp hres) with
        ⟨p, e, hp, hocc, hke, _⟩
      exact hn (mem_keysOf.mpr ⟨p, e, hp, hocc, hke⟩)

theorem findIdxRH_none_iff {hash : Nat → Nat} {t : Table} (hwf : WFRH hash t)
    (k : Nat) :
    t.findIdxRH hash k = none ↔ k ∉ keysOf t.slots := by
  constructor
  · intro hres
    exact (emplaceRH_none_iff hwf k).mp (by simp only [Table.emplaceRH, hres])
  · intro hn
    cases hres : t.findIdxRH hash k with
    | none => rfl
    | some i =>
      exfalso
      rcases rhFind_sound hres with ⟨e, hocc, hke⟩
      exact hn (mem_keysOf.mpr ⟨_, e, lt_length_of_slotAt_occ hocc, hocc, hke⟩)

theorem removeRH_spec {hash : Nat → Nat} {t : Table} (hwf : WFRH hash t)
    (k : Nat) :
    ((t.removeRH hash k).1 = true ↔ k ∈ keysOf t.slots) ∧
    ((t.removeRH hash k).1 = false → (t.removeRH hash k).2 = t) ∧
    ((t.removeRH hash k).1 = true →
      (t.removeRH hash k).2.live_count = t.live_count - 1) := by
  cases hres : t.findIdxRH hash k with
  | none =>
    have hn := (findIdxRH_none_iff hwf k).mp hres
    have h1 : t.removeRH hash k = (false, t) := by
      simp only [Table.removeRH, hres]
    rw [h1]
    exact ⟨⟨fun hc => Bool.noConfusion hc, fun hm => absurd hm hn⟩, fun _ => rfl,
      fun hc => Bool.noConfusion hc⟩
  | some i =>
    rcases rhFind_sound hres with ⟨e, hocc, hke⟩
    have h1 : (t.removeRH hash k).1 = true := by
      simp only [Table.removeRH, hres]
    have h2 : (t.removeRH hash k).2.live_count = t.live_count - 1 := by
      simp only [Table.removeRH, hres]
    rw [h1]
    exact ⟨⟨fun _ => mem_keysOf.mpr ⟨i, e, lt_length_of_slotAt_occ hocc, hocc, hke⟩,
      fun _ => rfl⟩, fun hc => Bool.noConfusion hc, fun _ => h2⟩

/-! ### Writing an occupied slot preserves the Robin Hood invariants -/

theorem add_mod_ne_self {cap i d : Nat} (hi : i < cap) (hd0 : d ≠ 0)
    (hdc : d < cap) : (i + d) % cap ≠ i := by
  intro he
  rcases Nat.lt_or_ge (i + d) cap with h1 | h1
  · rw [Nat.mod_eq_of_lt h1] at he; omega
  · rw [Nat.mod_eq_sub_mod h1, Nat.mod_eq_of_lt (by omega)] at he; omega

theorem RH_core_set_occ {hash : Nat → Nat} {slots : List Slot} {i : Nat}
    {new : Entry} (hi : i < slots.length)
    (hho : hashOk hash slots) (hnd : keysNodup slots)
    (hpsl : pslOk slots) (hord : rhOrder slots)
    (hnew_hash : new.ehash = hash new.key)
    (hnew_key : ∀ j f, j < slots.length → j ≠ i →
      slotAt slots j = Slot.occ f → f.key ≠ new.key)
    (hnew_psl : new.psl = cdist slots.length (homeIdx slots.length new.ehash) i)
    (hnew_ord : ∀ s, s < new.psl →
      ∃ f, slotAt slots (probeAt slots.length new.ehash s) = Slot.occ f ∧
        s ≤ f.psl)
    (hmono : ∀ f : Entry, slotAt slots i = Slot.occ f → f.psl ≤ new.psl) :
    hashOk hash (slots.set i (Slot.occ new)) ∧
    keysNodup (slots.set i (Slot.occ new)) ∧
    pslOk (slots.set i (Slot.occ new)) ∧
    rhOrder (slots.set i (Slot.occ new)) := by
  have hlen : (slots.set i (Slot.occ new)).length = slots.length :=
    List.length_set slots i _
  have hcpos : 0 < slots.length := Nat.lt_of_le_of_lt (Nat.zero_le i) hi
  refine ⟨?_, ?_, ?_, ?_⟩
  · intro j f hj hocc
    rw [hlen] at hj
    by_cases hji : i = j
    · subst hji; rw [slotAt_set_self hi] at hocc; cases hocc; exact hnew_hash
    · rw [slotAt_set_ne hji] at hocc; exact hho j f hj hocc
  · intro j j' f f' hj hj' hocc hocc' hkey
    rw [hlen] at hj hj'
    by_cases hji : i = j <;> by_cases hji' : i = j'
    · rw [← hji, ← hji']
    · exfalso
      subst hji
      rw [slotAt_set_self hi] at hocc
      cases hocc
      rw [slotAt_set_ne hji'] at hocc'
      exact hnew_key j' f' hj' (fun hc => hji' hc.symm) hocc' hkey.symm
    · exfalso
      subst hji'
      rw [slotAt_set_self hi] at hocc'
      cases hocc'
      rw [slotAt_set_ne hji] at hocc
      exact hnew_key j f hj (fun hc => hji hc.symm) hocc hkey
    · rw [slotAt_set_ne hji] at hocc
      rw [slotAt_set_ne hji'] at hocc'
      exact hnd j j' f f' hj hj' hocc hocc' hkey
  · intro j f hj hocc
    rw [hlen] at hj ⊢
    by_cases hji : i = j
    · subst hji; rw [slotAt_set_self hi] at hocc; cases hocc; exact hnew_psl
    · rw [slotAt_set_ne hji] at hocc; exact hpsl j f hj hocc
  · intro j f hj hocc s hs
    rw [hlen] at hj ⊢
    by_cases hji : i = j
    · subst hji
      rw [slotAt_set_self hi] at hocc
      cases hocc
      rcases hnew_ord s hs with ⟨g, hoccg, hsg⟩
      have hqne : probeAt slots.length new.ehash s ≠ i := by
        intro hq
        have h2 : probeAt slots.length new.ehash new.psl = i := by
          rw [hnew_psl]
          exact probeAt_cdist _ _ _ hcpos hi
        have hp2 : new.psl < slots.length := by
          rw [hnew_psl]; exact cdist_lt _ _ _ hcpos
        have hs2 : s < slots.length := by omega
        have := probeAt_inj hcpos hs2 hp2 (hq.trans h2.symm)
        omega
      rw [slotAt_set_ne (fun hcon => hqne hcon.symm)]
      exact ⟨g, hoccg, hsg⟩
    · rw [slotAt_set_ne hji] at hocc
      rcases hord j f hj hocc s hs with ⟨g, hoccg, hsg⟩
      by_cases hqi : probeAt slots.length f.ehash s = i
      · refine ⟨new, ?_, ?_⟩
        · rw [hqi, slotAt_set_self hi]
        · have hg : g.psl ≤ new.psl := hmono g (by rw [← hqi]; exact hoccg)
          omega
      · rw [slotAt_set_ne (fun hcon => hqi hcon.symm)]
        exact ⟨g, hoccg, hsg⟩

/-! ### The Robin Hood insert walk: key already present -/

theorem rhInsLoop_update_spec {slots : List Slot} {cap k h p : Nat} {e : Entry}
    (hc : 0 < cap) (hlen : slots.length = cap)
    (hnd : keysNodup slots) (hpsl : pslOk slots) (hord : rhOrder slots)
    (hp : p < cap) (hocc : slotAt slots p = Slot.occ e) (hk : e.key = k)
    (hh : e.ehash = h) :
    ∀ n s (tr : Entry), tr.key = k → tr.ehash = h → tr.psl = s →
    s + n = cdist cap (h % cap) p →
    rhInsLoop cap slots tr (probeAt cap h s) (cap - s)
      = (slots.set p (Slot.occ ⟨e.key, tr.value, e.ehash, e.psl⟩), false) := by
  intro n
  induction n with
  | zero =>
    intro s tr htk hth htp hs
    rw [Nat.add_zero] at hs
    have hslt : s < cap := hs ▸ cdist_lt cap _ p hc
    have hfuel : cap - s = (cap - s - 1) + 1 := by omega
    rw [hfuel]
    have hpr : probeAt cap h s = p := by
      rw [hs]; exact probeAt_cdist cap h p hc hp
    have hek : e.key = tr.key := by rw [hk, htk]
    simp only [rhInsLoop, rhStep, hpr, hocc, if_pos hek]
  | succ n ih =>
    intro s tr htk hth htp hs
    have hslt : s < cap := by
      have := cdist_lt cap (h % cap) p hc; omega
    have hsd : s < cdist cap (h % cap) p := by omega
    have hres : ∃ f, slotAt slots (probeAt cap h s) = Slot.occ f ∧ s ≤ f.psl := by
      have hepsl : e.psl = cdist cap (h % cap) p := by
        have := hpsl p e (by rw [hlen]; exact hp) hocc
        simpa [hlen, homeIdx, hh] using this
      have hr := hord p e (by rw [hlen]; exact hp) hocc s (by omega)
      simp only [hlen, homeIdx, hh] at hr
      exact hr
    rcases hres with ⟨f, hoccf, hsf⟩
    have hfuel : cap - s = (cap - (s+1)) + 1 := by omega
    rw [hfuel]
    have hfk : f.key ≠ tr.key := by
      intro hceq
      have hple : probeAt cap h s = p :=
        hnd _ p f e (by rw [hlen]; exact probeAt_lt cap h s hc)
          (by rw [hlen]; exact hp) hoccf hocc (by rw [hceq, htk, ← hk])
      have : cdist cap (h % cap) p = s := by
        rw [← hple]; exact cdist_probeAt cap h s hc hslt
      omega
    have hnoswap : ¬ f.psl < tr.psl := by rw [htp]; omega
    simp only [rhInsLoop, rhStep, hoccf, if_neg hfk, if_neg hnoswap]
    have hnext : (probeAt cap h s + 1) % cap = probeAt cap h (s+1) :=
      (probeAt_succ cap h s).symm
    rw [hnext]
    exact ih (s+1) ⟨tr.key, tr.value, tr.ehash, tr.psl + 1⟩ htk hth
      (by rw [htp]) (by omega)

/-! ### The Robin Hood insert walk: fresh key -/

theorem rhInsLoop_fresh_spec (hash : Nat → Nat) {cap : Nat} (hc : 0 < cap) :
    ∀ (fuel : Nat) (slots : List Slot) (tr : Entry) (i : Nat),
    slots.length = cap →
    noTomb slots →
    hashOk hash slots →
    keysNodup slots →
    pslOk slots →
    rhOrder slots →
    tr.ehash = hash tr.key →
    tr.key ∉ keysOf slots →
    probeAt cap tr.ehash tr.psl = i →
    tr.psl + fuel ≤ cap →
    (∀ s, s < tr.psl →
      ∃ f, slotAt slots (probeAt cap tr.ehash s) = Slot.occ f ∧ s ≤ f.psl) →
    (∃ d, d < fuel ∧ slotAt slots ((i + d) % cap) = Slot.empty) →
    (rhInsLoop cap slots tr i fuel).2 = true ∧
    (pairsOf (rhInsLoop cap slots tr i fuel).1).Perm
      ((tr.key, tr.value) :: pairsOf slots) ∧
    (rhInsLoop cap slots tr i fuel).1.length = cap ∧
    noTomb (rhInsLoop cap slots tr i fuel).1 ∧
    hashOk hash (rhInsLoop cap slots tr i fuel).1 ∧
    keysNodup (rhInsLoop cap slots tr i fuel).1 ∧
    pslOk (rhInsLoop cap slots tr i fuel).1 ∧
    rhOrder (rhInsLoop cap slots tr i fuel).1 ∧
    ∃ d₀, slotAt slots ((i + d₀) % cap) = Slot.empty ∧
      (∀ u, u < d₀ → slotAt slots ((i + u) % cap) ≠ Slot.empty) ∧
      (∀ j, slotAt (rhInsLoop cap slots tr i fuel).1 j = Slot.empty ↔
        (slotAt slots j = Slot.empty ∧ j ≠ (i + d₀) % cap)) ∧
      sumPSLfield (rhInsLoop cap slots tr i fuel).1
        = sumPSLfield slots + tr.psl + d₀ := by
  intro fuel
  induction fuel with
  | zero =>
    intro slots tr i _ _ _ _ _ _ _ _ _ _ _ hbud
    rcases hbud with ⟨d, hd, _⟩
    exact absurd hd (Nat.not_lt_zero d)
  | succ fuel ih =>
    intro slots tr i hlen hnt hho hnd hpsl hord hth hfresh hpi hbound hpref hbud
    have hilt : i < cap := hpi ▸ probeAt_lt cap tr.ehash tr.psl hc
    have hislots : i < slots.length := by rw [hlen]; exact hilt
    have htrpsl_lt : tr.psl < cap := by omega
    have hnew_psl : tr.psl = cdist slots.length (homeIdx slots.length tr.ehash) i := by
      simp only [hlen, homeIdx]
      rw [← hpi]
      exact (cdist_probeAt cap tr.ehash tr.psl hc htrpsl_lt).symm
    cases hslot : slotAt slots i with
    | tomb => exact absurd hslot (noTomb_slotAt hnt i)
    | empty =>
      have hcore := @RH_core_set_occ hash slots i tr hislots hho hnd
        hpsl hord hth
        (fun j f hj _ hoccj hkf => hfresh (mem_keysOf.mpr ⟨j, f, hj, hoccj, hkf⟩))
        hnew_psl
        (fun s hs => by rw [hlen]; exact hpref s hs)
        (fun f hf => by rw [hslot] at hf; cases hf)
      have hres : rhInsLoop cap slots tr i (fuel+1)
          = (slots.set i (Slot.occ tr), true) := by
        simp only [rhInsLoop, rhStep, hslot]
      rw [hres]
      refine ⟨rfl, ?_, ?_, noTomb_set hnt (occ_ne_tomb _), hcore.1, hcore.2.1,
        hcore.2.2.1, hcore.2.2.2, ?_⟩
      · exact (liveEntriesOf_set_perm_not_occ slots i tr hislots (Or.inl hslot)).map _
      · rw [List.length_set]; exact hlen
      · refine ⟨0, ?_, fun u hu => absurd hu (Nat.not_lt_zero u), ?_, ?_⟩
        · rw [Nat.add_zero, Nat.mod_eq_of_lt hilt]
          exact hslot
        · intro j
          rw [Nat.add_zero, Nat.mod_eq_of_lt hilt]
          show slotAt (slots.set i (Slot.occ tr)) j = Slot.empty ↔
            (slotAt slots j = Slot.empty ∧ j ≠ i)
          by_cases hj : j = i
          · subst hj
            rw [slotAt_set_self hislots]
            exact ⟨fun hcon => absurd hcon (occ_ne_empty tr),
              fun hcon => absurd rfl hcon.2⟩
          · rw [slotAt_set_ne (fun hcon => hj hcon.symm)]
            exact ⟨fun he => ⟨he, hj⟩, fun hp2 => hp2.1⟩
        · show sumPSLfield (slots.set i (Slot.occ tr))
            = sumPSLfield slots + tr.psl + 0
          have hset := sumPSLfield_set hislots (Slot.occ tr)
          rw [hslot] at hset
          simp only [slotPSLfield] at hset
          omega
    | occ f =>
      have hfne : f.key ≠ tr.key := fun hceq =>
        hfresh (mem_keysOf.mpr ⟨i, f, hislots, hslot, hceq⟩)
      rcases hbud with ⟨d, hd, hde⟩
      have hd0 : d ≠ 0 := by
        intro h0
        rw [h0, Nat.add_zero, Nat.mod_eq_of_lt hilt] at hde
        rw [hde] at hslot; cases hslot
      have hdc : d < cap := by omega
      have hbud' : slotAt slots (((i+1) % cap + (d-1)) % cap) = Slot.empty := by
        have harith : ((i+1) % cap + (d-1)) % cap = (i + d) % cap := by
          rw [Nat.mod_add_mod]
          have : i + 1 + (d - 1) = i + d := by omega
          rw [this]
        rw [harith]
        exact hde
      have hposne : (i + d) % cap ≠ i := add_mod_ne_self hilt hd0 hdc
      by_cases hswap : f.psl < tr.psl
      · have hres : rhInsLoop cap slots tr i (fuel+1)
            = rhInsLoop cap (slots.set i (Slot.occ tr))
              ⟨f.key, f.value, f.ehash, f.psl + 1⟩ ((i+1) % cap) fuel := by
          simp only [rhInsLoop, rhStep, hslot, if_neg hfne, if_pos hswap]
        have hcore := @RH_core_set_occ hash slots i tr hislots hho hnd
          hpsl hord hth
          (fun j g hj _ hoccj hkg => hfresh (mem_keysOf.mpr ⟨j, g, hj, hoccj, hkg⟩))
          hnew_psl
          (fun s hs => by rw [hlen]; exact hpref s hs)
          (fun g hg => by rw [hslot] at hg; cases hg; exact Nat.le_of_lt hswap)
        have hlen' : (slots.set i (Slot.occ tr)).length = cap := by
          rw [List.length_set]; exact hlen
        have hfe : f.ehash = hash f.key := hho i f hislots hslot
        have hfpsl : f.psl = cdist cap (homeIdx cap f.ehash) i := by
          have := hpsl i f hislots hslot
          simpa [hlen] using this
        have hfpsl_lt : f.psl < cap := by
          rw [hfpsl]; exact cdist_lt _ _ _ hc
        have hpif : probeAt cap f.ehash f.psl = i := by
          rw [hfpsl]
          exact probeAt_cdist cap f.ehash i hc hilt
        have hfresh' : f.key ∉ keysOf (slots.set i (Slot.occ tr)) := by
          intro hmem
          rcases mem_keysOf.mp hmem with ⟨j, g, hj, hoccg, hkg⟩
          rw [List.length_set] at hj
          by_cases hji : i = j
          · subst hji
            rw [slotAt_set_self hislots] at hoccg
            cases hoccg
            exact hfne hkg.symm
          · rw [slotAt_set_ne hji] at hoccg
            exact hji (hnd i j f g hislots hj hslot hoccg hkg.symm)
        have hpi' : probeAt cap f.ehash (f.psl + 1) = (i+1) % cap := by
          rw [probeAt_succ, hpif]
        have hpref' : ∀ s, s < f.psl + 1 →
            ∃ g, slotAt (slots.set i (Slot.occ tr)) (probeAt cap f.ehash s)
              = Slot.occ g ∧ s ≤ g.psl := by
          intro s hs
          rcases Nat.lt_or_ge s f.psl with hsf | hsf
          · have hr := hord i f hislots hslot s hsf
            rw [hlen] at hr
            rcases hr with ⟨g, hoccg, hsg⟩
            have hqne : probeAt cap f.ehash s ≠ i := by
              intro hq
              have := probeAt_inj hc (by omega) hfpsl_lt (hq.trans hpif.symm)
              omega
            rw [slotAt_set_ne (fun hcon => hqne hcon.symm)]
            exact ⟨g, hoccg, hsg⟩
          · have hsf' : s = f.psl := by omega
            rw [hsf', hpif, slotAt_set_self hislots]
            exact ⟨tr, rfl, Nat.le_of_lt hswap⟩
        have hbudget : ∃ d', d' < fuel ∧
            slotAt (slots.set i (Slot.occ tr)) (((i+1) % cap + d') % cap)
              = Slot.empty := by
          refine ⟨d - 1, by omega, ?_⟩
          have harith : ((i+1) % cap + (d-1)) % cap = (i + d) % cap := by
            rw [Nat.mod_add_mod]
            have : i + 1 + (d - 1) = i + d := by omega
            rw [this]
          rw [harith, slotAt_set_ne (fun hcon => hposne hcon.symm)]
          exact hde
        have hihres := ih (slots.set i (Slot.occ tr))
          ⟨f.key, f.value, f.ehash, f.psl + 1⟩ ((i+1) % cap) hlen'
          (noTomb_set hnt (occ_ne_tomb _)) hcore.1 hcore.2.1 hcore.2.2.1
          hcore.2.2.2 hfe hfresh' hpi'
          (by show f.psl + 1 + fuel ≤ cap; omega) hpref' hbudget
        rw [hres]
        rcases hihres with ⟨r2, rperm, rlen, rnt, rho, rnd, rpsl, rord, d₀, hde',
          hdm', hdiff', hdsum'⟩
        have hEE : ∀ j, slotAt (slots.set i (Slot.occ tr)) j = Slot.empty ↔
            slotAt slots j = Slot.empty := emp_set_occ hislots hslot
        have harith2 : ∀ u, ((i+1) % cap + u) % cap = (i + (u+1)) % cap := by
          intro u
          rw [Nat.mod_add_mod]
          have huu : i + 1 + u = i + (u + 1) := by omega
          rw [huu]
        refine ⟨r2, ?_, rlen, rnt, rho, rnd, rpsl, rord, d₀ + 1, ?_, ?_, ?_, ?_⟩
        · have hswapperm : ((f.key, f.value) ::
              pairsOf (slots.set i (Slot.occ tr))).Perm
              ((tr.key, tr.value) :: pairsOf slots) := by
            have := (liveEntriesOf_set_perm_occ slots i tr f hislots hslot).map
              fun e : Entry => (e.key, e.value)
            simpa [pairsOf] using this
          exact rperm.trans hswapperm
        · rw [harith2 d₀] at hde'
          exact (hEE _).mp hde'
        · intro u hu
          cases u with
          | zero =>
            rw [Nat.add_zero, Nat.mod_eq_of_lt hilt, hslot]
            intro hcon
            cases hcon
          | succ u' =>
            have hu' : u' < d₀ := by omega
            have hne := hdm' u' hu'
            rw [harith2 u'] at hne
            intro hcon
            exact hne ((hEE _).mpr hcon)
        · intro j
          have hj := hdiff' j
          rw [harith2 d₀] at hj
          exact hj.trans (and_congr (hEE j) Iff.rfl)
        · have hsum2 : sumPSLfield (rhInsLoop cap (slots.set i (Slot.occ tr))
              ⟨f.key, f.value, f.ehash, f.psl + 1⟩ ((i+1) % cap) fuel).1
              = sumPSLfield (slots.set i (Slot.occ tr)) + (f.psl + 1) + d₀ := hdsum'
          have hset := sumPSLfield_set hislots (Slot.occ tr)
          rw [hslot] at hset
          simp only [slotPSLfield] at hset
          omega
      · have hres : rhInsLoop cap slots tr i (fuel+1)
            = rhInsLoop cap slots
              ⟨tr.key, tr.value, tr.ehash, tr.psl + 1⟩ ((i+1) % cap) fuel := by
          simp only [rhInsLoop, rhStep, hslot, if_neg hfne, if_neg hswap]
        have hpi' : probeAt cap tr.ehash (tr.psl + 1) = (i+1) % cap := by
          rw [probeAt_succ, hpi]
        have hpref' : ∀ s, s < tr.psl + 1 →
            ∃ g, slotAt slots (probeAt cap tr.ehash s) = Slot.occ g ∧
              s ≤ g.psl := by
          intro s hs
          rcases Nat.lt_or_ge s tr.psl with hst | hst
          · exact hpref s hst
          · have hseq : s = tr.psl := by omega
            rw [hseq, hpi]
            exact ⟨f, hslot, by omega⟩
        have hbudget : ∃ d', d' < fuel ∧
            slotAt slots (((i+1) % cap + d') % cap) = Slot.empty :=
          ⟨d - 1, by omega, hbud'⟩
        have hihres := ih slots ⟨tr.key, tr.value, tr.ehash, tr.psl + 1⟩
          ((i+1) % cap) hlen hnt hho hnd hpsl hord hth hfresh hpi'
          (by show tr.psl + 1 + fuel ≤ cap; omega) hpref' hbudget
        rw [hres]
        rcases hihres with ⟨r2, rperm, rlen, rnt, rho, rnd, rpsl, rord, d₀, hde',
          hdm', hdiff', hdsum'⟩
        have harith2 : ∀ u, ((i+1) % cap + u) % cap = (i + (u+1)) % cap := by
          intro u
          rw [Nat.mod_add_mod]
          have huu : i + 1 + u = i + (u + 1) := by omega
          rw [huu]
        refine ⟨r2, rperm, rlen, rnt, rho, rnd, rpsl, rord, d₀ + 1, ?_, ?_, ?_, ?_⟩
        · rw [harith2 d₀] at hde'
          exact hde'
        · intro u hu
          cases u with
          | zero =>
            rw [Nat.add_zero, Nat.mod_eq_of_lt hilt, hslot]
            intro hcon
            cases hcon
          | succ u' =>
            have hu' : u' < d₀ := by omega
            have hne := hdm' u' hu'
            rw [harith2 u'] at hne
            exact hne
        · intro j
          have hj := hdiff' j
          rw [harith2 d₀] at hj
          exact hj
        · have hsum2 : sumPSLfield (rhInsLoop cap slots
              ⟨tr.key, tr.value, tr.ehash, tr.psl + 1⟩ ((i+1) % cap) fuel).1
              = sumPSLfield slots + (tr.psl + 1) + d₀ := hdsum'
          omega

/-! ### Raw Robin Hood insert at the table level -/

theorem mkTable_WFRH (hash : Nat → Nat) (cap tn td : Nat) (hc : 0 < cap) :
    WFRH hash (mkTable cap tn td) := by
  refine ⟨?_, ?_, noTomb_replicate cap, rfl, ?_, ?_, ?_, ?_⟩
  · show 0 < (List.replicate cap Slot.empty).length
    rw [List.length_replicate]; exact hc
  · show 0 = countOcc (List.replicate cap Slot.empty)
    rw [countOcc, liveEntriesOf_replicate]; rfl
  · intro i e _ hocc
    simp only [mkTable, slotAt_replicate] at hocc
    cases hocc
  · intro i j e f _ _ hocc _ _
    simp only [mkTable, slotAt_replicate] at hocc
    cases hocc
  · intro i e _ hocc
    simp only [mkTable, slotAt_replicate] at hocc
    cases hocc
  · intro i e _ hocc
    simp only [mkTable, slotAt_replicate] at hocc
    cases hocc

theorem insertRawRH_fresh {hash : Nat → Nat} {t : Table} {k v : Nat}
    (hwf : WFRH hash t) (hasE : Slot.empty ∈ t.slots)
    (hfresh : k ∉ keysOf t.slots) :
    WFRH hash (t.insertRawRH hash k v) ∧
    (pairsOf (t.insertRawRH hash k v).slots).Perm ((k, v) :: pairsOf t.slots) ∧
    (t.insertRawRH hash k v).capacity = t.capacity ∧
    (t.insertRawRH hash k v).live_count = t.live_count + 1 ∧
    (t.insertRawRH hash k v).threshNum = t.threshNum ∧
    (t.insertRawRH hash k v).threshDen = t.threshDen := by
  have hcpos : 0 < t.capacity := hwf.cap_pos
  have hlen : t.slots.length = t.capacity := rfl
  rcases slotAt_mem_exists hasE with ⟨j, hj, hje⟩
  have hbud : ∃ d, d < t.capacity ∧
      slotAt t.slots ((homeIdx t.capacity (hash k) + d) % t.capacity)
        = Slot.empty := by
    refine ⟨cdist t.capacity (homeIdx t.capacity (hash k)) j,
      cdist_lt _ _ _ hcpos, ?_⟩
    have hpc : (homeIdx t.capacity (hash k)
        + cdist t.capacity (homeIdx t.capacity (hash k)) j) % t.capacity = j := by
      have := probeAt_cdist t.capacity (hash k) j hcpos (hlen ▸ hj)
      simpa [probeAt, homeIdx, Nat.mod_add_mod] using this
    rw [hpc]; exact hje
  have hspec := rhInsLoop_fresh_spec hash hcpos t.capacity t.slots
    ⟨k, v, hash k, 0⟩ (homeIdx t.capacity (hash k)) hlen hwf.tomb_free
    hwf.hash_ok hwf.nodup hwf.psl_ok hwf.order rfl hfresh
    (probeAt_zero _ _) (by show 0 + t.capacity ≤ t.capacity; omega)
    (fun s hs => absurd hs (Nat.not_lt_zero s)) hbud
  rcases hspec with ⟨r2, rperm, rlen, rnt, rho, rnd, rpsl, rord, _⟩
  have hcount : countOcc (rhInsLoop t.capacity t.slots ⟨k, v, hash k, 0⟩
      (homeIdx t.capacity (hash k)) t.capacity).1 = countOcc t.slots + 1 := by
    have hl := rperm.length_eq
    simpa [pairsOf, countOcc] using hl
  constructor
  · refine ⟨?_, ?_, ?_, ?_, ?_, ?_, ?_, ?_⟩
    · show 0 < (t.insertRawRH hash k v).slots.length
      simp only [Table.insertRawRH]
      rw [rlen]; exact hcpos
    · show (t.insertRawRH hash k v).live_count
        = countOcc (t.insertRawRH hash k v).slots
      simp only [Table.insertRawRH, r2, if_true]
      rw [hcount, hwf.live_eq]
    · show noTomb (t.insertRawRH hash k v).slots
      simp only [Table.insertRawRH]; exact rnt
    · show (t.insertRawRH hash k v).tombstone_count = 0
      simp only [Table.insertRawRH]; exact hwf.tomb_zero
    · show hashOk hash (t.insertRawRH hash k v).slots
      simp only [Table.insertRawRH]; exact rho
    · show keysNodup (t.insertRawRH hash k v).slots
      simp only [Table.insertRawRH]; exact rnd
    · show pslOk (t.insertRawRH hash k v).slots
      simp only [Table.insertRawRH]; exact rpsl
    · show rhOrder (t.insertRawRH hash k v).slots
      simp only [Table.insertRawRH]; exact rord
  refine ⟨?_, ?_, ?_, rfl, rfl⟩
  · show (pairsOf (t.insertRawRH hash k v).slots).Perm _
    simp only [Table.insertRawRH]
    exact rperm
  · show (t.insertRawRH hash k v).slots.length = t.capacity
    simp only [Table.insertRawRH]
    exact rlen
  · show (t.insertRawRH hash k v).live_count = t.live_count + 1
    simp only [Table.insertRawRH, r2, if_true]

theorem insertRawRH_update {hash : Nat → Nat} {t : Table} {k v p : Nat}
    {e : Entry} (hwf : WFRH hash t) (hp : p < t.capacity)
    (hocc : slotAt t.slots p = Slot.occ e) (hk : e.key = k) :
    WFRH hash (t.insertRawRH hash k v) ∧
    ((e.key, e.value) :: pairsOf (t.insertRawRH hash k v).slots).Perm
      ((k, v) :: pairsOf t.slots) ∧
    (k, v) ∈ pairsOf (t.insertRawRH hash k v).slots ∧
    (t.insertRawRH hash k v).capacity = t.capacity ∧
    (t.insertRawRH hash k v).live_count = t.live_count ∧
    (t.insertRawRH hash k v).threshNum = t.threshNum ∧
    (t.insertRawRH hash k v).threshDen = t.threshDen := by
  have hcpos : 0 < t.capacity := hwf.cap_pos
  have hlen : t.slots.length = t.capacity := rfl
  have hhe : e.ehash = hash k := by
    rw [← hk]; exact hwf.hash_ok p e (hlen ▸ hp) hocc
  have hloop := rhInsLoop_update_spec hcpos hlen hwf.nodup hwf.psl_ok hwf.order
    hp hocc hk hhe (cdist t.capacity (hash k % t.capacity) p) 0
    ⟨k, v, hash k, 0⟩ rfl rfl rfl (Nat.zero_add _)
  rw [Nat.sub_zero, probeAt_zero] at hloop
  have hres : rhInsLoop t.capacity t.slots ⟨k, v, hash k, 0⟩
      (homeIdx t.capacity (hash k)) t.capacity
      = (t.slots.set p (Slot.occ ⟨e.key, v, e.ehash, e.psl⟩), false) := hloop
  have hi : p < t.slots.length := hlen ▸ hp
  have hperm_live := liveEntriesOf_set_perm_occ t.slots p
    ⟨e.key, v, e.ehash, e.psl⟩ e hi hocc
  have hperm_pairs : ((e.key, e.value) ::
      pairsOf (t.slots.set p (Slot.occ ⟨e.key, v, e.ehash, e.psl⟩))).Perm
      ((k, v) :: pairsOf t.slots) := by
    have hm := hperm_live.map fun e : Entry => (e.key, e.value)
    have hg : ((⟨e.key, v, e.ehash, e.psl⟩ : Entry).key,
        (⟨e.key, v, e.ehash, e.psl⟩ : Entry).value) = (k, v) := by
      rw [← hk]
    simpa [pairsOf, hg] using hm
  have hcount : countOcc (t.slots.set p (Slot.occ ⟨e.key, v, e.ehash, e.psl⟩))
      = countOcc t.slots := by
    have hl := hperm_live.length_eq
    simp only [List.length_cons] at hl
    simpa [countOcc] using hl
  have hepsl := hwf.psl_ok p e hi hocc
  have hcore := @RH_core_set_occ hash t.slots p ⟨e.key, v, e.ehash, e.psl⟩
    hi hwf.hash_ok hwf.nodup hwf.psl_ok
    hwf.order (hwf.hash_ok p e hi hocc)
    (fun j f hj hjne hoccj hkf =>
      hjne (hwf.nodup j p f e hj hi hoccj hocc hkf))
    hepsl
    (fun s hs => hwf.order p e hi hocc s hs)
    (fun f hf => by rw [hocc] at hf; cases hf; exact Nat.le_refl _)
  refine ⟨⟨?_, ?_, ?_, ?_, ?_, ?_, ?_, ?_⟩, ?_, ?_, ?_, ?_, rfl, rfl⟩
  · show 0 < (t.insertRawRH hash k v).slots.length
    simp only [Table.insertRawRH, hres]
    rw [List.length_set]; exact hcpos
  · show (t.insertRawRH hash k v).live_count
      = countOcc (t.insertRawRH hash k v).slots
    simp only [Table.insertRawRH, hres, if_neg Bool.false_ne_true]
    rw [hcount]; exact hwf.live_eq
  · show noTomb (t.insertRawRH hash k v).slots
    simp only [Table.insertRawRH, hres]
    exact noTomb_set hwf.tomb_free (occ_ne_tomb _)
  · show (t.insertRawRH hash k v).tombstone_count = 0
    simp only [Table.insertRawRH, hres]
    exact hwf.tomb_zero
  · show hashOk hash (t.insertRawRH hash k v).slots
    simp only [Table.insertRawRH, hres]
    exact hcore.1
  · show keysNodup (t.insertRawRH hash k v).slots
    simp only [Table.insertRawRH, hres]
    exact hcore.2.1
  · show pslOk (t.insertRawRH hash k v).slots
    simp only [Table.insertRawRH, hres]
    exact hcore.2.2.1
  · show rhOrder (t.insertRawRH hash k v).slots
    simp only [Table.insertRawRH, hres]
    exact hcore.2.2.2
  · show ((e.key, e.value) :: pairsOf (t.insertRawRH hash k v).slots).Perm _
    simp only [Table.insertRawRH, hres]
    exact hperm_pairs
  · show (k, v) ∈ pairsOf (t.insertRawRH hash k v).slots
    simp only [Table.insertRawRH, hres]
    refine mem_pairsOf.mpr ⟨p, ⟨e.key, v, e.ehash, e.psl⟩,
      by rw [List.length_set]; exact hi, slotAt_set_self hi, hk, rfl⟩
  · show (t.insertRawRH hash k v).slots.length = t.capacity
    simp only [Table.insertRawRH, hres]
    rw [List.length_set]
    exact hlen
  · show (t.insertRawRH hash k v).live_count = t.live_count
    simp only [Table.insertRawRH, hres, if_neg Bool.false_ne_true]

/-! ### Robin Hood grow pass and full insert -/

theorem foldl_insertRawRH_spec (hash : Nat → Nat) :
    ∀ (l : List Entry) (acc : Table),
    WFRH hash acc →
    (∀ e ∈ l, e.key ∉ keysOf acc.slots) →
    (l.map Entry.key).Nodup →
    countOcc acc.slots + l.length < acc.capacity →
    WFRH hash (l.foldl (fun a e => a.insertRawRH hash e.key e.value) acc) ∧
    (pairsOf (l.foldl (fun a e => a.insertRawRH hash e.key e.value) acc).slots).Perm
      ((l.map fun e => (e.key, e.value)) ++ pairsOf acc.slots) ∧
    (l.foldl (fun a e => a.insertRawRH hash e.key e.value) acc).capacity
      = acc.capacity ∧
    (l.foldl (fun a e => a.insertRawRH hash e.key e.value) acc).threshNum
      = acc.threshNum ∧
    (l.foldl (fun a e => a.insertRawRH hash e.key e.value) acc).threshDen
      = acc.threshDen ∧
    (l.foldl (fun a e => a.insertRawRH hash e.key e.value) acc).live_count
      = acc.live_count + l.length := by
  intro l
  induction l with
  | nil =>
    intro acc hwf _ _ _
    exact ⟨hwf, by simp, rfl, rfl, rfl, by simp⟩
  | cons e l ih =>
    intro acc hwf hkeys hnd hcnt
    simp only [List.foldl_cons]
    have hasE : Slot.empty ∈ acc.slots := by
      apply empty_mem_of_counts
      rw [countTomb_eq_zero_of_noTomb hwf.tomb_free]
      have hl : (e :: l).length = l.length + 1 := rfl
      rw [hl] at hcnt
      have hcl : acc.slots.length = acc.capacity := rfl
      omega
    have hfresh : e.key ∉ keysOf acc.slots := hkeys e (List.mem_cons_self _ _)
    rcases insertRawRH_fresh hwf hasE hfresh with
      ⟨hwf', hperm', hcap', hlive', htn', htd'⟩
    have hkperm : (keysOf (acc.insertRawRH hash e.key e.value).slots).Perm
        (e.key :: keysOf acc.slots) := by
      rw [keysOf_eq_map_fst, keysOf_eq_map_fst]
      exact hperm'.map Prod.fst
    have hkeys' : ∀ f ∈ l,
        f.key ∉ keysOf (acc.insertRawRH hash e.key e.value).slots := by
      intro f hf hmem
      have hm2 := hkperm.mem_iff.mp hmem
      rcases List.mem_cons.mp hm2 with heq | hmem2
      · have hne : f.key ≠ e.key := by
          have hnd2 := List.nodup_cons.mp hnd
          intro hc
          exact hnd2.1 (hc ▸ List.mem_map.mpr ⟨f, hf, rfl⟩)
        exact hne heq
      · exact hkeys f (List.mem_cons_of_mem _ hf) hmem2
    have hcnt' : countOcc (acc.insertRawRH hash e.key e.value).slots + l.length
        < (acc.insertRawRH hash e.key e.value).capacity := by
      have h1 : (acc.insertRawRH hash e.key e.value).live_count
          = countOcc (acc.insertRawRH hash e.key e.value).slots := hwf'.live_eq
      have h2 : acc.live_count = countOcc acc.slots := hwf.live_eq
      have hl : (e :: l).length = l.length + 1 := rfl
      rw [hl] at hcnt
      rw [hcap']
      omega
    have hnd' : (l.map Entry.key).Nodup := (List.nodup_cons.mp hnd).2
    rcases ih (acc.insertRawRH hash e.key e.value) hwf' hkeys' hnd' hcnt' with
      ⟨rwf, rperm, rcap, rtn, rtd, rlive⟩
    refine ⟨rwf, ?_, by rw [rcap, hcap'], by rw [rtn, htn'],
      by rw [rtd, htd'], ?_⟩
    · have hchain := rperm.trans
        ((hperm'.append_left (l.map fun e => (e.key, e.value))).trans
          (List.perm_middle))
      simpa using hchain
    · have hl : (e :: l).length = l.length + 1 := rfl
      rw [hl, rlive, hlive']
      omega

theorem growRH_spec (hash : Nat → Nat) (t : Table) (hwf : WFRH hash t) :
    WFRH hash (t.growRH hash) ∧
    (pairsOf (t.growRH hash).slots).Perm (pairsOf t.slots) ∧
    (t.growRH hash).capacity = 2 * t.capacity ∧
    Slot.empty ∈ (t.growRH hash).slots ∧
    (t.growRH hash).threshNum = t.threshNum ∧
    (t.growRH hash).threshDen = t.threshDen := by
  have hcpos : 0 < t.capacity := hwf.cap_pos
  have hmk : WFRH hash (mkTable (2 * t.capacity) t.threshNum t.threshDen) :=
    mkTable_WFRH hash _ _ _ (by omega)
  have hmkkeys : keysOf (mkTable (2 * t.capacity) t.threshNum t.threshDen).slots
      = [] := by
    show keysOf (List.replicate _ Slot.empty) = []
    rw [keysOf, liveEntriesOf_replicate]; rfl
  have hcnt : countOcc (mkTable (2 * t.capacity) t.threshNum t.threshDen).slots
      + (liveEntries t).length
      < (mkTable (2 * t.capacity) t.threshNum t.threshDen).capacity := by
    have h0 : countOcc (mkTable (2 * t.capacity) t.threshNum t.threshDen).slots
        = 0 := by
      show countOcc (List.replicate _ Slot.empty) = 0
      rw [countOcc, liveEntriesOf_replicate]; rfl
    have h1 : countOcc t.slots ≤ t.capacity := countOcc_le_length t.slots
    have h2 : (mkTable (2 * t.capacity) t.threshNum t.threshDen).capacity
        = 2 * t.capacity := by
      show (List.replicate _ Slot.empty).length = _
      rw [List.length_replicate]
    have h3 : (liveEntries t).length = countOcc t.slots := rfl
    omega
  have hnd : ((liveEntries t).map Entry.key).Nodup := keysOf_nodup hwf.nodup
  rcases foldl_insertRawRH_spec hash (liveEntries t) _ hmk
    (fun e _ => by rw [hmkkeys]; exact List.not_mem_nil _) hnd hcnt with
    ⟨rwf, rperm, rcap, rtn, rtd, rlive⟩
  have hcap2 : (t.growRH hash).capacity = 2 * t.capacity := by
    rw [Table.growRH]
    rw [rcap]
    show (List.replicate _ Slot.empty).length = _
    rw [List.length_replicate]
  have hpairs : (pairsOf (t.growRH hash).slots).Perm (pairsOf t.slots) := by
    rw [Table.growRH]
    refine rperm.trans ?_
    have hmkp : pairsOf (mkTable (2 * t.capacity) t.threshNum t.threshDen).slots
        = [] := by
      show pairsOf (List.replicate _ Slot.empty) = []
      rw [pairsOf, liveEntriesOf_replicate]; rfl
    rw [hmkp, List.append_nil]
    exact List.Perm.refl _
  have hwfg : WFRH hash (t.growRH hash) := by rw [Table.growRH]; exact rwf
  refine ⟨hwfg, hpairs, hcap2, ?_, by rw [Table.growRH]; exact rtn,
    by rw [Table.growRH]; exact rtd⟩
  apply empty_mem_of_counts
  rw [countTomb_eq_zero_of_noTomb hwfg.tomb_free]
  have h1 : countOcc (t.growRH hash).slots = countOcc t.slots := by
    have := hpairs.length_eq
    simpa [pairsOf, countOcc] using this
  have h2 : (t.growRH hash).slots.length = (t.growRH hash).capacity := rfl
  have h3 : countOcc t.slots ≤ t.capacity := countOcc_le_length t.slots
  omega

theorem insertRH_spec {hash : Nat → Nat} {t : Table} (k v : Nat)
    (hwf : WFRH hash t) (hasE : Slot.empty ∈ t.slots)
    (htd : t.threshNum < t.threshDen) :
    WFRH hash (t.insertRH hash k v) ∧
    Slot.empty ∈ (t.insertRH hash k v).slots ∧
    (k, v) ∈ pairsOf (t.insertRH hash k v).slots ∧
    (∀ k' v', k' ≠ k → (k', v') ∈ pairsOf t.slots →
      (k', v') ∈ pairsOf (t.insertRH hash k v).slots) ∧
    (t.insertRH hash k v).threshNum = t.threshNum ∧
    (t.insertRH hash k v).threshDen = t.threshDen := by
  have hraw : WFRH hash (t.insertRawRH hash k v) ∧
      (k, v) ∈ pairsOf (t.insertRawRH hash k v).slots ∧
      (∀ k' v', k' ≠ k → (k', v') ∈ pairsOf t.slots →
        (k', v') ∈ pairsOf (t.insertRawRH hash k v).slots) ∧
      (t.insertRawRH hash k v).capacity = t.capacity ∧
      (t.insertRawRH hash k v).threshNum = t.threshNum ∧
      (t.insertRawRH hash k v).threshDen = t.threshDen := by
    by_cases hk : k ∈ keysOf t.slots
    · rcases mem_keysOf.mp hk with ⟨p, e, hp, hocc, hke⟩
      rcases insertRawRH_update hwf hp hocc hke with
        ⟨hwf', hperm', hmem', hcap', _, htn', htd'⟩
      refine ⟨hwf', hmem', ?_, hcap', htn', htd'⟩
      intro k' v' hne hmem
      have h1 : (k', v') ∈ (k, v) :: pairsOf t.slots :=
        List.mem_cons_of_mem _ hmem
      have h2 := hperm'.symm.mem_iff.mp h1
      rcases List.mem_cons.mp h2 with heq | hm
      · exfalso
        have hfst : k' = e.key := congrArg Prod.fst heq
        exact hne (hfst.trans hke)
      · exact hm
    · rcases insertRawRH_fresh hwf hasE hk with
        ⟨hwf', hperm', hcap', _, htn', htd'⟩
      refine ⟨hwf', ?_, ?_, hcap', htn', htd'⟩
      · exact hperm'.mem_iff.mpr (List.mem_cons_self _ _)
      · intro k' v' _ hmem
        exact hperm'.mem_iff.mpr (List.mem_cons_of_mem _ hmem)
  rcases hraw with ⟨hwf', hmem', hpres', hcap', htn', htd'⟩
  rw [Table.insertRH]
  by_cases hle : (t.insertRawRH hash k v).loadExceeded
  · simp only [if_pos hle]
    rcases growRH_spec hash _ hwf' with
      ⟨gwf, gperm, _, gempty, gtn, gtd⟩
    refine ⟨gwf, gempty, ?_, ?_, by rw [gtn, htn'], by rw [gtd, htd']⟩
    · exact gperm.mem_iff.mpr hmem'
    · intro k' v' hne hmem
      exact gperm.mem_iff.mpr (hpres' k' v' hne hmem)
  · simp only [if_neg hle]
    refine ⟨hwf', ?_, hmem', hpres', htn', htd'⟩
    rw [Table.loadExceeded] at hle
    push_neg at hle
    have hmul : t.threshNum * (t.insertRawRH hash k v).capacity
        < t.threshDen * (t.insertRawRH hash k v).capacity := by
      have hc0 : 0 < (t.insertRawRH hash k v).capacity := hwf'.cap_pos
      exact Nat.mul_lt_mul_of_lt_of_le htd (Nat.le_refl _) hc0
    rw [htn', htd'] at hle
    have hlt : (t.insertRawRH hash k v).live_count
        + (t.insertRawRH hash k v).tombstone_count
        < (t.insertRawRH hash k v).capacity := by
      have h1 : ((t.insertRawRH hash k v).live_count
          + (t.insertRawRH hash k v).tombstone_count) * t.threshDen
          < t.threshDen * (t.insertRawRH hash k v).capacity :=
        Nat.lt_of_le_of_lt hle hmul
      rw [Nat.mul_comm t.threshDen] at h1
      exact Nat.lt_of_mul_lt_mul_right h1
    apply empty_mem_of_counts
    have h2 : (t.insertRawRH hash k v).slots.length
        = (t.insertRawRH hash k v).capacity := rfl
    have h3 := hwf'.tomb_zero
    have h4 := countTomb_eq_zero_of_noTomb hwf'.tomb_free
    have h5 := hwf'.live_eq
    omega

theorem runRH_fold_inv (hash : Nat → Nat) :
    ∀ (ops : List (Nat × Nat)) (t : Table) (m : Nat → Option Nat),
    WFRH hash t → Slot.empty ∈ t.slots → t.threshNum < t.threshDen →
    (∀ k v, m k = some v → (k, v) ∈ pairsOf t.slots) →
    WFRH hash (ops.foldl (fun t p => t.insertRH hash p.1 p.2) t) ∧
    Slot.empty ∈ (ops.foldl (fun t p => t.insertRH hash p.1 p.2) t).slots ∧
    (∀ k v,
      ops.foldl (fun acc p => if p.1 = k then some p.2 else acc) (m k) = some v →
      (k, v) ∈ pairsOf (ops.foldl (fun t p => t.insertRH hash p.1 p.2) t).slots) := by
  intro ops
  induction ops with
  | nil =>
    intro t m hwf hasE _ hm
    exact ⟨hwf, hasE, fun k v h => hm k v h⟩
  | cons p ops ih =>
    intro t m hwf hasE htd hm
    simp only [List.foldl_cons]
    rcases insertRH_spec p.1 p.2 hwf hasE htd with
      ⟨hwf', hasE', hmem', hpres', htn', htd'⟩
    have htd2 : (t.insertRH hash p.1 p.2).threshNum
        < (t.insertRH hash p.1 p.2).threshDen := by
      rw [htn', htd']; exact htd
    have hm' : ∀ k v,
        (if p.1 = k then some p.2 else m k) = some v →
        (k, v) ∈ pairsOf (t.insertRH hash p.1 p.2).slots := by
      intro k v hkv
      by_cases hpk : p.1 = k
      · rw [if_pos hpk] at hkv
        cases hkv
        rw [← hpk]
        exact hmem'
      · rw [if_neg hpk] at hkv
        exact hpres' k v (fun hc => hpk hc.symm) (hm k v hkv)
    exact ih (t.insertRH hash p.1 p.2) (fun k => if p.1 = k then some p.2 else m k)
      hwf' hasE' htd2 hm'

/-! ## PSL-sum conservation: helpers and placement characterizations -/

theorem mem_keysOf_pairs {slots : List Slot} {k : Nat} :
    k ∈ keysOf slots ↔ ∃ v, (k, v) ∈ pairsOf slots := by
  unfold keysOf pairsOf
  constructor
  · intro h
    rcases List.mem_map.mp h with ⟨e, he, hk⟩
    exact ⟨e.value, List.mem_map.mpr ⟨e, he, by rw [hk]⟩⟩
  · rintro ⟨v, hv⟩
    rcases List.mem_map.mp hv with ⟨e, he, hk⟩
    exact List.mem_map.mpr ⟨e, he, congrArg Prod.fst hk⟩

theorem pairs_key_unique {slots : List Slot} (hnd : keysNodup slots)
    {k v v' : Nat} (h1 : (k, v) ∈ pairsOf slots) (h2 : (k, v') ∈ pairsOf slots) :
    v = v' := by
  rcases mem_pairsOf.mp h1 with ⟨i, e, hi, hocc, hk, hv⟩
  rcases mem_pairsOf.mp h2 with ⟨j, f, hj, hoccj, hk', hv'⟩
  have hij : i = j := hnd i j e f hi hj hocc hoccj (by rw [hk, hk'])
  subst hij
  rw [hocc] at hoccj
  cases hoccj
  rw [← hv, ← hv']

theorem pairsOf_nodup {slots : List Slot} (hnd : keysNodup slots) :
    (pairsOf slots).Nodup := by
  have hkeys : ((pairsOf slots).map Prod.fst).Nodup := by
    rw [← keysOf_eq_map_fst]
    exact keysOf_nodup hnd
  exact List.Nodup.of_map _ hkeys

theorem pairs_perm_of_mem_eq {A B : List Slot} (hA : keysNodup A)
    (hB : keysNodup B)
    (hmem : ∀ p : Nat × Nat, p ∈ pairsOf A ↔ p ∈ pairsOf B) :
    (pairsOf A).Perm (pairsOf B) :=
  (List.perm_ext_iff_of_nodup (pairsOf_nodup hA) (pairsOf_nodup hB)).mpr hmem

theorem countOcc_eq_of_pairs_perm {A B : List Slot}
    (h : (pairsOf A).Perm (pairsOf B)) : countOcc A = countOcc B := by
  have hl := h.length_eq
  simpa [pairsOf, countOcc] using hl

theorem countOcc_succ_of_pairs_cons {A B : List Slot} {k v : Nat}
    (h : (pairsOf A).Perm ((k, v) :: pairsOf B)) :
    countOcc A = countOcc B + 1 := by
  have hl := h.length_eq
  simpa [pairsOf, countOcc] using hl

theorem keysOf_perm_cons {A B : List Slot} {k v : Nat}
    (h : (pairsOf A).Perm ((k, v) :: pairsOf B)) :
    (keysOf A).Perm (k :: keysOf B) := by
  have hm := h.map Prod.fst
  rw [keysOf_eq_map_fst, keysOf_eq_map_fst]
  simpa using hm

theorem insertRawL_fresh_placement {hash : Nat → Nat} {t : Table} {k v : Nat}
    (hwf : WFL hash t) (hnt : noTomb t.slots) (hasE : Slot.empty ∈ t.slots)
    (hfresh : k ∉ keysOf t.slots) :
    ∃ d₀, d₀ < t.capacity ∧
      slotAt t.slots (probeAt t.capacity (hash k) d₀) = Slot.empty ∧
      (∀ u, u < d₀ →
        slotAt t.slots (probeAt t.capacity (hash k) u) ≠ Slot.empty) ∧
      (t.insertRawL hash k v).slots
        = t.slots.set (probeAt t.capacity (hash k) d₀)
            (Slot.occ ⟨k, v, hash k, 0⟩) := by
  have hcpos : 0 < t.capacity := hwf.cap_pos
  have hlen : t.slots.length = t.capacity := rfl
  unfold Table.insertRawL
  cases hres : insLoop t.slots t.capacity k (hash k) none 0 t.capacity with
  | update i =>
    exfalso
    rcases insLoop_update_sound hres with ⟨e, hocc, hke, _⟩
    exact hfresh (mem_keysOf.mpr ⟨i, e, lt_length_of_slotAt_occ hocc, hocc, hke⟩)
  | full =>
    exfalso
    rcases slotAt_mem_exists hasE with ⟨j, hj, hje⟩
    refine insLoop_ne_full t.capacity 0 none
      ⟨cdist t.capacity (hash k % t.capacity) j, cdist_lt _ _ _ hcpos, ?_⟩ hres
    rw [Nat.zero_add, probeAt_cdist _ _ _ hcpos (hlen ▸ hj)]
    exact hje
  | place i b =>
    rcases insLoop_place_spec t.capacity 0 none i b
      (fun j hj => Option.noConfusion hj)
      (fun u hu => absurd hu (Nat.not_lt_zero u)) hres with
      ⟨htomb, hempty, d, hd, hip, hpath⟩
    cases b with
    | true => exact absurd (htomb rfl) (noTomb_slotAt hnt i)
    | false =>
      refine ⟨d, by omega, ?_, hpath, ?_⟩
      · rw [← hip]
        exact hempty rfl
      · show t.slots.set i (Slot.occ ⟨k, v, hash k, 0⟩)
          = t.slots.set (probeAt t.capacity (hash k) d) (Slot.occ ⟨k, v, hash k, 0⟩)
        rw [← hip]

theorem insertRawL_update_slots {hash : Nat → Nat} {t : Table} {k v p : Nat}
    {e : Entry} (hwf : WFL hash t) (hp : p < t.capacity)
    (hocc : slotAt t.slots p = Slot.occ e) (hk : e.key = k) :
    (t.insertRawL hash k v).slots = t.slots.set p (Slot.occ ⟨k, v, hash k, 0⟩) := by
  have hcpos : 0 < t.capacity := hwf.cap_pos
  have hlen : t.slots.length = t.capacity := rfl
  have hhe : e.ehash = hash k := by
    rw [← hk]; exact hwf.hash_ok p e (hlen ▸ hp) hocc
  have hres := insLoop_update_complete hcpos hlen hwf.nodup hwf.reach hp hocc hk
    hhe (cdist t.capacity (hash k % t.capacity) p) 0 none (Nat.zero_add _)
  rw [Nat.sub_zero] at hres
  unfold Table.insertRawL
  rw [hres]

theorem insertRawRH_update_slots {hash : Nat → Nat} {t : Table} {k v p : Nat}
    {e : Entry} (hwf : WFRH hash t) (hp : p < t.capacity)
    (hocc : slotAt t.slots p = Slot.occ e) (hk : e.key = k) :
    (t.insertRawRH hash k v).slots
      = t.slots.set p (Slot.occ ⟨e.key, v, e.ehash, e.psl⟩) := by
  have hcpos : 0 < t.capacity := hwf.cap_pos
  have hlen : t.slots.length = t.capacity := rfl
  have hhe : e.ehash = hash k := by
    rw [← hk]; exact hwf.hash_ok p e (hlen ▸ hp) hocc
  have hloop := rhInsLoop_update_spec hcpos hlen hwf.nodup hwf.psl_ok hwf.order
    hp hocc hk hhe (cdist t.capacity (hash k % t.capacity) p) 0
    ⟨k, v, hash k, 0⟩ rfl rfl rfl (Nat.zero_add _)
  rw [Nat.sub_zero, probeAt_zero] at hloop
  have hres : rhInsLoop t.capacity t.slots ⟨k, v, hash k, 0⟩
      (homeIdx t.capacity (hash k)) t.capacity
      = (t.slots.set p (Slot.occ ⟨e.key, v, e.ehash, e.psl⟩), false) := hloop
  simp only [Table.insertRawRH, hres]

theorem insertRawRH_fresh_placement {hash : Nat → Nat} {t : Table} {k v : Nat}
    (hwf : WFRH hash t) (hasE : Slot.empty ∈ t.slots)
    (hfresh : k ∉ keysOf t.slots) :
    ∃ d₀, d₀ < t.capacity ∧
      slotAt t.slots (probeAt t.capacity (hash k) d₀) = Slot.empty ∧
      (∀ u, u < d₀ →
        slotAt t.slots (probeAt t.capacity (hash k) u) ≠ Slot.empty) ∧
      (∀ j, slotAt (t.insertRawRH hash k v).slots j = Slot.empty ↔
        (slotAt t.slots j = Slot.empty ∧
          j ≠ probeAt t.capacity (hash k) d₀)) ∧
      sumPSLfield (t.insertRawRH hash k v).slots = sumPSLfield t.slots + d₀ := by
  have hcpos : 0 < t.capacity := hwf.cap_pos
  have hlen : t.slots.length = t.capacity := rfl
  rcases slotAt_mem_exists hasE with ⟨j, hj, hje⟩
  have hbud : ∃ d, d < t.capacity ∧
      slotAt t.slots ((homeIdx t.capacity (hash k) + d) % t.capacity)
        = Slot.empty := by
    refine ⟨cdist t.capacity (homeIdx t.capacity (hash k)) j,
      cdist_lt _ _ _ hcpos, ?_⟩
    have hpc : (homeIdx t.capacity (hash k)
        + cdist t.capacity (homeIdx t.capacity (hash k)) j) % t.capacity = j := by
      have := probeAt_cdist t.capacity (hash k) j hcpos (hlen ▸ hj)
      simpa [probeAt, homeIdx, Nat.mod_add_mod] using this
    rw [hpc]; exact hje
  have hspec := rhInsLoop_fresh_spec hash hcpos t.capacity t.slots
    ⟨k, v, hash k, 0⟩ (homeIdx t.capacity (hash k)) hlen hwf.tomb_free
    hwf.hash_ok hwf.nodup hwf.psl_ok hwf.order rfl hfresh
    (probeAt_zero _ _) (by show 0 + t.capacity ≤ t.capacity; omega)
    (fun s hs => absurd hs (Nat.not_lt_zero s)) hbud
  rcases hspec with ⟨_, _, _, _, _, _, _, _, d₀, hde, hdm, hdiff, hdsum⟩
  rcases hbud with ⟨d, hdc, hdemp⟩
  have hd0c : d₀ ≤ d := by
    by_contra hgt
    exact (hdm d (by omega)) hdemp
  refine ⟨d₀, by omega, hde, fun u hu => hdm u hu, ?_, ?_⟩
  · intro j2
    simp only [Table.insertRawRH]
    exact hdiff j2
  · simp only [Table.insertRawRH]
    have hdsum2 : sumPSLfield (rhInsLoop t.capacity t.slots ⟨k, v, hash k, 0⟩
        (homeIdx t.capacity (hash k)) t.capacity).1
        = sumPSLfield t.slots + 0 + d₀ := hdsum
    omega


/-! ## PSL-sum conservation: the coupling relations and raw steps -/

theorem empty_mem_of_slotAt {slots : List Slot} {j : Nat}
    (hj : j < slots.length) (he : slotAt slots j = Slot.empty) :
    Slot.empty ∈ slots := by
  rw [slotAt_eq_getElem hj] at he
  exact he ▸ List.getElem_mem hj

theorem mem_pairsOf_set_occ {slots : List Slot} {p : Nat} {e : Entry}
    {kf vf hf pf : Nat}
    (hnd : keysNodup slots) (hp : p < slots.length)
    (hocc : slotAt slots p = Slot.occ e) (hfk : kf = e.key) :
    ∀ k' v', (k', v') ∈ pairsOf (slots.set p (Slot.occ ⟨kf, vf, hf, pf⟩)) ↔
      ((k' = kf ∧ v' = vf) ∨ (k' ≠ kf ∧ (k', v') ∈ pairsOf slots)) := by
  intro k' v'
  constructor
  · intro hm
    rcases mem_pairsOf.mp hm with ⟨i, g, hi, hocci, hkg, hvg⟩
    rw [List.length_set] at hi
    by_cases hip : i = p
    · subst hip
      rw [slotAt_set_self hp] at hocci
      cases hocci
      exact Or.inl ⟨hkg.symm, hvg.symm⟩
    · rw [slotAt_set_ne (fun hcon => hip hcon.symm)] at hocci
      have hne : k' ≠ kf := by
        intro hcon
        apply hip
        exact hnd i p g e hi hp hocci hocc (by rw [hkg, hcon, hfk])
      exact Or.inr ⟨hne, mem_pairsOf.mpr ⟨i, g, hi, hocci, hkg, hvg⟩⟩
  · intro hm
    rcases hm with ⟨hk', hv'⟩ | ⟨hne, hmem⟩
    · refine mem_pairsOf.mpr ⟨p, ⟨kf, vf, hf, pf⟩,
        by rw [List.length_set]; exact hp, slotAt_set_self hp,
        hk'.symm, hv'.symm⟩
    · rcases mem_pairsOf.mp hmem with ⟨i, g, hi, hocci, hkg, hvg⟩
      have hip : i ≠ p := by
        intro hcon
        subst hcon
        rw [hocc] at hocci
        cases hocci
        exact hne (hfk.trans hkg).symm
      refine mem_pairsOf.mpr ⟨i, g, by rw [List.length_set]; exact hi,
        ?_, hkg, hvg⟩
      rw [slotAt_set_ne (fun hcon => hip hcon.symm)]
      exact hocci

theorem linSim_refl {hash : Nat → Nat} {t : Table} (hwf : WFL hash t)
    (hnt : noTomb t.slots) : LinSim hash t t :=
  ⟨hwf, hnt, hwf, hnt, rfl, rfl, rfl, fun j => Iff.rfl, fun p => Iff.rfl, rfl⟩

theorem linSim_trans {hash : Nat → Nat} {t₁ t₂ t₃ : Table}
    (h12 : LinSim hash t₁ t₂) (h23 : LinSim hash t₂ t₃) : LinSim hash t₁ t₃ :=
  ⟨h12.wf₁, h12.nt₁, h23.wf₂, h23.nt₂, h12.cap_eq.trans h23.cap_eq,
    h12.tn_eq.trans h23.tn_eq, h12.td_eq.trans h23.td_eq,
    fun j => (h12.emp_eq j).trans (h23.emp_eq j),
    fun p => (h12.mem_eq p).trans (h23.mem_eq p),
    h12.psl_eq.trans h23.psl_eq⟩

theorem linSim_couple {hash : Nat → Nat} {t₁ t₂ tR : Table}
    (hs : LinSim hash t₁ t₂) (hc : Couple hash t₂ tR) : Couple hash t₁ tR :=
  ⟨hs.wf₁, hs.nt₁, hc.wfR, hs.cap_eq.trans hc.cap_eq,
    hs.tn_eq.trans hc.tn_eq, hs.td_eq.trans hc.td_eq,
    fun j => (hs.emp_eq j).trans (hc.emp_eq j),
    fun p => (hs.mem_eq p).trans (hc.mem_eq p),
    hs.psl_eq.trans hc.psl_eq⟩

theorem couple_mk (hash : Nat → Nat) (cap tn td : Nat) (hc : 0 < cap) :
    Couple hash (mkTable cap tn td) (mkTable cap tn td) := by
  refine ⟨mkTable_WFL hash cap tn td hc, ?_, mkTable_WFRH hash cap tn td hc,
    rfl, rfl, rfl, fun j => Iff.rfl, fun p => Iff.rfl, ?_⟩
  · show noTomb (List.replicate cap Slot.empty)
    exact noTomb_replicate cap
  · show sumPSLpos (List.replicate cap Slot.empty)
      = sumPSLfield (List.replicate cap Slot.empty)
    rw [sumPSLpos_replicate, sumPSLfield_replicate]

theorem linStep {hash : Nat → Nat} {t₁ t₂ : Table} (hsim : LinSim hash t₁ t₂)
    (hasE : Slot.empty ∈ t₁.slots) {k : Nat} (v : Nat)
    (hf : k ∉ keysOf t₁.slots) :
    LinSim hash (t₁.insertRawL hash k v) (t₂.insertRawL hash k v) := by
  have hc1 : 0 < t₁.capacity := hsim.wf₁.cap_pos
  have hlen1 : t₁.slots.length = t₁.capacity := rfl
  have hlen2 : t₂.slots.length = t₂.capacity := rfl
  have hnt1 : noTomb (t₁.insertRawL hash k v).slots :=
    (insertRawL_tombFree hsim.nt₁
      (by rw [hsim.wf₁.tomb_eq]; exact countTomb_eq_zero_of_noTomb hsim.nt₁)).1
  have hnt2 : noTomb (t₂.insertRawL hash k v).slots :=
    (insertRawL_tombFree hsim.nt₂
      (by rw [hsim.wf₂.tomb_eq]; exact countTomb_eq_zero_of_noTomb hsim.nt₂)).1
  have hasE2 : Slot.empty ∈ t₂.slots := by
    rcases slotAt_mem_exists hasE with ⟨j0, hj0, hj0e⟩
    refine empty_mem_of_slotAt (j := j0) ?_ ((hsim.emp_eq j0).mp hj0e)
    rw [hlen2, ← hsim.cap_eq, ← hlen1]
    exact hj0
  have hf2 : k ∉ keysOf t₂.slots := by
    intro hm
    rcases mem_keysOf_pairs.mp hm with ⟨v0, hv0⟩
    exact hf (mem_keysOf_pairs.mpr ⟨v0, (hsim.mem_eq _).mpr hv0⟩)
  rcases insertRawL_fresh hsim.wf₁ hasE hf with
    ⟨hwf1, hperm1, hcap1, _, htn1, htd1⟩
  rcases insertRawL_fresh_placement hsim.wf₁ hsim.nt₁ hasE hf with
    ⟨d₁, hd₁c, hd₁e, hd₁m, hslots1⟩
  rcases insertRawL_fresh hsim.wf₂ hasE2 hf2 with
    ⟨hwf2, hperm2, hcap2, _, htn2, htd2⟩
  rcases insertRawL_fresh_placement hsim.wf₂ hsim.nt₂ hasE2 hf2 with
    ⟨d₂, hd₂c, hd₂e, hd₂m, hslots2⟩
  rw [← hsim.cap_eq] at hd₂e hd₂m hslots2
  have hdd : d₁ = d₂ := dmin_unique hsim.emp_eq hd₁e hd₁m hd₂e hd₂m
  subst hdd
  have hq1 : probeAt t₁.capacity (hash k) d₁ < t₁.slots.length := by
    rw [hlen1]; exact probeAt_lt _ _ _ hc1
  have hq2 : probeAt t₁.capacity (hash k) d₁ < t₂.slots.length := by
    rw [hlen2, ← hsim.cap_eq]
    exact probeAt_lt _ _ _ hc1
  have hemp : ∀ j, slotAt (t₁.insertRawL hash k v).slots j = Slot.empty ↔
      slotAt (t₂.insertRawL hash k v).slots j = Slot.empty := by
    intro j
    rw [hslots1, hslots2]
    exact ((emp_set_of_empty hq1 j).trans
      (and_congr (hsim.emp_eq j) Iff.rfl)).trans (emp_set_of_empty hq2 j).symm
  have hmem : ∀ p : Nat × Nat, p ∈ pairsOf (t₁.insertRawL hash k v).slots ↔
      p ∈ pairsOf (t₂.insertRawL hash k v).slots := by
    intro p
    rw [hperm1.mem_iff, hperm2.mem_iff]
    simp only [List.mem_cons]
    exact or_congr Iff.rfl (hsim.mem_eq p)
  have hpsl : sumPSLpos (t₁.insertRawL hash k v).slots
      = sumPSLpos (t₂.insertRawL hash k v).slots := by
    rw [hslots1, hslots2]
    have hset1 := sumPSLpos_set hq1 (Slot.occ ⟨k, v, hash k, 0⟩)
    have hset2 := sumPSLpos_set hq2 (Slot.occ ⟨k, v, hash k, 0⟩)
    rw [hd₁e] at hset1
    rw [hd₂e] at hset2
    have h01 : slotPSL t₁.slots.length (probeAt t₁.capacity (hash k) d₁)
        Slot.empty = 0 := rfl
    have h02 : slotPSL t₂.slots.length (probeAt t₁.capacity (hash k) d₁)
        Slot.empty = 0 := rfl
    have hB1 : slotPSL t₁.slots.length (probeAt t₁.capacity (hash k) d₁)
        (Slot.occ ⟨k, v, hash k, 0⟩)
        = cdist t₁.slots.length (homeIdx t₁.slots.length (hash k))
            (probeAt t₁.capacity (hash k) d₁) := rfl
    have hB2 : slotPSL t₂.slots.length (probeAt t₁.capacity (hash k) d₁)
        (Slot.occ ⟨k, v, hash k, 0⟩)
        = cdist t₂.slots.length (homeIdx t₂.slots.length (hash k))
            (probeAt t₁.capacity (hash k) d₁) := rfl
    have hcd1 : cdist t₁.slots.length (homeIdx t₁.slots.length (hash k))
        (probeAt t₁.capacity (hash k) d₁) = d₁ := by
      show cdist t₁.capacity (homeIdx t₁.capacity (hash k))
        (probeAt t₁.capacity (hash k) d₁) = d₁
      simp only [homeIdx]
      exact cdist_probeAt _ _ _ hc1 hd₁c
    have hcd2 : cdist t₂.slots.length (homeIdx t₂.slots.length (hash k))
        (probeAt t₁.capacity (hash k) d₁) = d₁ := by
      show cdist t₂.capacity (homeIdx t₂.capacity (hash k))
        (probeAt t₁.capacity (hash k) d₁) = d₁
      rw [← hsim.cap_eq]
      show cdist t₁.capacity (homeIdx t₁.capacity (hash k))
        (probeAt t₁.capacity (hash k) d₁) = d₁
      simp only [homeIdx]
      exact cdist_probeAt _ _ _ hc1 hd₁c
    have hpp := hsim.psl_eq
    omega
  exact ⟨hwf1, hnt1, hwf2, hnt2, by rw [hcap1, hcap2]; exact hsim.cap_eq,
    by rw [htn1, htn2]; exact hsim.tn_eq, by rw [htd1, htd2]; exact hsim.td_eq,
    hemp, hmem, hpsl⟩

theorem coupleStep {hash : Nat → Nat} {tL tR : Table} (hcpl : Couple hash tL tR)
    (hasE : Slot.empty ∈ tL.slots) (k v : Nat) :
    Couple hash (tL.insertRawL hash k v) (tR.insertRawRH hash k v) := by
  have hcL : 0 < tL.capacity := hcpl.wfL.cap_pos
  have hlenL : tL.slots.length = tL.capacity := rfl
  have hlenR : tR.slots.length = tR.capacity := rfl
  have hnt1 : noTomb (tL.insertRawL hash k v).slots :=
    (insertRawL_tombFree hcpl.ntL
      (by rw [hcpl.wfL.tomb_eq]; exact countTomb_eq_zero_of_noTomb hcpl.ntL)).1
  have hasER : Slot.empty ∈ tR.slots := by
    rcases slotAt_mem_exists hasE with ⟨j0, hj0, hj0e⟩
    refine empty_mem_of_slotAt (j := j0) ?_ ((hcpl.emp_eq j0).mp hj0e)
    rw [hlenR, ← hcpl.cap_eq, ← hlenL]
    exact hj0
  by_cases hk : k ∈ keysOf tL.slots
  · rcases mem_keysOf.mp hk with ⟨p, e, hp, hocc, hke⟩
    have hkR : k ∈ keysOf tR.slots := by
      rcases mem_keysOf_pairs.mp hk with ⟨v0, hv0⟩
      exact mem_keysOf_pairs.mpr ⟨v0, (hcpl.mem_eq _).mp hv0⟩
    rcases mem_keysOf.mp hkR with ⟨p2, e2, hp2, hocc2, hke2⟩
    have hpcap : p < tL.capacity := hlenL ▸ hp
    have hp2cap : p2 < tR.capacity := hlenR ▸ hp2
    rcases insertRawL_update hcpl.wfL hpcap hocc hke with
      ⟨hwfL', hpermL, hmemL, hcapL, _, _, htnL, htdL⟩
    rcases insertRawRH_update hcpl.wfR hp2cap hocc2 hke2 with
      ⟨hwfR', hpermR, hmemR, hcapR, _, htnR, htdR⟩
    have hslotsL := insertRawL_update_slots (v := v) hcpl.wfL hpcap hocc hke
    have hslotsR := insertRawRH_update_slots (v := v) hcpl.wfR hp2cap hocc2 hke2
    rw [hke2] at hslotsR
    have hcharL := @mem_pairsOf_set_occ tL.slots p e k v (hash k) 0
      hcpl.wfL.nodup hp hocc hke.symm
    have hcharR := @mem_pairsOf_set_occ tR.slots p2 e2 k v e2.ehash e2.psl
      hcpl.wfR.nodup hp2 hocc2 hke2.symm
    have hemp : ∀ j, slotAt (tL.insertRawL hash k v).slots j = Slot.empty ↔
        slotAt (tR.insertRawRH hash k v).slots j = Slot.empty := by
      intro j
      rw [hslotsL, hslotsR]
      exact ((emp_set_occ hp hocc j).trans (hcpl.emp_eq j)).trans
        (emp_set_occ hp2 hocc2 j).symm
    have hmem : ∀ pr : Nat × Nat,
        pr ∈ pairsOf (tL.insertRawL hash k v).slots ↔
        pr ∈ pairsOf (tR.insertRawRH hash k v).slots := by
      intro pr
      obtain ⟨k', v'⟩ := pr
      rw [hslotsL, hslotsR]
      exact (hcharL k' v').trans
        ((or_congr Iff.rfl (and_congr Iff.rfl (hcpl.mem_eq (k', v')))).trans
          (hcharR k' v').symm)
    have hpsl : sumPSLpos (tL.insertRawL hash k v).slots
        = sumPSLfield (tR.insertRawRH hash k v).slots := by
      rw [hslotsL, hslotsR]
      have hset1 := sumPSLpos_set hp (Slot.occ ⟨k, v, hash k, 0⟩)
      rw [hocc] at hset1
      have hset2 := sumPSLfield_set hp2 (Slot.occ ⟨k, v, e2.ehash, e2.psl⟩)
      rw [hocc2] at hset2
      have hA : slotPSL tL.slots.length p (Slot.occ e)
          = cdist tL.slots.length (homeIdx tL.slots.length e.ehash) p := rfl
      have hB : slotPSL tL.slots.length p (Slot.occ ⟨k, v, hash k, 0⟩)
          = cdist tL.slots.length (homeIdx tL.slots.length (hash k)) p := rfl
      have hC : e.ehash = hash k := by
        rw [← hke]; exact hcpl.wfL.hash_ok p e hp hocc
      rw [hC] at hA
      have hD : slotPSLfield (Slot.occ e2) = e2.psl := rfl
      have hE : slotPSLfield (Slot.occ ⟨k, v, e2.ehash, e2.psl⟩) = e2.psl := rfl
      have hpp := hcpl.psl_eq
      omega
    exact ⟨hwfL', hnt1, hwfR', by rw [hcapL, hcapR]; exact hcpl.cap_eq,
      by rw [htnL, htnR]; exact hcpl.tn_eq,
      by rw [htdL, htdR]; exact hcpl.td_eq, hemp, hmem, hpsl⟩
  · have hkR : k ∉ keysOf tR.slots := by
      intro hm
      rcases mem_keysOf_pairs.mp hm with ⟨v0, hv0⟩
      exact hk (mem_keysOf_pairs.mpr ⟨v0, (hcpl.mem_eq _).mpr hv0⟩)
    rcases insertRawL_fresh hcpl.wfL hasE hk with
      ⟨hwfL', hpermL, hcapL, _, htnL, htdL⟩
    rcases insertRawL_fresh_placement hcpl.wfL hcpl.ntL hasE hk with
      ⟨d₁, hd₁c, hd₁e, hd₁m, hslotsL⟩
    rcases insertRawRH_fresh hcpl.wfR hasER hkR with
      ⟨hwfR', hpermR, hcapR, _, htnR, htdR⟩
    rcases insertRawRH_fresh_placement hcpl.wfR hasER hkR with
      ⟨d₂, hd₂c, hd₂e, hd₂m, hiffR, hsumR⟩
    rw [← hcpl.cap_eq] at hd₂e hd₂m hiffR
    have hdd : d₁ = d₂ := dmin_unique hcpl.emp_eq hd₁e hd₁m hd₂e hd₂m
    subst hdd
    have hq1 : probeAt tL.capacity (hash k) d₁ < tL.slots.length := by
      rw [hlenL]; exact probeAt_lt _ _ _ hcL
    have hemp : ∀ j, slotAt (tL.insertRawL hash k v).slots j = Slot.empty ↔
        slotAt (tR.insertRawRH hash k v).slots j = Slot.empty := by
      intro j
      rw [hslotsL]
      exact ((emp_set_of_empty hq1 j).trans
        (and_congr (hcpl.emp_eq j) Iff.rfl)).trans (hiffR j).symm
    have hmem : ∀ pr : Nat × Nat,
        pr ∈ pairsOf (tL.insertRawL hash k v).slots ↔
        pr ∈ pairsOf (tR.insertRawRH hash k v).slots := by
      intro pr
      rw [hpermL.mem_iff, hpermR.mem_iff]
      simp only [List.mem_cons]
      exact or_congr Iff.rfl (hcpl.mem_eq pr)
    have hpsl : sumPSLpos (tL.insertRawL hash k v).slots
        = sumPSLfield (tR.insertRawRH hash k v).slots := by
      rw [hslotsL]
      have hset1 := sumPSLpos_set hq1 (Slot.occ ⟨k, v, hash k, 0⟩)
      rw [hd₁e] at hset1
      have h01 : slotPSL tL.slots.length (probeAt tL.capacity (hash k) d₁)
          Slot.empty = 0 := rfl
      have hB1 : slotPSL tL.slots.length (probeAt tL.capacity (hash k) d₁)
          (Slot.occ ⟨k, v, hash k, 0⟩)
          = cdist tL.slots.length (homeIdx tL.slots.length (hash k))
              (probeAt tL.capacity (hash k) d₁) := rfl
      have hcd1 : cdist tL.slots.length (homeIdx tL.slots.length (hash k))
          (probeAt tL.capacity (hash k) d₁) = d₁ := by
        show cdist tL.capacity (homeIdx tL.capacity (hash k))
          (probeAt tL.capacity (hash k) d₁) = d₁
        simp only [homeIdx]
        exact cdist_probeAt _ _ _ hcL hd₁c
      have hpp := hcpl.psl_eq
      omega
    exact ⟨hwfL', hnt1, hwfR', by rw [hcapL, hcapR]; exact hcpl.cap_eq,
      by rw [htnL, htnR]; exact hcpl.tn_eq,
      by rw [htdL, htdR]; exact hcpl.td_eq, hemp, hmem, hpsl⟩


/-! ## PSL-sum conservation: exchanging two fresh raw inserts -/

theorem exists_empty_dist {slots : List Slot} {cap : Nat} (hc : 0 < cap)
    (hlen : slots.length = cap) {base : Nat} (hb : base < cap)
    (hasE : Slot.empty ∈ slots) :
    ∃ u, slotAt slots ((base + u) % cap) = Slot.empty := by
  rcases slotAt_mem_exists hasE with ⟨j0, hj0, hj0e⟩
  have hj0c : j0 < cap := hlen ▸ hj0
  have hp2 : (base + cdist cap base j0) % cap = j0 := by
    have hp := probeAt_cdist cap base j0 hc hj0c
    simp only [probeAt] at hp
    rw [Nat.mod_eq_of_lt hb] at hp
    exact hp
  exact ⟨cdist cap base j0, by rw [hp2]; exact hj0e⟩

theorem linExchange {hash : Nat → Nat} {t : Table} {k₁ v₁ k₂ v₂ : Nat}
    (hwf : WFL hash t) (hnt : noTomb t.slots) (hk12 : k₁ ≠ k₂)
    (hf1 : k₁ ∉ keysOf t.slots) (hf2 : k₂ ∉ keysOf t.slots)
    (hcnt : countOcc t.slots + 2 ≤ t.capacity) :
    LinSim hash ((t.insertRawL hash k₁ v₁).insertRawL hash k₂ v₂)
      ((t.insertRawL hash k₂ v₂).insertRawL hash k₁ v₁) := by
  have hc : 0 < t.capacity := hwf.cap_pos
  have hlen : t.slots.length = t.capacity := rfl
  have htc0 : t.tombstone_count = 0 := by
    rw [hwf.tomb_eq]; exact countTomb_eq_zero_of_noTomb hnt
  have hasE : Slot.empty ∈ t.slots := by
    apply empty_mem_of_counts
    rw [countTomb_eq_zero_of_noTomb hnt, hlen]
    omega
  rcases insertRawL_fresh hwf hasE hf1 with ⟨hwfA, hpermA, hcapA, _, htnA, htdA⟩
  rcases insertRawL_fresh_placement hwf hnt hasE hf1 with
    ⟨a, hac, hae, ham, hslotsA⟩
  have hntA : noTomb (t.insertRawL hash k₁ v₁).slots :=
    (insertRawL_tombFree hnt htc0).1
  have htcA : (t.insertRawL hash k₁ v₁).tombstone_count = 0 :=
    (insertRawL_tombFree hnt htc0).2
  have hcntA : countOcc (t.insertRawL hash k₁ v₁).slots = countOcc t.slots + 1 :=
    countOcc_succ_of_pairs_cons hpermA
  have hasEA : Slot.empty ∈ (t.insertRawL hash k₁ v₁).slots := by
    apply empty_mem_of_counts
    rw [countTomb_eq_zero_of_noTomb hntA, hcntA]
    have hl : (t.insertRawL hash k₁ v₁).slots.length
        = (t.insertRawL hash k₁ v₁).capacity := rfl
    rw [hl, hcapA]
    omega
  have hfA : k₂ ∉ keysOf (t.insertRawL hash k₁ v₁).slots := by
    intro hmem
    have hkp := (keysOf_perm_cons hpermA).mem_iff.mp hmem
    rcases List.mem_cons.mp hkp with heq | hmem2
    · exact hk12 heq.symm
    · exact hf2 hmem2
  rcases insertRawL_fresh hwfA hasEA hfA with
    ⟨hwfAB, hpermAB, hcapAB, _, htnAB, htdAB⟩
  rcases insertRawL_fresh_placement hwfA hntA hasEA hfA with
    ⟨b2, hb2c, hb2e, hb2m, hslotsAB⟩
  have hntAB : noTomb ((t.insertRawL hash k₁ v₁).insertRawL hash k₂ v₂).slots :=
    (insertRawL_tombFree hntA htcA).1
  rw [hcapA] at hb2c hb2e hb2m hslotsAB
  rw [hslotsA] at hb2e hb2m hslotsAB
  rcases insertRawL_fresh hwf hasE hf2 with ⟨hwfB, hpermB, hcapB, _, htnB, htdB⟩
  rcases insertRawL_fresh_placement hwf hnt hasE hf2 with
    ⟨b, hbc, hbe, hbm, hslotsB⟩
  have hntB : noTomb (t.insertRawL hash k₂ v₂).slots :=
    (insertRawL_tombFree hnt htc0).1
  have htcB : (t.insertRawL hash k₂ v₂).tombstone_count = 0 :=
    (insertRawL_tombFree hnt htc0).2
  have hcntB : countOcc (t.insertRawL hash k₂ v₂).slots = countOcc t.slots + 1 :=
    countOcc_succ_of_pairs_cons hpermB
  have hasEB : Slot.empty ∈ (t.insertRawL hash k₂ v₂).slots := by
    apply empty_mem_of_counts
    rw [countTomb_eq_zero_of_noTomb hntB, hcntB]
    have hl : (t.insertRawL hash k₂ v₂).slots.length
        = (t.insertRawL hash k₂ v₂).capacity := rfl
    rw [hl, hcapB]
    omega
  have hfB : k₁ ∉ keysOf (t.insertRawL hash k₂ v₂).slots := by
    intro hmem
    have hkp := (keysOf_perm_cons hpermB).mem_iff.mp hmem
    rcases List.mem_cons.mp hkp with heq | hmem2
    · exact hk12 heq
    · exact hf1 hmem2
  rcases insertRawL_fresh hwfB hasEB hfB with
    ⟨hwfBA, hpermBA, hcapBA, _, htnBA, htdBA⟩
  rcases insertRawL_fresh_placement hwfB hntB hasEB hfB with
    ⟨a2, ha2c, ha2e, ha2m, hslotsBA⟩
  have hntBA : noTomb ((t.insertRawL hash k₂ v₂).insertRawL hash k₁ v₁).slots :=
    (insertRawL_tombFree hntB htcB).1
  rw [hcapB] at ha2c ha2e ha2m hslotsBA
  rw [hslotsB] at ha2e ha2m hslotsBA
  have hmem : ∀ pr : Nat × Nat,
      pr ∈ pairsOf ((t.insertRawL hash k₁ v₁).insertRawL hash k₂ v₂).slots ↔
      pr ∈ pairsOf ((t.insertRawL hash k₂ v₂).insertRawL hash k₁ v₁).slots := by
    intro pr
    have hchain1 := hpermAB.trans (hpermA.cons (k₂, v₂))
    have hchain2 := hpermBA.trans (hpermB.cons (k₁, v₁))
    rw [hchain1.mem_iff, hchain2.mem_iff]
    simp only [List.mem_cons]
    tauto
  have hqa_lt : probeAt t.capacity (hash k₁) a < t.slots.length := by
    rw [hlen]; exact probeAt_lt _ _ _ hc
  have hqb_lt : probeAt t.capacity (hash k₂) b < t.slots.length := by
    rw [hlen]; exact probeAt_lt _ _ _ hc
  have hlt_set1 : ∀ w, probeAt t.capacity (hash k₂) w
      < (t.slots.set (probeAt t.capacity (hash k₁) a)
          (Slot.occ ⟨k₁, v₁, hash k₁, 0⟩)).length := by
    intro w
    rw [List.length_set, hlen]
    exact probeAt_lt _ _ _ hc
  have hlt_set2 : ∀ w, probeAt t.capacity (hash k₁) w
      < (t.slots.set (probeAt t.capacity (hash k₂) b)
          (Slot.occ ⟨k₂, v₂, hash k₂, 0⟩)).length := by
    intro w
    rw [List.length_set, hlen]
    exact probeAt_lt _ _ _ hc
  have hcd : ∀ h w, w < t.capacity →
      cdist t.slots.length (homeIdx t.slots.length h)
        (probeAt t.capacity h w) = w := by
    intro h w hw
    show cdist t.capacity (homeIdx t.capacity h) (probeAt t.capacity h w) = w
    simp only [homeIdx]
    exact cdist_probeAt _ _ _ hc hw
  by_cases hqq : probeAt t.capacity (hash k₁) a = probeAt t.capacity (hash k₂) b
  · -- the two first inserts target the same slot: the second placements
    -- both continue to the next empty slot after it
    have hposw2 : ∀ w, probeAt t.capacity (hash k₂) (b + 1 + w)
        = ((probeAt t.capacity (hash k₁) a + 1) % t.capacity + w)
            % t.capacity := by
      intro w
      rw [probeAt_add t.capacity (hash k₂) (b+1) w, probeAt_succ, ← hqq]
    have hposw1 : ∀ w, probeAt t.capacity (hash k₁) (a + 1 + w)
        = ((probeAt t.capacity (hash k₁) a + 1) % t.capacity + w)
            % t.capacity := by
      intro w
      rw [probeAt_add t.capacity (hash k₁) (a+1) w, probeAt_succ]
    have hasEA2 := hasEA
    rw [hslotsA] at hasEA2
    have hexm : ∃ u, slotAt (t.slots.set (probeAt t.capacity (hash k₁) a)
        (Slot.occ ⟨k₁, v₁, hash k₁, 0⟩))
        (((probeAt t.capacity (hash k₁) a + 1) % t.capacity + u) % t.capacity)
          = Slot.empty :=
      exists_empty_dist hc (by rw [List.length_set]; exact hlen)
        (Nat.mod_lt _ hc) hasEA2
    rcases exists_min_empty hexm with ⟨m, hme, hmm⟩
    have hEE : ∀ j, slotAt (t.slots.set (probeAt t.capacity (hash k₁) a)
        (Slot.occ ⟨k₁, v₁, hash k₁, 0⟩)) j = Slot.empty ↔
        slotAt (t.slots.set (probeAt t.capacity (hash k₂) b)
          (Slot.occ ⟨k₂, v₂, hash k₂, 0⟩)) j = Slot.empty := by
      intro j
      rw [emp_set_of_empty hqa_lt j, emp_set_of_empty hqb_lt j, hqq]
    have hb2eq : b2 = b + 1 + m := by
      refine dmin_unique (fun j => Iff.rfl) hb2e hb2m ?_ ?_
      · rw [hposw2 m]
        exact hme
      · intro u hu
        rcases Nat.lt_trichotomy u b with hub | hub | hub
        · exact slotAt_set_occ_ne_empty (hbm u hub)
        · subst hub
          rw [← hqq, slotAt_set_self hqa_lt]
          exact occ_ne_empty _
        · have hne2 := hmm (u - (b+1)) (by omega)
          rw [← hposw2 (u - (b+1))] at hne2
          have hueq : b + 1 + (u - (b+1)) = u := by omega
          rw [hueq] at hne2
          exact hne2
    have ha2eq : a2 = a + 1 + m := by
      refine dmin_unique (fun j => Iff.rfl) ha2e ha2m ?_ ?_
      · rw [hposw1 m]
        exact (hEE _).mp hme
      · intro u hu
        rcases Nat.lt_trichotomy u a with hub | hub | hub
        · exact slotAt_set_occ_ne_empty (ham u hub)
        · subst hub
          rw [hqq, slotAt_set_self hqb_lt]
          exact occ_ne_empty _
        · have hne2 := hmm (u - (a+1)) (by omega)
          have hne3 : slotAt (t.slots.set (probeAt t.capacity (hash k₂) b)
              (Slot.occ ⟨k₂, v₂, hash k₂, 0⟩))
              (((probeAt t.capacity (hash k₁) a + 1) % t.capacity
                + (u - (a+1))) % t.capacity) ≠ Slot.empty :=
            fun hcon => hne2 ((hEE _).mpr hcon)
          rw [← hposw1 (u - (a+1))] at hne3
          have hueq : a + 1 + (u - (a+1)) = u := by omega
          rw [hueq] at hne3
          exact hne3
    subst hb2eq
    subst ha2eq
    have hemp : ∀ j,
        slotAt ((t.insertRawL hash k₁ v₁).insertRawL hash k₂ v₂).slots j
          = Slot.empty ↔
        slotAt ((t.insertRawL hash k₂ v₂).insertRawL hash k₁ v₁).slots j
          = Slot.empty := by
      intro j
      rw [hslotsAB, hslotsBA]
      rw [emp_set_of_empty (hlt_set1 (b + 1 + m)) j, emp_set_of_empty hqa_lt j,
        emp_set_of_empty (hlt_set2 (a + 1 + m)) j, emp_set_of_empty hqb_lt j,
        hposw2 m, hposw1 m, hqq]
    have hpsl :
        sumPSLpos ((t.insertRawL hash k₁ v₁).insertRawL hash k₂ v₂).slots
          = sumPSLpos ((t.insertRawL hash k₂ v₂).insertRawL hash k₁ v₁).slots := by
      rw [hslotsAB, hslotsBA]
      have hsetA := sumPSLpos_set hqa_lt (Slot.occ ⟨k₁, v₁, hash k₁, 0⟩)
      rw [hae] at hsetA
      have hsetAB := sumPSLpos_set (hlt_set1 (b + 1 + m))
        (Slot.occ ⟨k₂, v₂, hash k₂, 0⟩)
      rw [List.length_set] at hsetAB
      have holdA : slotAt (t.slots.set (probeAt t.capacity (hash k₁) a)
          (Slot.occ ⟨k₁, v₁, hash k₁, 0⟩))
          (probeAt t.capacity (hash k₂) (b + 1 + m)) = Slot.empty := by
        rw [hposw2 m]
        exact hme
      rw [holdA] at hsetAB
      have hsetB := sumPSLpos_set hqb_lt (Slot.occ ⟨k₂, v₂, hash k₂, 0⟩)
      rw [hbe] at hsetB
      have hsetBA := sumPSLpos_set (hlt_set2 (a + 1 + m))
        (Slot.occ ⟨k₁, v₁, hash k₁, 0⟩)
      rw [List.length_set] at hsetBA
      have holdB : slotAt (t.slots.set (probeAt t.capacity (hash k₂) b)
          (Slot.occ ⟨k₂, v₂, hash k₂, 0⟩))
          (probeAt t.capacity (hash k₁) (a + 1 + m)) = Slot.empty := by
        rw [hposw1 m]
        exact (hEE _).mp hme
      rw [holdB] at hsetBA
      have hz1 : slotPSL t.slots.length (probeAt t.capacity (hash k₁) a)
          Slot.empty = 0 := rfl
      have hz2 : slotPSL t.slots.length (probeAt t.capacity (hash k₂) b)
          Slot.empty = 0 := rfl
      have hz3 : slotPSL t.slots.length
          (probeAt t.capacity (hash k₂) (b + 1 + m)) Slot.empty = 0 := rfl
      have hz4 : slotPSL t.slots.length
          (probeAt t.capacity (hash k₁) (a + 1 + m)) Slot.empty = 0 := rfl
      have hv1 : slotPSL t.slots.length (probeAt t.capacity (hash k₁) a)
          (Slot.occ ⟨k₁, v₁, hash k₁, 0⟩)
          = cdist t.slots.length (homeIdx t.slots.length (hash k₁))
              (probeAt t.capacity (hash k₁) a) := rfl
      have hv2 : slotPSL t.slots.length (probeAt t.capacity (hash k₂) b)
          (Slot.occ ⟨k₂, v₂, hash k₂, 0⟩)
          = cdist t.slots.length (homeIdx t.slots.length (hash k₂))
              (probeAt t.capacity (hash k₂) b) := rfl
      have hv3 : slotPSL t.slots.length
          (probeAt t.capacity (hash k₂) (b + 1 + m))
          (Slot.occ ⟨k₂, v₂, hash k₂, 0⟩)
          = cdist t.slots.length (homeIdx t.slots.length (hash k₂))
              (probeAt t.capacity (hash k₂) (b + 1 + m)) := rfl
      have hv4 : slotPSL t.slots.length
          (probeAt t.capacity (hash k₁) (a + 1 + m))
          (Slot.occ ⟨k₁, v₁, hash k₁, 0⟩)
          = cdist t.slots.length (homeIdx t.slots.length (hash k₁))
              (probeAt t.capacity (hash k₁) (a + 1 + m)) := rfl
      have hcd1 := hcd (hash k₁) a hac
      have hcd2 := hcd (hash k₂) b hbc
      have hcd3 := hcd (hash k₂) (b + 1 + m) hb2c
      have hcd4 := hcd (hash k₁) (a + 1 + m) ha2c
      omega
    exact ⟨hwfAB, hntAB, hwfBA, hntBA,
      by rw [hcapAB, hcapA, hcapBA, hcapB],
      by rw [htnAB, htnA, htnBA, htnB],
      by rw [htdAB, htdA, htdBA, htdB],
      hemp, hmem, hpsl⟩
  · -- the two first inserts target different slots: the placements commute
    have hb2eq : b2 = b := by
      refine dmin_unique (fun j => Iff.rfl) hb2e hb2m ?_ ?_
      · rw [slotAt_set_ne hqq]
        exact hbe
      · intro u hu
        exact slotAt_set_occ_ne_empty (hbm u hu)
    have ha2eq : a2 = a := by
      refine dmin_unique (fun j => Iff.rfl) ha2e ha2m ?_ ?_
      · rw [slotAt_set_ne (fun hcon => hqq hcon.symm)]
        exact hae
      · intro u hu
        exact slotAt_set_occ_ne_empty (ham u hu)
    rw [hb2eq] at hslotsAB
    rw [ha2eq] at hslotsBA
    have hemp : ∀ j,
        slotAt ((t.insertRawL hash k₁ v₁).insertRawL hash k₂ v₂).slots j
          = Slot.empty ↔
        slotAt ((t.insertRawL hash k₂ v₂).insertRawL hash k₁ v₁).slots j
          = Slot.empty := by
      intro j
      rw [hslotsAB, hslotsBA]
      rw [emp_set_of_empty (hlt_set1 b) j, emp_set_of_empty hqa_lt j,
        emp_set_of_empty (hlt_set2 a) j, emp_set_of_empty hqb_lt j]
      constructor
      · rintro ⟨⟨h1, h2⟩, h3⟩
        exact ⟨⟨h1, h3⟩, h2⟩
      · rintro ⟨⟨h1, h2⟩, h3⟩
        exact ⟨⟨h1, h3⟩, h2⟩
    have hpsl :
        sumPSLpos ((t.insertRawL hash k₁ v₁).insertRawL hash k₂ v₂).slots
          = sumPSLpos ((t.insertRawL hash k₂ v₂).insertRawL hash k₁ v₁).slots := by
      rw [hslotsAB, hslotsBA]
      have hsetA := sumPSLpos_set hqa_lt (Slot.occ ⟨k₁, v₁, hash k₁, 0⟩)
      rw [hae] at hsetA
      have hsetAB := sumPSLpos_set (hlt_set1 b) (Slot.occ ⟨k₂, v₂, hash k₂, 0⟩)
      rw [List.length_set] at hsetAB
      rw [slotAt_set_ne hqq, hbe] at hsetAB
      have hsetB := sumPSLpos_set hqb_lt (Slot.occ ⟨k₂, v₂, hash k₂, 0⟩)
      rw [hbe] at hsetB
      have hsetBA := sumPSLpos_set (hlt_set2 a) (Slot.occ ⟨k₁, v₁, hash k₁, 0⟩)
      rw [List.length_set] at hsetBA
      rw [slotAt_set_ne (fun hcon => hqq hcon.symm), hae] at hsetBA
      have hz1 : slotPSL t.slots.length (probeAt t.capacity (hash k₁) a)
          Slot.empty = 0 := rfl
      have hz2 : slotPSL t.slots.length (probeAt t.capacity (hash k₂) b)
          Slot.empty = 0 := rfl
      have hv1 : slotPSL t.slots.length (probeAt t.capacity (hash k₁) a)
          (Slot.occ ⟨k₁, v₁, hash k₁, 0⟩)
          = cdist t.slots.length (homeIdx t.slots.length (hash k₁))
              (probeAt t.capacity (hash k₁) a) := rfl
      have hv2 : slotPSL t.slots.length (probeAt t.capacity (hash k₂) b)
          (Slot.occ ⟨k₂, v₂, hash k₂, 0⟩)
          = cdist t.slots.length (homeIdx t.slots.length (hash k₂))
              (probeAt t.capacity (hash k₂) b) := rfl
      have hcd1 := hcd (hash k₁) a hac
      have hcd2 := hcd (hash k₂) b hbc
      omega
    exact ⟨hwfAB, hntAB, hwfBA, hntBA,
      by rw [hcapAB, hcapA, hcapBA, hcapB],
      by rw [htnAB, htnA, htnBA, htnB],
      by rw [htdAB, htdA, htdBA, htdB],
      hemp, hmem, hpsl⟩


/-! ## PSL-sum conservation: folding insert sequences -/

theorem linSim_fold {hash : Nat → Nat} :
    ∀ (ps : List (Nat × Nat)) (t₁ t₂ : Table),
    LinSim hash t₁ t₂ →
    (∀ p ∈ ps, p.1 ∉ keysOf t₁.slots) →
    (ps.map Prod.fst).Nodup →
    countOcc t₁.slots + ps.length ≤ t₁.capacity →
    LinSim hash (ps.foldl (fun a p => a.insertRawL hash p.1 p.2) t₁)
      (ps.foldl (fun a p => a.insertRawL hash p.1 p.2) t₂) := by
  intro ps
  induction ps with
  | nil =>
    intro t₁ t₂ hsim _ _ _
    exact hsim
  | cons p ps ih =>
    intro t₁ t₂ hsim hfresh hnd hcnt
    simp only [List.foldl_cons, List.map_cons] at hnd ⊢
    have hlp : (p :: ps).length = ps.length + 1 := rfl
    rw [hlp] at hcnt
    have hasE : Slot.empty ∈ t₁.slots := by
      apply empty_mem_of_counts
      rw [countTomb_eq_zero_of_noTomb hsim.nt₁]
      have hl : t₁.slots.length = t₁.capacity := rfl
      omega
    have hf : p.1 ∉ keysOf t₁.slots := hfresh p (List.mem_cons_self _ _)
    have hstep := linStep hsim hasE p.2 hf
    rcases insertRawL_fresh hsim.wf₁ hasE hf with
      ⟨hwf1, hperm1, hcap1, _, _, _⟩
    have hfresh' : ∀ q ∈ ps, q.1 ∉ keysOf (t₁.insertRawL hash p.1 p.2).slots := by
      intro q hq hmem
      have hkp := (keysOf_perm_cons hperm1).mem_iff.mp hmem
      rcases List.mem_cons.mp hkp with heq | hmem2
      · exact (List.nodup_cons.mp hnd).1 (heq ▸ List.mem_map.mpr ⟨q, hq, rfl⟩)
      · exact hfresh q (List.mem_cons_of_mem _ hq) hmem2
    have hnd' : (ps.map Prod.fst).Nodup := (List.nodup_cons.mp hnd).2
    have hcnt' : countOcc (t₁.insertRawL hash p.1 p.2).slots + ps.length
        ≤ (t₁.insertRawL hash p.1 p.2).capacity := by
      rw [countOcc_succ_of_pairs_cons hperm1, hcap1]
      omega
    exact ih _ _ hstep hfresh' hnd' hcnt'

theorem couple_fold {hash : Nat → Nat} :
    ∀ (ps : List (Nat × Nat)) (tL tR : Table),
    Couple hash tL tR →
    (∀ p ∈ ps, p.1 ∉ keysOf tL.slots) →
    (ps.map Prod.fst).Nodup →
    countOcc tL.slots + ps.length ≤ tL.capacity →
    Couple hash (ps.foldl (fun a p => a.insertRawL hash p.1 p.2) tL)
      (ps.foldl (fun a p => a.insertRawRH hash p.1 p.2) tR) := by
  intro ps
  induction ps with
  | nil =>
    intro tL tR hcpl _ _ _
    exact hcpl
  | cons p ps ih =>
    intro tL tR hcpl hfresh hnd hcnt
    simp only [List.foldl_cons, List.map_cons] at hnd ⊢
    have hlp : (p :: ps).length = ps.length + 1 := rfl
    rw [hlp] at hcnt
    have hasE : Slot.empty ∈ tL.slots := by
      apply empty_mem_of_counts
      rw [countTomb_eq_zero_of_noTomb hcpl.ntL]
      have hl : tL.slots.length = tL.capacity := rfl
      omega
    have hf : p.1 ∉ keysOf tL.slots := hfresh p (List.mem_cons_self _ _)
    have hstep := coupleStep hcpl hasE p.1 p.2
    rcases insertRawL_fresh hcpl.wfL hasE hf with
      ⟨hwf1, hperm1, hcap1, _, _, _⟩
    have hfresh' : ∀ q ∈ ps, q.1 ∉ keysOf (tL.insertRawL hash p.1 p.2).slots := by
      intro q hq hmem
      have hkp := (keysOf_perm_cons hperm1).mem_iff.mp hmem
      rcases List.mem_cons.mp hkp with heq | hmem2
      · exact (List.nodup_cons.mp hnd).1 (heq ▸ List.mem_map.mpr ⟨q, hq, rfl⟩)
      · exact hfresh q (List.mem_cons_of_mem _ hq) hmem2
    have hnd' : (ps.map Prod.fst).Nodup := (List.nodup_cons.mp hnd).2
    have hcnt' : countOcc (tL.insertRawL hash p.1 p.2).slots + ps.length
        ≤ (tL.insertRawL hash p.1 p.2).capacity := by
      rw [countOcc_succ_of_pairs_cons hperm1, hcap1]
      omega
    exact ih _ _ hstep hfresh' hnd' hcnt'

theorem linSim_perm_fold {hash : Nat → Nat} :
    ∀ {ps qs : List (Nat × Nat)}, ps.Perm qs →
    ∀ t₁ t₂, LinSim hash t₁ t₂ →
    (∀ p ∈ ps, p.1 ∉ keysOf t₁.slots) →
    (ps.map Prod.fst).Nodup →
    countOcc t₁.slots + ps.length ≤ t₁.capacity →
    LinSim hash (ps.foldl (fun a p => a.insertRawL hash p.1 p.2) t₁)
      (qs.foldl (fun a p => a.insertRawL hash p.1 p.2) t₂) := by
  intro ps qs hperm
  induction hperm with
  | nil =>
    intro t₁ t₂ hsim _ _ _
    exact hsim
  | cons x h ih =>
    intro t₁ t₂ hsim hfresh hnd hcnt
    simp only [List.foldl_cons, List.map_cons] at hnd ⊢
    simp only [List.length_cons] at hcnt
    have hasE : Slot.empty ∈ t₁.slots := by
      apply empty_mem_of_counts
      rw [countTomb_eq_zero_of_noTomb hsim.nt₁]
      have hl : t₁.slots.length = t₁.capacity := rfl
      omega
    have hf : x.1 ∉ keysOf t₁.slots := hfresh x (List.mem_cons_self _ _)
    have hstep := linStep hsim hasE x.2 hf
    rcases insertRawL_fresh hsim.wf₁ hasE hf with
      ⟨hwf1, hperm1, hcap1, _, _, _⟩
    refine ih _ _ hstep ?_ (List.nodup_cons.mp hnd).2 ?_
    · intro q2 hq hmem
      have hkp := (keysOf_perm_cons hperm1).mem_iff.mp hmem
      rcases List.mem_cons.mp hkp with heq | hmem2
      · exact (List.nodup_cons.mp hnd).1 (heq ▸ List.mem_map.mpr ⟨q2, hq, rfl⟩)
      · exact hfresh q2 (List.mem_cons_of_mem _ hq) hmem2
    · rw [countOcc_succ_of_pairs_cons hperm1, hcap1]
      omega
  | swap x y l =>
    intro t₁ t₂ hsim hfresh hnd hcnt
    simp only [List.foldl_cons, List.map_cons] at hnd ⊢
    have hlp : (y :: x :: l).length = l.length + 2 := rfl
    rw [hlp] at hcnt
    have htc0 : t₁.tombstone_count = 0 := by
      rw [hsim.wf₁.tomb_eq]; exact countTomb_eq_zero_of_noTomb hsim.nt₁
    have hasE1 : Slot.empty ∈ t₁.slots := by
      apply empty_mem_of_counts
      rw [countTomb_eq_zero_of_noTomb hsim.nt₁]
      have hl : t₁.slots.length = t₁.capacity := rfl
      omega
    have hfy : y.1 ∉ keysOf t₁.slots := hfresh y (List.mem_cons_self _ _)
    have hfx1 : x.1 ∉ keysOf t₁.slots :=
      hfresh x (List.mem_cons_of_mem _ (List.mem_cons_self _ _))
    have hndyx : y.1 ≠ x.1 := by
      intro hc2
      exact (List.nodup_cons.mp hnd).1 (hc2 ▸ List.mem_cons_self _ _)
    have hxchg := @linExchange hash t₁ y.1 y.2 x.1 x.2 hsim.wf₁ hsim.nt₁
      hndyx hfy hfx1 (by omega)
    have hstep1 := linStep hsim hasE1 x.2 hfx1
    rcases insertRawL_fresh hsim.wf₁ hasE1 hfx1 with
      ⟨hwfx, hpermx, hcapx, _, _, _⟩
    have hasE1x : Slot.empty ∈ (t₁.insertRawL hash x.1 x.2).slots := by
      apply empty_mem_of_counts
      rw [countTomb_eq_zero_of_noTomb hstep1.nt₁,
        countOcc_succ_of_pairs_cons hpermx]
      have hl : (t₁.insertRawL hash x.1 x.2).slots.length
          = (t₁.insertRawL hash x.1 x.2).capacity := rfl
      rw [hl, hcapx]
      omega
    have hfyx : y.1 ∉ keysOf (t₁.insertRawL hash x.1 x.2).slots := by
      intro hmem
      have hkp := (keysOf_perm_cons hpermx).mem_iff.mp hmem
      rcases List.mem_cons.mp hkp with heq | hmem2
      · exact hndyx heq
      · exact hfy hmem2
    have hstep2 := linStep hstep1 hasE1x y.2 hfyx
    have hchain := linSim_trans hxchg hstep2
    rcases insertRawL_fresh hsim.wf₁ hasE1 hfy with
      ⟨hwfy, hpermy, hcapy, _, _, _⟩
    have hntY : noTomb (t₁.insertRawL hash y.1 y.2).slots :=
      (insertRawL_tombFree hsim.nt₁ htc0).1
    have hasE1y : Slot.empty ∈ (t₁.insertRawL hash y.1 y.2).slots := by
      apply empty_mem_of_counts
      rw [countTomb_eq_zero_of_noTomb hntY, countOcc_succ_of_pairs_cons hpermy]
      have hl : (t₁.insertRawL hash y.1 y.2).slots.length
          = (t₁.insertRawL hash y.1 y.2).capacity := rfl
      rw [hl, hcapy]
      omega
    have hfxy : x.1 ∉ keysOf (t₁.insertRawL hash y.1 y.2).slots := by
      intro hmem
      have hkp := (keysOf_perm_cons hpermy).mem_iff.mp hmem
      rcases List.mem_cons.mp hkp with heq | hmem2
      · exact hndyx heq.symm
      · exact hfx1 hmem2
    rcases insertRawL_fresh hwfy hasE1y hfxy with
      ⟨hwfyx, hpermyx, hcapyx, _, _, _⟩
    refine linSim_fold l _ _ hchain ?_ ?_ ?_
    · intro q2 hq hmem
      have hkp := (keysOf_perm_cons hpermyx).mem_iff.mp hmem
      rcases List.mem_cons.mp hkp with heq | hmem2
      · exact (List.nodup_cons.mp (List.nodup_cons.mp hnd).2).1
          (heq ▸ List.mem_map.mpr ⟨q2, hq, rfl⟩)
      · have hkp2 := (keysOf_perm_cons hpermy).mem_iff.mp hmem2
        rcases List.mem_cons.mp hkp2 with heq2 | hmem3
        · exact (List.nodup_cons.mp hnd).1
            (heq2 ▸ List.mem_cons_of_mem _ (List.mem_map.mpr ⟨q2, hq, rfl⟩))
        · exact hfresh q2
            (List.mem_cons_of_mem _ (List.mem_cons_of_mem _ hq)) hmem3
    · exact (List.nodup_cons.mp (List.nodup_cons.mp hnd).2).2
    · rw [countOcc_succ_of_pairs_cons hpermyx, hcapyx,
        countOcc_succ_of_pairs_cons hpermy, hcapy]
      omega
  | trans h12 h23 ih1 ih2 =>
    intro t₁ t₂ hsim hfresh hnd hcnt
    have hr1 := ih1 t₁ t₁ (linSim_refl hsim.wf₁ hsim.nt₁) hfresh hnd hcnt
    have hr2 := ih2 t₁ t₂ hsim
      (fun p hp => hfresh p (h12.mem_iff.mpr hp))
      ((h12.map Prod.fst).nodup_iff.mp hnd)
      (by rw [← h12.length_eq]; exact hcnt)
    exact linSim_trans hr1 hr2


/-! ## PSL-sum conservation: the grow pass, full inserts, and whole runs -/

theorem growL_as_pairs_fold (hash : Nat → Nat) (t : Table) :
    t.growL hash = (pairsOf t.slots).foldl
      (fun a p => a.insertRawL hash p.1 p.2)
      (mkTable (2 * t.capacity) t.threshNum t.threshDen) := by
  show (liveEntries t).foldl (fun acc e => acc.insertRawL hash e.key e.value)
      (mkTable (2 * t.capacity) t.threshNum t.threshDen) = _
  show _ = ((liveEntriesOf t.slots).map fun e => (e.key, e.value)).foldl
      (fun a p => a.insertRawL hash p.1 p.2)
      (mkTable (2 * t.capacity) t.threshNum t.threshDen)
  rw [List.foldl_map]
  rfl

theorem growRH_as_pairs_fold (hash : Nat → Nat) (t : Table) :
    t.growRH hash = (pairsOf t.slots).foldl
      (fun a p => a.insertRawRH hash p.1 p.2)
      (mkTable (2 * t.capacity) t.threshNum t.threshDen) := by
  show (liveEntries t).foldl (fun acc e => acc.insertRawRH hash e.key e.value)
      (mkTable (2 * t.capacity) t.threshNum t.threshDen) = _
  show _ = ((liveEntriesOf t.slots).map fun e => (e.key, e.value)).foldl
      (fun a p => a.insertRawRH hash p.1 p.2)
      (mkTable (2 * t.capacity) t.threshNum t.threshDen)
  rw [List.foldl_map]
  rfl

theorem coupleGrow {hash : Nat → Nat} {tL tR : Table}
    (hcpl : Couple hash tL tR) :
    Couple hash (tL.growL hash) (tR.growRH hash) := by
  have hcR : 0 < tR.capacity := hcpl.wfR.cap_pos
  have hpairs : (pairsOf tL.slots).Perm (pairsOf tR.slots) :=
    pairs_perm_of_mem_eq hcpl.wfL.nodup hcpl.wfR.nodup hcpl.mem_eq
  have hmk : Couple hash (mkTable (2 * tR.capacity) tR.threshNum tR.threshDen)
      (mkTable (2 * tR.capacity) tR.threshNum tR.threshDen) :=
    couple_mk hash _ _ _ (by omega)
  have hmkkeys : keysOf
      (mkTable (2 * tR.capacity) tR.threshNum tR.threshDen).slots = [] := by
    show keysOf (List.replicate _ Slot.empty) = []
    rw [keysOf, liveEntriesOf_replicate]
    rfl
  have hmkcnt : countOcc
      (mkTable (2 * tR.capacity) tR.threshNum tR.threshDen).slots = 0 := by
    show countOcc (List.replicate _ Slot.empty) = 0
    rw [countOcc, liveEntriesOf_replicate]
    rfl
  have hfreshL : ∀ p ∈ pairsOf tL.slots, p.1 ∉ keysOf
      (mkTable (2 * tR.capacity) tR.threshNum tR.threshDen).slots := by
    intro p hp
    rw [hmkkeys]
    exact List.not_mem_nil _
  have hndL : ((pairsOf tL.slots).map Prod.fst).Nodup := by
    rw [← keysOf_eq_map_fst]
    exact keysOf_nodup hcpl.wfL.nodup
  have hndR : ((pairsOf tR.slots).map Prod.fst).Nodup := by
    rw [← keysOf_eq_map_fst]
    exact keysOf_nodup hcpl.wfR.nodup
  have hlenP1 : (pairsOf tL.slots).length = countOcc tL.slots := by
    rw [pairsOf, List.length_map]
    rfl
  have hlenP2 : (pairsOf tR.slots).length = countOcc tR.slots := by
    rw [pairsOf, List.length_map]
    rfl
  have hcapmk : (mkTable (2 * tR.capacity) tR.threshNum tR.threshDen).capacity
      = 2 * tR.capacity := by
    show (List.replicate _ Slot.empty).length = _
    rw [List.length_replicate]
  have hoccR : countOcc tR.slots ≤ tR.capacity := countOcc_le_length tR.slots
  have hoccL : countOcc tL.slots = countOcc tR.slots :=
    countOcc_eq_of_pairs_perm hpairs
  have hbud1 : countOcc
        (mkTable (2 * tR.capacity) tR.threshNum tR.threshDen).slots
      + (pairsOf tL.slots).length
      ≤ (mkTable (2 * tR.capacity) tR.threshNum tR.threshDen).capacity := by
    rw [hmkcnt, hlenP1, hcapmk, hoccL]
    omega
  have hbud2 : countOcc
        (mkTable (2 * tR.capacity) tR.threshNum tR.threshDen).slots
      + (pairsOf tR.slots).length
      ≤ (mkTable (2 * tR.capacity) tR.threshNum tR.threshDen).capacity := by
    rw [hmkcnt, hlenP2, hcapmk]
    omega
  have hsim := linSim_perm_fold hpairs
    (mkTable (2 * tR.capacity) tR.threshNum tR.threshDen)
    (mkTable (2 * tR.capacity) tR.threshNum tR.threshDen)
    (linSim_refl hmk.wfL hmk.ntL) hfreshL hndL hbud1
  have hcouple := couple_fold (pairsOf tR.slots)
    (mkTable (2 * tR.capacity) tR.threshNum tR.threshDen)
    (mkTable (2 * tR.capacity) tR.threshNum tR.threshDen) hmk
    (fun p hp => by rw [hmkkeys]; exact List.not_mem_nil _) hndR hbud2
  rw [growL_as_pairs_fold hash tL, growRH_as_pairs_fold hash tR]
  rw [hcpl.cap_eq, hcpl.tn_eq, hcpl.td_eq]
  exact linSim_couple hsim hcouple

theorem coupleInsert {hash : Nat → Nat} {tL tR : Table}
    (hcpl : Couple hash tL tR) (hasE : Slot.empty ∈ tL.slots) (k v : Nat) :
    Couple hash (tL.insertL hash k v) (tR.insertRH hash k v) := by
  have hstep := coupleStep hcpl hasE k v
  have h1 : (tL.insertRawL hash k v).live_count
      = (tR.insertRawRH hash k v).live_count := by
    rw [hstep.wfL.live_eq, hstep.wfR.live_eq]
    exact countOcc_eq_of_pairs_perm
      (pairs_perm_of_mem_eq hstep.wfL.nodup hstep.wfR.nodup hstep.mem_eq)
  have h2 : (tL.insertRawL hash k v).tombstone_count
      = (tR.insertRawRH hash k v).tombstone_count := by
    rw [hstep.wfR.tomb_zero, hstep.wfL.tomb_eq]
    exact countTomb_eq_zero_of_noTomb hstep.ntL
  have hLE : (tL.insertRawL hash k v).loadExceeded
      ↔ (tR.insertRawRH hash k v).loadExceeded := by
    unfold Table.loadExceeded
    rw [h1, h2, hstep.cap_eq, hstep.tn_eq, hstep.td_eq]
  show Couple hash
    (if (tL.insertRawL hash k v).loadExceeded
      then (tL.insertRawL hash k v).growL hash else tL.insertRawL hash k v)
    (if (tR.insertRawRH hash k v).loadExceeded
      then (tR.insertRawRH hash k v).growRH hash else tR.insertRawRH hash k v)
  by_cases hle : (tL.insertRawL hash k v).loadExceeded
  · rw [if_pos hle, if_pos (hLE.mp hle)]
    exact coupleGrow hstep
  · rw [if_neg hle, if_neg (fun hcon => hle (hLE.mpr hcon))]
    exact hstep

theorem couple_run {hash : Nat → Nat} :
    ∀ (ops : List (Nat × Nat)) (tL tR : Table),
    Couple hash tL tR → Slot.empty ∈ tL.slots →
    tL.threshNum < tL.threshDen →
    Couple hash (ops.foldl (fun t p => t.insertL hash p.1 p.2) tL)
      (ops.foldl (fun t p => t.insertRH hash p.1 p.2) tR) := by
  intro ops
  induction ops with
  | nil =>
    intro tL tR hcpl _ _
    exact hcpl
  | cons p ops ih =>
    intro tL tR hcpl hasE htd
    simp only [List.foldl_cons]
    rcases insertL_spec p.1 p.2 hcpl.wfL hasE htd with
      ⟨_, hasE2, _, _, htn2, htd2⟩
    exact ih _ _ (coupleInsert hcpl hasE p.1 p.2) hasE2
      (by rw [htn2, htd2]; exact htd)


/-! ### The notebook analysis cell -/

theorem addSpeedups_getCol (df : DataFrame) (hname : String)
    (hh : hname ∈ hashmap_names) :
    (addSpeedups df).getCol (hname ++ " Speed-Up") =
      List.zipWith (fun u m => u / m) (df.getCol "UMap") (df.getCol hname) := by
  fin_cases hh <;> rfl

/-- C10: for every benchmark name and map name of the two lists, the
analysis code loads `benchmarks_dir ++ name ++ ".csv"` and adds a column
`"<map> Speed-Up"` equal to the UMap column divided element-wise by that
map's column; on any row where the map's time is positive, a speed-up
above 1 is equivalent to that map's time being below the UMap time. -/
theorem c10_benchmark_speedups (readCsv : String → DataFrame)
    (bname hname : String) (hb : bname ∈ benchmark_names)
    (hh : hname ∈ hashmap_names) :
    pdsGet (loadFrames readCsv) bname
      = addSpeedups (readCsv (benchmarks_dir ++ bname ++ ".csv")) ∧
    (pdsGet (loadFrames readCsv) bname).getCol (hname ++ " Speed-Up")
      = List.zipWith (fun u m => u / m)
          ((readCsv (benchmarks_dir ++ bname ++ ".csv")).getCol "UMap")
          ((readCsv (benchmarks_dir ++ bname ++ ".csv")).getCol hname) ∧
    (∀ i : Nat,
      i < ((readCsv (benchmarks_dir ++ bname ++ ".csv")).getCol "UMap").length →
      i < ((readCsv (benchmarks_dir ++ bname ++ ".csv")).getCol hname).length →
      0 < ((readCsv (benchmarks_dir ++ bname ++ ".csv")).getCol hname).getD i 0 →
      (1 < ((pdsGet (loadFrames readCsv) bname).getCol (hname ++ " Speed-Up")).getD i 0 ↔
        ((readCsv (benchmarks_dir ++ bname ++ ".csv")).getCol hname).getD i 0 <
          ((readCsv (benchmarks_dir ++ bname ++ ".csv")).getCol "UMap").getD i 0)) := by
  have h1 : pdsGet (loadFrames readCsv) bname
      = addSpeedups (readCsv (benchmarks_dir ++ bname ++ ".csv")) := by
    fin_cases hb <;> rfl
  have h2 := addSpeedups_getCol (readCsv (benchmarks_dir ++ bname ++ ".csv")) hname hh
  refine ⟨h1, by rw [h1, h2], ?_⟩
  intro i hu hm hpos
  rw [h1, h2]
  have hgu : ((readCsv (benchmarks_dir ++ bname ++ ".csv")).getCol "UMap")[i]?
      = some (((readCsv (benchmarks_dir ++ bname ++ ".csv")).getCol "UMap").getD i 0) := by
    rw [List.getElem?_eq_getElem hu, List.getD_eq_getElem?_getD,
      List.getElem?_eq_getElem hu, Option.getD_some]
  have hgm : ((readCsv (benchmarks_dir ++ bname ++ ".csv")).getCol hname)[i]?
      = some (((readCsv (benchmarks_dir ++ bname ++ ".csv")).getCol hname).getD i 0) := by
    rw [List.getElem?_eq_getElem hm, List.getD_eq_getElem?_getD,
      List.getElem?_eq_getElem hm, Option.getD_some]
  have hz : (List.zipWith (fun u m => u / m)
        ((readCsv (benchmarks_dir ++ bname ++ ".csv")).getCol "UMap")
        ((readCsv (benchmarks_dir ++ bname ++ ".csv")).getCol hname)).getD i 0
      = ((readCsv (benchmarks_dir ++ bname ++ ".csv")).getCol "UMap").getD i 0 /
          ((readCsv (benchmarks_dir ++ bname ++ ".csv")).getCol hname).getD i 0 := by
    rw [List.getD_eq_getElem?_getD, List.getElem?_zipWith, hgu, hgm]
    rfl
  rw [hz]
  exact one_lt_div hpos

/-- Witness for `c10_benchmark_speedups`: a constant `read_csv` giving a
one-row frame with UMap time 8 and LMap+TS time 2; the speed-up exceeds 1
exactly as 2 < 8. -/
theorem c10_benchmark_speedups_witness :
    1 < ((pdsGet (loadFrames (fun _ => ⟨[("UMap", [8]), ("LMap+TS", [2])]⟩))
        "insert").getCol ("LMap+TS" ++ " Speed-Up")).getD 0 0 ↔
      (((fun _ => (⟨[("UMap", [8]), ("LMap+TS", [2])]⟩ : DataFrame) :
          String → DataFrame) (benchmarks_dir ++ "insert" ++ ".csv")).getCol
        "LMap+TS").getD 0 0 <
      (((fun _ => (⟨[("UMap", [8]), ("LMap+TS", [2])]⟩ : DataFrame) :
          String → DataFrame) (benchmarks_dir ++ "insert" ++ ".csv")).getCol
        "UMap").getD 0 0 :=
  (c10_benchmark_speedups (fun _ => ⟨[("UMap", [8]), ("LMap+TS", [2])]⟩)
    "insert" "LMap+TS" (by decide) (by decide)).2.2 0 (by decide) (by decide)
    (by decide)

/-- C2: with capacity 8 and keys 0, 8, 16, 32 (all of home bucket 0)
inserted with value 1 each, the entries sit at indices 0, 1, 2, 3.  After
`remove 8`, the tombstone variant leaves index 1 as a tombstone while
`emplace 16` and `emplace 32` still return 1; the backward-shift variant
shifts key 16 into index 1 and key 32 into index 2, leaves index 3 empty,
and `emplace 32` returns 1. -/
theorem c2_concrete_scenario :
    slotAt scenarioC2.slots 0 = Slot.occ ⟨0, 1, 0, 0⟩ ∧
    slotAt scenarioC2.slots 1 = Slot.occ ⟨8, 1, 8, 0⟩ ∧
    slotAt scenarioC2.slots 2 = Slot.occ ⟨16, 1, 16, 0⟩ ∧
    slotAt scenarioC2.slots 3 = Slot.occ ⟨32, 1, 32, 0⟩ ∧
    slotAt (scenarioC2.removeTS id 8).2.slots 1 = Slot.tomb ∧
    (scenarioC2.removeTS id 8).2.emplaceL id 16 = some 1 ∧
    (scenarioC2.removeTS id 8).2.emplaceL id 32 = some 1 ∧
    slotAt (scenarioC2.removeBS id 8).2.slots 1 = Slot.occ ⟨16, 1, 16, 0⟩ ∧
    slotAt (scenarioC2.removeBS id 8).2.slots 2 = Slot.occ ⟨32, 1, 32, 0⟩ ∧
    slotAt (scenarioC2.removeBS id 8).2.slots 3 = Slot.empty ∧
    (scenarioC2.removeBS id 8).2.emplaceL id 32 = some 1 := by
  decide

/-- C4: during Robin Hood insertion, at a probed slot occupied by a
different key, a swap happens exactly when the resident's PSL is strictly
below the traveling entry's PSL: on a swap the original traveling entry is
placed in that slot and the resident travels on, and in either case the
walk continues at the next slot with the (new) traveling PSL incremented. -/
theorem c4_robinhood_swap_rule (cap : Nat) (slots : List Slot) (tr e : Entry)
    (i : Nat) (hocc : slotAt slots i = Slot.occ e) (hne : e.key ≠ tr.key) :
    (e.psl < tr.psl →
      rhStep cap slots tr i =
        Sum.inr (slots.set i (Slot.occ tr),
          ⟨e.key, e.value, e.ehash, e.psl + 1⟩, (i+1) % cap)) ∧
    (¬ e.psl < tr.psl →
      rhStep cap slots tr i =
        Sum.inr (slots, ⟨tr.key, tr.value, tr.ehash, tr.psl + 1⟩, (i+1) % cap)) ∧
    (∀ slots' tr' i' fuel,
      rhStep cap slots tr i = Sum.inr (slots', tr', i') →
      rhInsLoop cap slots tr i (fuel+1) = rhInsLoop cap slots' tr' i' fuel) := by
  refine ⟨?_, ?_, ?_⟩
  · intro hlt
    simp only [rhStep, hocc, if_neg hne, if_pos hlt]
  · intro hge
    simp only [rhStep, hocc, if_neg hne, if_neg hge]
  · intro slots' tr' i' fuel hstep
    simp only [rhInsLoop, hstep]

/-- Witness for `c4_robinhood_swap_rule` at a concrete input: capacity 8,
a resident of PSL 0 at index 0, traveling entry of PSL 1. -/
theorem c4_robinhood_swap_rule_witness :
    (slotAt [Slot.occ ⟨3, 30, 0, 0⟩] 0 = Slot.occ ⟨3, 30, 0, 0⟩ ∧
      (3 : Nat) ≠ 4) ∧
    ((0 : Nat) < 1 →
      rhStep 8 [Slot.occ ⟨3, 30, 0, 0⟩] ⟨4, 40, 16, 1⟩ 0 =
        Sum.inr ([Slot.occ ⟨3, 30, 0, 0⟩].set 0 (Slot.occ ⟨4, 40, 16, 1⟩),
          ⟨3, 30, 0, 0 + 1⟩, (0+1) % 8)) := by
  refine ⟨⟨rfl, by decide⟩, ?_⟩
  exact (c4_robinhood_swap_rule 8 [Slot.occ ⟨3, 30, 0, 0⟩] ⟨4, 40, 16, 1⟩
    ⟨3, 30, 0, 0⟩ 0 rfl (by decide)).1

/-- C5 (counterexample): the claim says that when moving the next occupied
entry backward into the hole is not legal, the backward-shift loop stops,
leaving the hole as a terminal empty slot, and does not skip that entry and
continue.  On the concrete table with keys 5 (home 5), 6 (home 6) and
13 (home 5) at indices 5, 6 and 7, removing key 5 meets the illegal entry
(key 6, at its own home index 6): the code skips it, moves key 13 from
index 7 into the hole at index 5, and only then stops — the hole is not
left empty. -/
theorem c5_counterexample :
    slotAt scenarioC5.slots 5 = Slot.occ ⟨5, 7, 5, 0⟩ ∧
    slotAt scenarioC5.slots 6 = Slot.occ ⟨6, 8, 6, 0⟩ ∧
    slotAt scenarioC5.slots 7 = Slot.occ ⟨13, 9, 13, 0⟩ ∧
    cdist 8 (homeIdx 8 6) 6 < cdist 8 5 6 ∧
    slotAt scenarioC5r.slots 5 = Slot.occ ⟨13, 9, 13, 0⟩ ∧
    ¬ slotAt scenarioC5r.slots 5 = Slot.empty ∧
    slotAt scenarioC5r.slots 7 = Slot.empty := by
  decide

/-- C5 (amended): in the backward-shift remove, when moving the next
occupied entry backward into the hole is not legal (the entry's home index
lies cyclically inside `(hole, j]`), the shift loop does not stop: it skips
that entry and continues examining later slots, with the hole staying where
it is. -/
theorem c5_illegal_move_skips (cap : Nat) (slots : List Slot)
    (hole j fuel : Nat) (e : Entry) (hocc : slotAt slots j = Slot.occ e)
    (hill : cdist cap (homeIdx cap e.ehash) j < cdist cap hole j) :
    shiftLoop cap slots hole j (fuel+1) =
      shiftLoop cap slots hole ((j+1) % cap) fuel := by
  simp only [shiftLoop, hocc, if_pos hill]

/-- C1: for every sequence of inserts run on a fresh table of any valid
configuration (positive capacity, threshold below 1), every inserted key is
subsequently emplace-able and emplace returns the last value inserted for
that key; keys stay pairwise distinct, so re-inserting a present key
overwrites its value instead of duplicating the entry.  The linear run
covers both the tombstone and the backward-shift variants (their insert and
emplace are the same procedure); the Robin Hood run covers the third. -/
theorem c1_last_write_wins (hash : Nat → Nat) (cap tn td : Nat)
    (ops : List (Nat × Nat)) (k v : Nat) (hc : 0 < cap) (htd : tn < td) :
    (lastVal ops k = some v →
      (runL hash cap tn td ops).emplaceL hash k = some v ∧
      (runRH hash cap tn td ops).emplaceRH hash k = some v) ∧
    (keysOf (runL hash cap tn td ops).slots).Nodup ∧
    (keysOf (runRH hash cap tn td ops).slots).Nodup := by
  have hmkE : Slot.empty ∈ (mkTable cap tn td).slots :=
    List.mem_replicate.mpr ⟨by omega, rfl⟩
  have hL := runL_fold_inv hash ops (mkTable cap tn td) (fun _ => none)
    (mkTable_WFL hash cap tn td hc) hmkE htd (fun k v h => by cases h)
  have hR := runRH_fold_inv hash ops (mkTable cap tn td) (fun _ => none)
    (mkTable_WFRH hash cap tn td hc) hmkE htd (fun k v h => by cases h)
  refine ⟨?_, keysOf_nodup hL.1.nodup, keysOf_nodup hR.1.nodup⟩
  intro hlast
  constructor
  · exact (emplaceL_some_iff hL.1 k v).mpr (hL.2.2 k v hlast)
  · exact (emplaceRH_some_iff hR.1 k v).mpr (hR.2.2 k v hlast)

/-- Witness for `c1_last_write_wins`: capacity 8, threshold 1/2, insert
key 3 with value 7 and then with value 9. -/
theorem c1_last_write_wins_witness :
    (runL id 8 1 2 [(3, 7), (3, 9)]).emplaceL id 3 = some 9 ∧
    (runRH id 8 1 2 [(3, 7), (3, 9)]).emplaceRH id 3 = some 9 := by
  have h := c1_last_write_wins id 8 1 2 [(3, 7), (3, 9)] 3 9 (by decide) (by decide)
  exact h.1 (by decide)

/-- C7: a grow pass (the triggered resize) preserves the set of
(key, value) pairs for every variant (the linear grow is shared by the
tombstone and backward-shift variants), and for the tombstone variant it
drops all tombstones, returning `tombstone_count` to 0. -/
theorem c7_resize_preserves_pairs (hash : Nat → Nat) (t u : Table) :
    (WFL hash t →
      (∀ p : Nat × Nat, p ∈ pairsOf (t.growL hash).slots ↔ p ∈ pairsOf t.slots) ∧
      (t.growL hash).tombstone_count = 0) ∧
    (WFRH hash u →
      (∀ p : Nat × Nat,
        p ∈ pairsOf (u.growRH hash).slots ↔ p ∈ pairsOf u.slots) ∧
      (u.growRH hash).tombstone_count = 0) := by
  constructor
  · intro hwf
    rcases growL_spec hash t hwf with ⟨_, hperm, _, _, htomb, _, _⟩
    exact ⟨fun p => hperm.mem_iff, htomb⟩
  · intro hwf
    rcases growRH_spec hash u hwf with ⟨gwf, hperm, _, _, _, _⟩
    exact ⟨fun p => hperm.mem_iff, gwf.tomb_zero⟩

/-- Witness for `c7_resize_preserves_pairs`: grow a one-entry table of
each kind. -/
theorem c7_resize_preserves_pairs_witness :
    ((∀ p : Nat × Nat,
      p ∈ pairsOf (((mkTable 4 1 2).insertL id 1 9).growL id).slots ↔
      p ∈ pairsOf ((mkTable 4 1 2).insertL id 1 9).slots) ∧
      (((mkTable 4 1 2).insertL id 1 9).growL id).tombstone_count = 0) ∧
    ((∀ p : Nat × Nat,
      p ∈ pairsOf (((mkTable 4 1 2).insertRH id 1 9).growRH id).slots ↔
      p ∈ pairsOf ((mkTable 4 1 2).insertRH id 1 9).slots) ∧
      (((mkTable 4 1 2).insertRH id 1 9).growRH id).tombstone_count = 0) := by
  have hE : Slot.empty ∈ (mkTable 4 1 2).slots :=
    List.mem_replicate.mpr ⟨by decide, rfl⟩
  have hwfL : WFL id ((mkTable 4 1 2).insertL id 1 9) :=
    (insertL_spec 1 9 (mkTable_WFL id 4 1 2 (by decide)) hE (by decide)).1
  have hwfR : WFRH id ((mkTable 4 1 2).insertRH id 1 9) :=
    (insertRH_spec 1 9 (mkTable_WFRH id 4 1 2 (by decide)) hE (by decide)).1
  exact ⟨(c7_resize_preserves_pairs id ((mkTable 4 1 2).insertL id 1 9)
      ((mkTable 4 1 2).insertRH id 1 9)).1 hwfL,
    (c7_resize_preserves_pairs id ((mkTable 4 1 2).insertL id 1 9)
      ((mkTable 4 1 2).insertRH id 1 9)).2 hwfR⟩

/-- C8: on every well-formed table state, `emplace k` returns exactly the
stored value when the key is present and `none` when it is absent, and it
leaves the entire table state unchanged (the operation, as a state
transformer, returns the table it was given).  The first part covers the
shared linear `emplace` of the tombstone and backward-shift variants, the
second the Robin Hood `emplace`. -/
theorem c8_emplace_contract (hash : Nat → Nat) (t : Table) (k : Nat) :
    (WFL hash t →
      (∀ v, t.emplaceL hash k = some v ↔ (k, v) ∈ pairsOf t.slots) ∧
      (t.emplaceL hash k = none ↔ k ∉ keysOf t.slots) ∧
      (t.emplaceOpL hash k).2 = t) ∧
    (WFRH hash t →
      (∀ v, t.emplaceRH hash k = some v ↔ (k, v) ∈ pairsOf t.slots) ∧
      (t.emplaceRH hash k = none ↔ k ∉ keysOf t.slots) ∧
      (t.emplaceOpRH hash k).2 = t) := by
  constructor
  · intro hwf
    exact ⟨fun v => emplaceL_some_iff hwf k v, emplaceL_none_iff hwf k, rfl⟩
  · intro hwf
    exact ⟨fun v => emplaceRH_some_iff hwf k v, emplaceRH_none_iff hwf k, rfl⟩

/-- Witness for `c8_emplace_contract` on a table holding the single pair
(3, 5). -/
theorem c8_emplace_contract_witness :
    ((∀ v, ((mkTable 8 1 2).insertL id 3 5).emplaceL id 3 = some v ↔
        (3, v) ∈ pairsOf ((mkTable 8 1 2).insertL id 3 5).slots) ∧
      (((mkTable 8 1 2).insertL id 3 5).emplaceL id 3 = none ↔
        3 ∉ keysOf ((mkTable 8 1 2).insertL id 3 5).slots) ∧
      (((mkTable 8 1 2).insertL id 3 5).emplaceOpL id 3).2
        = (mkTable 8 1 2).insertL id 3 5) ∧
    ((∀ v, ((mkTable 8 1 2).insertRH id 3 5).emplaceRH id 3 = some v ↔
        (3, v) ∈ pairsOf ((mkTable 8 1 2).insertRH id 3 5).slots) ∧
      (((mkTable 8 1 2).insertRH id 3 5).emplaceRH id 3 = none ↔
        3 ∉ keysOf ((mkTable 8 1 2).insertRH id 3 5).slots) ∧
      (((mkTable 8 1 2).insertRH id 3 5).emplaceOpRH id 3).2
        = (mkTable 8 1 2).insertRH id 3 5) := by
  have hE : Slot.empty ∈ (mkTable 8 1 2).slots :=
    List.mem_replicate.mpr ⟨by decide, rfl⟩
  have hwfL : WFL id ((mkTable 8 1 2).insertL id 3 5) :=
    (insertL_spec 3 5 (mkTable_WFL id 8 1 2 (by decide)) hE (by decide)).1
  have hwfR : WFRH id ((mkTable 8 1 2).insertRH id 3 5) :=
    (insertRH_spec 3 5 (mkTable_WFRH id 8 1 2 (by decide)) hE (by decide)).1
  exact ⟨(c8_emplace_contract id _ 3).1 hwfL, (c8_emplace_contract id _ 3).2 hwfR⟩

/-- C9: on every well-formed table, `remove k` returns `true` exactly when
an entry with key `k` is present (and then performs the removal —
`live_count` drops by one), returns `false` when the key is absent, and in
the absent case performs no mutation at all: absence is reported through
the boolean return, not as an error.  Stated for all three variants. -/
theorem c9_remove_contract (hash : Nat → Nat) (t : Table) (k : Nat) :
    (WFL hash t →
      ((t.removeTS hash k).1 = true ↔ k ∈ keysOf t.slots) ∧
      ((t.removeTS hash k).1 = false → (t.removeTS hash k).2 = t) ∧
      ((t.removeTS hash k).1 = true →
        (t.removeTS hash k).2.live_count = t.live_count - 1) ∧
      ((t.removeBS hash k).1 = true ↔ k ∈ keysOf t.slots) ∧
      ((t.removeBS hash k).1 = false → (t.removeBS hash k).2 = t) ∧
      ((t.removeBS hash k).1 = true →
        (t.removeBS hash k).2.live_count = t.live_count - 1)) ∧
    (WFRH hash t →
      ((t.removeRH hash k).1 = true ↔ k ∈ keysOf t.slots) ∧
      ((t.removeRH hash k).1 = false → (t.removeRH hash k).2 = t) ∧
      ((t.removeRH hash k).1 = true →
        (t.removeRH hash k).2.live_count = t.live_count - 1)) := by
  constructor
  · intro hwf
    rcases removeTS_spec hwf k with ⟨h1, h2, h3⟩
    rcases removeBS_spec hwf k with ⟨h4, h5, h6⟩
    exact ⟨h1, h2, h3, h4, h5, h6⟩
  · intro hwf
    exact removeRH_spec hwf k

/-- Witness for `c9_remove_contract` on a table holding the single pair
(3, 5) (present key 3; the absent-key case is part of the contract). -/
theorem c9_remove_contract_witness :
    ((((mkTable 8 1 2).insertL id 3 5).removeTS id 3).1 = true ↔
      3 ∈ keysOf ((mkTable 8 1 2).insertL id 3 5).slots) ∧
    ((((mkTable 8 1 2).insertRH id 3 5).removeRH id 3).1 = true ↔
      3 ∈ keysOf ((mkTable 8 1 2).insertRH id 3 5).slots) := by
  have hE : Slot.empty ∈ (mkTable 8 1 2).slots :=
    List.mem_replicate.mpr ⟨by decide, rfl⟩
  have hwfL : WFL id ((mkTable 8 1 2).insertL id 3 5) :=
    (insertL_spec 3 5 (mkTable_WFL id 8 1 2 (by decide)) hE (by decide)).1
  have hwfR : WFRH id ((mkTable 8 1 2).insertRH id 3 5) :=
    (insertRH_spec 3 5 (mkTable_WFRH id 8 1 2 (by decide)) hE (by decide)).1
  exact ⟨((c9_remove_contract id _ 3).1 hwfL).1,
    ((c9_remove_contract id _ 3).2 hwfR).1⟩

/-- Witness for `c5_illegal_move_skips` on the `scenarioC5` removal state:
hole 5, scan index 6, the resident keyed 6 sitting at its home index. -/
theorem c5_illegal_move_skips_witness :
    slotAt (scenarioC5.slots.set 5 Slot.empty) 6 = Slot.occ ⟨6, 8, 6, 0⟩ ∧
    cdist 8 (homeIdx 8 6) 6 < cdist 8 5 6 ∧
    shiftLoop 8 (scenarioC5.slots.set 5 Slot.empty) 5 6 8 =
      shiftLoop 8 (scenarioC5.slots.set 5 Slot.empty) 5 ((6+1) % 8) 7 := by
  refine ⟨by decide, by decide, ?_⟩
  exact c5_illegal_move_skips 8 (scenarioC5.slots.set 5 Slot.empty) 5 6 7
    ⟨6, 8, 6, 0⟩ (by decide) (by decide)


/-- C6: populating a Robin Hood table and a linear-probing table with the
same key/insertion-order sequence (from the same fresh geometry `0 < cap`
and threshold below one; both variants trigger their resizes in lockstep)
leaves the two tables with the same total PSL: the sum of the Robin Hood
entries' stored PSL fields — equivalently, positionally, the sum of their
cyclic displacements from their home indices — equals the sum of the
linear-probing entries' displacements from their home indices.  Robin Hood
swaps only redistribute displacement; they conserve its total. -/
theorem c6_psl_sum_conserved (hash : Nat → Nat) (cap tn td : Nat)
    (ops : List (Nat × Nat)) (hc : 0 < cap) (htd : tn < td) :
    sumPSLfield (runRH hash cap tn td ops).slots
      = sumPSLpos (runL hash cap tn td ops).slots ∧
    sumPSLpos (runRH hash cap tn td ops).slots
      = sumPSLpos (runL hash cap tn td ops).slots := by
  have hrun := couple_run ops (mkTable cap tn td) (mkTable cap tn td)
    (couple_mk hash cap tn td hc)
    (by
      show Slot.empty ∈ List.replicate cap Slot.empty
      exact List.mem_replicate.mpr ⟨by omega, rfl⟩)
    htd
  constructor
  · show sumPSLfield ((ops.foldl (fun t p => t.insertRH hash p.1 p.2)
        (mkTable cap tn td))).slots
      = sumPSLpos ((ops.foldl (fun t p => t.insertL hash p.1 p.2)
        (mkTable cap tn td))).slots
    exact hrun.psl_eq.symm
  · show sumPSLpos ((ops.foldl (fun t p => t.insertRH hash p.1 p.2)
        (mkTable cap tn td))).slots
      = sumPSLpos ((ops.foldl (fun t p => t.insertL hash p.1 p.2)
        (mkTable cap tn td))).slots
    rw [← sumPSLfield_eq_pos hrun.wfR.psl_ok]
    exact hrun.psl_eq.symm

/-- Witness for `c6_psl_sum_conserved`: a concrete run — identity hash,
capacity 8, threshold 1/2, colliding keys 0, 8, 16 plus key 1 and an
overwrite of key 0 — discharging both hypotheses. -/
theorem c6_psl_sum_conserved_witness :
    0 < 8 ∧ 1 < 2 ∧
    (sumPSLfield
        (runRH id 8 1 2 [(0, 10), (8, 20), (16, 30), (1, 40), (0, 50)]).slots
      = sumPSLpos
        (runL id 8 1 2 [(0, 10), (8, 20), (16, 30), (1, 40), (0, 50)]).slots ∧
     sumPSLpos
        (runRH id 8 1 2 [(0, 10), (8, 20), (16, 30), (1, 40), (0, 50)]).slots
      = sumPSLpos
        (runL id 8 1 2 [(0, 10), (8, 20), (16, 30), (1, 40), (0, 50)]).slots) :=
  ⟨by decide, by decide,
    c6_psl_sum_conserved id 8 1 2 [(0, 10), (8, 20), (16, 30), (1, 40), (0, 50)]
      (by decide) (by decide)⟩

end RHM
